import Mathlib

/-!
# btr_trace: randomized B-tree workload generator and its oracle

A shallow embedding of `src/tools/c/btr_trace.c`.

* Machine words are natural numbers reduced modulo `2 ^ w` wherever the C
  arithmetic can wrap; signed 64-bit values are integers.
* Loops whose exit depends on the random stream take a `fuel` argument that
  bounds the number of redraws; running out of fuel is the outcome
  `Run.timeout`.
* Array accesses are bounds-checked; an access outside the array and a
  division by zero are the outcome `Run.ub`.
* `calloc` returns NULL when the byte count of the request does not fit
  `size_t`; NULL is the buffer with no element, so every access through it is
  the outcome `Run.ub`. The program does not check the result of `calloc`.
* The storage engine (`innodb.h`) is a parameter of the driver.
-/

namespace BtrTrace

/-! ## Outcomes of a computation -/

/-- The fatal diagnostics that `main` prints before `return 1`. -/
inductive Fatal where
  | insert_failed
  | delete_lookup_failed
  | delete_failed
  | search_failed
  | read_failed
  | next_failed
  | first_failed
  deriving DecidableEq, Repr

/-- The kinds of undefined behaviour the embedding tracks. -/
inductive Fault where
  /-- An access `present[key]` outside the 1001 elements. -/
  | present_oob
  /-- An access `keys[i]` outside the elements that `calloc` gave; every
  access when `keys` is NULL. -/
  | keys_oob
  /-- An access `final_keys[i]` outside the elements that `calloc` gave; every
  access when `final_keys` is NULL. -/
  | final_keys_oob
  /-- A `%` with a zero divisor. -/
  | div_by_zero
  deriving DecidableEq, Repr

/-- Outcome of running a piece of the program. -/
inductive Run (α : Type) where
  /-- Normal completion with a value. -/
  | ret (a : α)
  /-- The program printed a diagnostic and returned 1. -/
  | exit1 (f : Fatal)
  /-- The redraw budget ran out. -/
  | timeout
  /-- Undefined behaviour: out-of-bounds access or division by zero. -/
  | ub (k : Fault)
  deriving DecidableEq, Repr

/-- Whether the computation completed with a value. -/
def Run.returns {α : Type} (r : Run α) : Bool :=
  match r with
  | .ret _ => true
  | _ => false

/-- The value of a completed computation, `dflt` otherwise. -/
def Run.value {α : Type} (r : Run α) (dflt : α) : α :=
  match r with
  | .ret a => a
  | _ => dflt

/-- Sequencing of outcomes. -/
def Run.bind {α β : Type} (r : Run α) (f : α → Run β) : Run β :=
  match r with
  | .ret a => f a
  | .exit1 e => .exit1 e
  | .timeout => .timeout
  | .ub k => .ub k

/-! ## Generator (lines 84-132) -/

/-- The modulus of `uint64_t` arithmetic. -/
def U64 : Nat := 2 ^ 64

/-- The modulus of `uint8_t` arithmetic. -/
def U8 : Nat := 2 ^ 8

/-- Generator state `xoshiro256`: the four words `s[0..3]`. -/
structure xoshiro256 where
  s0 : Nat
  s1 : Nat
  s2 : Nat
  s3 : Nat
  deriving DecidableEq, Repr

/-- Function `splitmix64_next`: returns the output word and the advanced accumulator. -/
def splitmix64_next (state : Nat) : Nat × Nat :=
  let state := (state + 0x9E3779B97F4A7C15) % U64
  let z := state
  let z := ((z ^^^ (z >>> 30)) * 0xBF58476D1CE4E5B9) % U64
  let z := ((z ^^^ (z >>> 27)) * 0x94D049BB133111EB) % U64
  (z ^^^ (z >>> 31), state)

/-- Function `rotl64`: `(x << k) | (x >> (64 - k))` on a 64-bit word. -/
def rotl64 (x : Nat) (k : Nat) : Nat :=
  ((x <<< k) % U64) ||| (x >>> (64 - k))

/-- Function `xoshiro_seed`: four consecutive outputs of splitmix64 started at `seed`. -/
def xoshiro_seed (seed : Nat) : xoshiro256 :=
  let sm := seed
  let (a0, sm) := splitmix64_next sm
  let (a1, sm) := splitmix64_next sm
  let (a2, sm) := splitmix64_next sm
  let (a3, _) := splitmix64_next sm
  { s0 := a0, s1 := a1, s2 := a2, s3 := a3 }

/-- Function `xoshiro_next`: the statements of lines 108-119 in order; returns the
output word and the new state. -/
def xoshiro_next (rng : xoshiro256) : Nat × xoshiro256 :=
  let r := (rotl64 ((rng.s0 + rng.s3) % U64) 23 + rng.s0) % U64
  let t := (rng.s1 <<< 17) % U64
  let rng := { rng with s2 := rng.s2 ^^^ rng.s0 }
  let rng := { rng with s3 := rng.s3 ^^^ rng.s1 }
  let rng := { rng with s1 := rng.s1 ^^^ rng.s2 }
  let rng := { rng with s0 := rng.s0 ^^^ rng.s3 }
  let rng := { rng with s2 := rng.s2 ^^^ t }
  let rng := { rng with s3 := rotl64 rng.s3 45 }
  (r, rng)

/-- Function `rand_u64`. -/
def rand_u64 (rng : xoshiro256) : Nat × xoshiro256 :=
  xoshiro_next rng

/-- Function `rand_u8`: the low byte of the next word. -/
def rand_u8 (rng : xoshiro256) : Nat × xoshiro256 :=
  let (r, rng) := xoshiro_next rng
  (r % U8, rng)

/-- Function `rand_bool`: the low bit of the next byte. -/
def rand_bool (rng : xoshiro256) : Nat × xoshiro256 :=
  let (r, rng) := rand_u8 rng
  ((r &&& 1) % U8, rng)

/-! ## Bounded samplers (lines 134-193) -/

/-- The modulus of `uint16_t` arithmetic. -/
def U16 : Nat := 2 ^ 16

/-- The modulus of `__uint128_t` arithmetic. -/
def U128 : Nat := 2 ^ 128

/-- Product `(uint16_t)x * (uint16_t)less_than` stored in a `uint16_t`. -/
def mul16 (x less_than : Nat) : Nat := (x * less_than) % U16

/-- Low half `(uint8_t)m` of a 16-bit product. -/
def lo8 (m : Nat) : Nat := m % U8

/-- High half `(uint8_t)(m >> 8)` of a 16-bit product. -/
def hi8 (m : Nat) : Nat := (m >>> 8) % U8

/-- Product `(__uint128_t)x * less_than`. -/
def mul128 (x less_than : Nat) : Nat := (x * less_than) % U128

/-- Low half `(uint64_t)m` of a 128-bit product. -/
def lo64 (m : Nat) : Nat := m % U64

/-- High half `(uint64_t)(m >> 64)` of a 128-bit product. -/
def hi64 (m : Nat) : Nat := (m >>> 64) % U64

/-- Lines 140-146: the rejection threshold of `uint_less_than_u8`;
`none` when `t % less_than` would divide by zero. -/
def threshold_u8 (less_than : Nat) : Option Nat :=
  let t := (U8 - less_than) % U8
  if t ≥ less_than then
    let t := (t - less_than) % U8
    if t ≥ less_than then
      if less_than = 0 then none else some ((t % less_than) % U8)
    else some t
  else some t

/-- Lines 163-169: the rejection threshold of `uint_less_than_u64`;
`none` when `t %= less_than` would divide by zero. -/
def threshold_u64 (less_than : Nat) : Option Nat :=
  let t := (U64 - less_than) % U64
  if t ≥ less_than then
    let t := t - less_than
    if t ≥ less_than then
      if less_than = 0 then none else some (t % less_than)
    else some t
  else some t

/-- Lines 147-154: the redraw loop `while (l < t)` of `uint_less_than_u8`
entered with product `m`, then the return of the high half. -/
def uint_less_than_u8_loop (less_than t : Nat) :
    Nat → xoshiro256 → Nat → Run (Nat × xoshiro256)
  | fuel, rng, m =>
    if lo8 m < t then
      match fuel with
      | 0 => .timeout
      | fuel + 1 =>
        let (x, rng) := rand_u8 rng
        uint_less_than_u8_loop less_than t fuel rng (mul16 x less_than)
    else .ret (hi8 m, rng)

/-- Function `uint_less_than_u8`. -/
def uint_less_than_u8 (fuel : Nat) (rng : xoshiro256) (less_than : Nat) :
    Run (Nat × xoshiro256) :=
  let (x, rng) := rand_u8 rng
  let m := mul16 x less_than
  let l := lo8 m
  if l < less_than then
    match threshold_u8 less_than with
    | none => .ub .div_by_zero
    | some t => uint_less_than_u8_loop less_than t fuel rng m
  else .ret (hi8 m, rng)

/-- Lines 170-177: the redraw loop `while (l < t)` of `uint_less_than_u64`
entered with product `m`, then the return of the high half. -/
def uint_less_than_u64_loop (less_than t : Nat) :
    Nat → xoshiro256 → Nat → Run (Nat × xoshiro256)
  | fuel, rng, m =>
    if lo64 m < t then
      match fuel with
      | 0 => .timeout
      | fuel + 1 =>
        let (x, rng) := rand_u64 rng
        uint_less_than_u64_loop less_than t fuel rng (mul128 x less_than)
    else .ret (hi64 m, rng)

/-- Function `uint_less_than_u64`. -/
def uint_less_than_u64 (fuel : Nat) (rng : xoshiro256) (less_than : Nat) :
    Run (Nat × xoshiro256) :=
  let (x, rng) := rand_u64 rng
  let m := mul128 x less_than
  let l := lo64 m
  if l < less_than then
    match threshold_u64 less_than with
    | none => .ub .div_by_zero
    | some t => uint_less_than_u64_loop less_than t fuel rng m
  else .ret (hi64 m, rng)

/-- Whether the raw byte `x` is kept by `uint_less_than_u8` when it is the
first one drawn: the guard of line 139 fails, or the loop condition of line
147 fails at once. -/
def accepts_u8 (less_than x : Nat) : Bool :=
  let l := lo8 (mul16 x less_than)
  if l < less_than then
    match threshold_u8 less_than with
    | none => false
    | some t => !decide (l < t)
  else true

/-- Whether the raw word `x` is kept by `uint_less_than_u64` when it is the
first one drawn: the guard of line 162 fails, or the loop condition of line
170 fails at once. -/
def accepts_u64 (less_than x : Nat) : Bool :=
  let l := lo64 (mul128 x less_than)
  if l < less_than then
    match threshold_u64 less_than with
    | none => false
    | some t => !decide (l < t)
  else true

/-- The generator state after `k` calls of `xoshiro_next`. -/
def after_draws : Nat → xoshiro256 → xoshiro256
  | 0, rng => rng
  | k + 1, rng => after_draws k (xoshiro_next rng).2

/-- The raw word that the `k`-th call of `rand_u64` (counted from 0) yields
when the calls start in state `rng`. -/
def raw_u64 (rng : xoshiro256) (k : Nat) : Nat := (rand_u64 (after_draws k rng)).1

/-- The raw byte that the `k`-th call of `rand_u8` (counted from 0) yields
when the calls start in state `rng`. -/
def raw_u8 (rng : xoshiro256) (k : Nat) : Nat := (rand_u8 (after_draws k rng)).1

/-- Function `uint_at_most_u64`. -/
def uint_at_most_u64 (fuel : Nat) (rng : xoshiro256) (at_most : Nat) :
    Run (Nat × xoshiro256) :=
  if at_most = U64 - 1 then .ret (rand_u64 rng)
  else uint_less_than_u64 fuel rng ((at_most + 1) % U64)

/-- The cast `(uint64_t)i` of a signed value. -/
def to_u64 (i : Int) : Nat := (i % (U64 : Int)).toNat

/-- The cast `(int64_t)n` of a 64-bit word. -/
def to_i64 (n : Nat) : Int :=
  if n % U64 < 2 ^ 63 then ((n % U64 : Nat) : Int) else ((n % U64 : Nat) : Int) - (U64 : Int)

/-- Function `int_range_at_most_i64`. -/
def int_range_at_most_i64 (fuel : Nat) (rng : xoshiro256) (at_least at_most : Int) :
    Run (Int × xoshiro256) :=
  let lo := to_u64 at_least
  let hi := to_u64 at_most
  let diff := (hi + U64 - lo) % U64
  (uint_at_most_u64 fuel rng diff).bind fun (v, rng) =>
    .ret (to_i64 ((lo + v) % U64), rng)

/-! ## Engine interface (`innodb.h`) -/

/-- The values of `ib_err_t` that the driver tells apart. -/
inductive ib_err_t where
  | DB_SUCCESS
  | DB_END_OF_INDEX
  | DB_RECORD_NOT_FOUND
  | DB_DUPLICATE_KEY
  | DB_ERROR
  deriving DecidableEq, Repr

/-- The engine calls made by `main`, as functions on an engine state `σ`.
Tuple handling (`ib_tuple_write_i32`, `ib_tuple_read_i32`, `ib_tuple_clear`)
is folded into the call that uses the tuple; the `OK(...)` and `assert`
checks around set-up calls are taken to pass. -/
structure Engine (σ : Type) where
  /-- Call `ib_cursor_insert_row` of the tuple holding the given `int`. -/
  insert_row : σ → Int → ib_err_t × σ
  /-- Call `ib_cursor_moveto(crsr, key_tpl, IB_CUR_GE, &res)`: error, `res`, state. -/
  moveto : σ → Int → ib_err_t × Int × σ
  /-- Call `ib_cursor_delete_row` at the cursor position. -/
  delete_row : σ → ib_err_t × σ
  /-- Call `ib_cursor_first` on the scan cursor. -/
  cursor_first : σ → ib_err_t × σ
  /-- Call `ib_cursor_read_row` on the scan cursor, with the `int` read from it. -/
  cursor_read_row : σ → ib_err_t × Int × σ
  /-- Call `ib_cursor_next` on the scan cursor. -/
  cursor_next : σ → ib_err_t × σ

/-! ## Driver (lines 244-352) -/

/-- A line of standard output. -/
inductive Line where
  /-- Line `seed=<seed> ops=<ops>` -/
  | header (seed ops : Nat)
  /-- Line `I <key>` -/
  | I (key : Int)
  /-- Line `D <key>` -/
  | D (key : Int)
  /-- Line `S <key> <0|1>` -/
  | S (key : Int) (found : Nat)
  /-- Line `final <count> <key>...` -/
  | final (count : Nat) (keys : List Int)
  deriving DecidableEq, Repr

/-- The variables of `main` that live across the driver loop. -/
structure Driver (σ : Type) where
  /-- Variable `rng` -/
  rng : xoshiro256
  /-- Variable `keys`, the buffer from `calloc(ops, sizeof(int64_t))`; the
  empty list when it is NULL -/
  keys : List Int
  /-- Variable `key_count` -/
  key_count : Nat
  /-- Variable `present[1001]` -/
  present : List Nat
  /-- the engine behind `crsr` -/
  crsr : σ
  /-- standard output so far -/
  out : List Line
  deriving DecidableEq

/-- The cast `(int)key`. -/
def to_i32 (k : Int) : Int := (k + 2 ^ 31) % 2 ^ 32 - 2 ^ 31

/-- Read `present[key]`. -/
def read_present (present : List Nat) (key : Int) : Run Nat :=
  if 0 ≤ key then
    match present[key.toNat]? with
    | some p => .ret p
    | none => .ub .present_oob
  else .ub .present_oob

/-- Write `present[key] = v`. -/
def write_present (present : List Nat) (key : Int) (v : Nat) : Run (List Nat) :=
  if 0 ≤ key ∧ key.toNat < present.length then .ret (present.set key.toNat v)
  else .ub .present_oob

/-- The library call `calloc(nmemb, size)` for a buffer of `int64_t`, with a
64-bit `size_t`. When `nmemb * size` does not fit `size_t` the call returns
NULL, which is the buffer with no element: `read_keys` and `write_keys` fault
at every index of it. A request that fits is taken to be granted and gives
`nmemb` zeroed elements. -/
def calloc (nmemb size : Nat) : List Int :=
  if nmemb * size < U64 then List.replicate nmemb 0 else []

/-- Read `buf[i]` of a key buffer; `k` names the buffer in case of a fault. -/
def read_keys (k : Fault) (buf : List Int) (i : Nat) : Run Int :=
  match buf[i]? with
  | some v => .ret v
  | none => .ub k

/-- Write `buf[i] = v` of a key buffer; `k` names the buffer in case of a fault. -/
def write_keys (k : Fault) (buf : List Int) (i : Nat) (v : Int) : Run (List Int) :=
  if i < buf.length then .ret (buf.set i v) else .ub k

/-- Lines 284-287: `while (present[key] && tries < 10)`; `left` is `10 - tries`. -/
def insert_retry (fuel : Nat) (present : List Nat) :
    Nat → Int → xoshiro256 → Run (Int × xoshiro256)
  | left, key, rng =>
    (read_present present key).bind fun p =>
      if p ≠ 0 then
        match left with
        | 0 => .ret (key, rng)
        | left + 1 =>
          (int_range_at_most_i64 fuel rng 1 1000).bind fun (key, rng) =>
            insert_retry fuel present left key rng
      else .ret (key, rng)

/-- Lines 282-287 with the candidates kept: the keys an Insert step draws, in
order, starting with the candidate `key` already drawn; the last one is the
value of `key` when the `while` ends. `left` is `10 - tries`. -/
def insert_candidates (fuel : Nat) (present : List Nat) :
    Nat → Int → xoshiro256 → Run (List Int × xoshiro256)
  | left, key, rng =>
    (read_present present key).bind fun p =>
      if p ≠ 0 then
        match left with
        | 0 => .ret ([key], rng)
        | left + 1 =>
          (int_range_at_most_i64 fuel rng 1 1000).bind fun (next, rng) =>
            (insert_candidates fuel present left next rng).bind fun (ks, rng) =>
              .ret (key :: ks, rng)
      else .ret ([key], rng)

/-- Lines 282-303: the Insert branch. The increment `key_count++` wraps as a
`size_t` does. -/
def insert_step {σ : Type} (E : Engine σ) (fuel : Nat) (d : Driver σ) : Run (Driver σ) :=
  (int_range_at_most_i64 fuel d.rng 1 1000).bind fun (key, rng) =>
  (insert_retry fuel d.present 10 key rng).bind fun (key, rng) =>
  (read_present d.present key).bind fun p =>
    if p ≠ 0 then
      -- `continue`
      .ret { d with rng := rng }
    else
      let (err, crsr) := E.insert_row d.crsr (to_i32 key)
      if err ≠ .DB_SUCCESS then .exit1 .insert_failed
      else
        (write_present d.present key 1).bind fun present =>
        (write_keys .keys_oob d.keys d.key_count key).bind fun keys =>
          .ret { rng := rng, keys := keys, key_count := (d.key_count + 1) % U64,
                 present := present, crsr := crsr, out := d.out ++ [Line.I key] }

/-- Lines 306-329: the Delete branch once `idx` has been drawn. -/
def delete_at {σ : Type} (E : Engine σ) (d : Driver σ) (idx : Nat) : Run (Driver σ) :=
  (read_keys .keys_oob d.keys idx).bind fun key =>
    let (err, res, crsr) := E.moveto d.crsr (to_i32 key)
    if err ≠ .DB_SUCCESS ∨ res ≠ 0 then .exit1 .delete_lookup_failed
    else
      let (err, crsr) := E.delete_row crsr
      if err ≠ .DB_SUCCESS then .exit1 .delete_failed
      else
        (write_present d.present key 0).bind fun present =>
        (read_keys .keys_oob d.keys ((d.key_count + U64 - 1) % U64)).bind fun last =>
        (write_keys .keys_oob d.keys idx last).bind fun keys =>
          .ret { rng := d.rng, keys := keys, key_count := (d.key_count + U64 - 1) % U64,
                 present := present, crsr := crsr, out := d.out ++ [Line.D key] }

/-- Lines 305-329: the Delete branch. -/
def delete_step {σ : Type} (E : Engine σ) (fuel : Nat) (d : Driver σ) : Run (Driver σ) :=
  (uint_less_than_u64 fuel d.rng d.key_count).bind fun (idx, rng) =>
    delete_at E { d with rng := rng } idx

/-- Lines 332-337: the key a Search looks for. -/
def search_pick {σ : Type} (fuel : Nat) (d : Driver σ) : Run (Int × xoshiro256) :=
  (int_range_at_most_i64 fuel d.rng 1 1000).bind fun (search_key, rng) =>
    if d.key_count > 0 then
      let (b, rng) := rand_bool rng
      if b ≠ 0 then
        (uint_less_than_u64 fuel rng d.key_count).bind fun (idx, rng) =>
        (read_keys .keys_oob d.keys idx).bind fun k => .ret (k, rng)
      else .ret (search_key, rng)
    else .ret (search_key, rng)

/-- Lines 331-350: the Search branch. -/
def search_step {σ : Type} (E : Engine σ) (fuel : Nat) (d : Driver σ) : Run (Driver σ) :=
  (search_pick fuel d).bind fun (search_key, rng) =>
    let (err, res, crsr) := E.moveto d.crsr (to_i32 search_key)
    if err ≠ .DB_SUCCESS ∧ err ≠ .DB_END_OF_INDEX then .exit1 .search_failed
    else
      .ret { d with rng := rng, crsr := crsr,
                    out := d.out ++
                      [Line.S search_key (if err = .DB_SUCCESS ∧ res = 0 then 1 else 0)] }

/-- Lines 274-279: the action of this step. -/
def select_action {σ : Type} (fuel : Nat) (d : Driver σ) : Run (Nat × xoshiro256) :=
  if d.key_count = 0 then .ret (0, d.rng) else uint_less_than_u8 fuel d.rng 3

/-- Lines 274-351: one iteration of the driver loop. -/
def driver_step {σ : Type} (E : Engine σ) (fuel : Nat) (d : Driver σ) : Run (Driver σ) :=
  (select_action fuel d).bind fun (action, rng) =>
    if action = 0 then insert_step E fuel { d with rng := rng }
    else if action = 1 then delete_step E fuel { d with rng := rng }
    else search_step E fuel { d with rng := rng }

/-- Line 273: the body of `for (op_idx = 0; op_idx < ops; ++op_idx)` run for
`n` consecutive values of `op_idx`. The whole loop is `driver_loop ops`; for
`n ≤ ops` the result is the state in which step `op_idx = n` starts. -/
def driver_loop {σ : Type} (E : Engine σ) (fuel : Nat) : Nat → Driver σ → Run (Driver σ)
  | 0, d => .ret d
  | n + 1, d => (driver_step E fuel d).bind fun d => driver_loop E fuel n d

/-- Lines 244-271: the state in which the driver loop is entered. The result
of `calloc(ops, sizeof(int64_t))` (line 268) is stored in `keys` unchecked. -/
def driver_init {σ : Type} (seed ops : Nat) (crsr : σ) : Driver σ :=
  { rng := xoshiro_seed seed,
    keys := calloc ops 8,
    key_count := 0,
    present := List.replicate 1001 0,
    crsr := crsr,
    out := [Line.header seed ops] }

/-! ## Final scan (lines 374-414) -/

/-- Lines 379-404: the `while (1)` of the scan; `fuel` bounds its iterations. -/
def scan_loop {σ : Type} (E : Engine σ) :
    Nat → σ → List Int → Nat → Run (List Int × Nat × σ)
  | fuel, c, final_keys, final_count =>
    let (err, value, c) := E.cursor_read_row c
    if err = .DB_END_OF_INDEX ∨ err = .DB_RECORD_NOT_FOUND then
      .ret (final_keys, final_count, c)
    else if err ≠ .DB_SUCCESS then .exit1 .read_failed
    else
      (write_keys .final_keys_oob final_keys final_count value).bind fun final_keys =>
        let final_count := (final_count + 1) % U64
        let (err, c) := E.cursor_next c
        if err = .DB_END_OF_INDEX ∨ err = .DB_RECORD_NOT_FOUND then
          .ret (final_keys, final_count, c)
        else if err ≠ .DB_SUCCESS then .exit1 .next_failed
        else
          match fuel with
          | 0 => .timeout
          | fuel + 1 => scan_loop E fuel c final_keys final_count

/-- Lines 374-408: the scan of the table into `final_keys`, the unchecked
result of `calloc(ops, sizeof(int64_t))` (line 374). -/
def final_scan {σ : Type} (E : Engine σ) (fuel ops : Nat) (c : σ) :
    Run (List Int × Nat × σ) :=
  let final_keys := calloc ops 8
  let (err, c) := E.cursor_first c
  if err = .DB_SUCCESS then scan_loop E fuel c final_keys 0
  else if err ≠ .DB_END_OF_INDEX then .exit1 .first_failed
  else .ret (final_keys, 0, c)

/-- Lines 244-414 of `main`: the lines written to standard output. -/
def main_run {σ : Type} (E : Engine σ) (fuel scan_fuel seed ops : Nat) (crsr : σ) :
    Run (List Line) :=
  (driver_loop E fuel ops (driver_init seed ops crsr)).bind fun d =>
  (final_scan E scan_fuel ops d.crsr).bind fun (final_keys, final_count, _) =>
    .ret (d.out ++ [Line.final final_count (final_keys.take final_count)])

/-! ## Command line (lines 195-242) and `main` -/

/-- What `main` writes to standard error before the engine is started. -/
inductive ErrLine where
  /-- Line `Unknown argument: <arg>` -/
  | unknown_argument (arg : String)
  /-- The four lines of the usage text, for program name `prog` -/
  | usage_text (prog : String)
  deriving DecidableEq, Repr

/-- Function `usage`: the usage text on standard error. -/
def usage (prog : String) : List ErrLine := [ErrLine.usage_text prog]

/-- The test `strncmp(arg, p, strlen(p)) == 0`: `arg` starts with `p`. -/
def starts_with (p arg : String) : Bool := p.data.isPrefixOf arg.data

/-- The pointer `arg + n`: `arg` without its first `n` characters. -/
def skip_chars (n : Nat) (arg : String) : String := ⟨arg.data.drop n⟩

/-- How the argument loop of `main` ends: all arguments read, or a `return`. -/
inductive Parsed where
  /-- The loop is over; the run goes on with these values. -/
  | proceed (seed ops : Nat)
  /-- Statement `return status` inside the loop, after writing `err`. -/
  | stop (status : Nat) (err : List ErrLine)
  deriving DecidableEq, Repr

/-- Lines 208-242: the argument loop from `argv[i]` on, with the current `seed`
and `ops`. `strtoull` stands for the library call `strtoull(s, NULL, 0)` and
`prog` for `argv[0]`. -/
def parse_args (strtoull : String → Nat) (prog : String) :
    List String → Nat → Nat → Parsed
  | [], seed, ops => .proceed seed ops
  | arg :: rest, seed, ops =>
    if arg = "--help" then .stop 0 (usage prog)
    else if arg = "--seed" then
      match rest with
      | [] => .stop 1 (usage prog)
      | v :: rest => parse_args strtoull prog rest (strtoull v) ops
    else if arg = "--ops" then
      match rest with
      | [] => .stop 1 (usage prog)
      | v :: rest => parse_args strtoull prog rest seed (strtoull v)
    else if starts_with "--seed=" arg then
      parse_args strtoull prog rest (strtoull (skip_chars 7 arg)) ops
    else if starts_with "--ops=" arg then
      parse_args strtoull prog rest seed (strtoull (skip_chars 6 arg))
    else .stop 1 (ErrLine.unknown_argument arg :: usage prog)

/-- What a call of `main` does. -/
inductive MainResult where
  /-- Statement `return status` from the argument loop: `err` is on standard
  error, nothing is on standard output and no engine call has been made. -/
  | early_exit (status : Nat) (err : List ErrLine)
  /-- The run with the parsed `seed` and `ops`, from line 244 on. -/
  | ran (seed ops : Nat) (r : Run (List Line))
  deriving DecidableEq, Repr

/-- Function `main` on `argv`, with the defaults `seed = 0xC0FFEE`, `ops = 60`. -/
def main {σ : Type} (E : Engine σ) (strtoull : String → Nat) (fuel scan_fuel : Nat)
    (argv : List String) (crsr : σ) : MainResult :=
  match parse_args strtoull (argv.headD "") argv.tail 0xC0FFEE 60 with
  | .stop status err => .early_exit status err
  | .proceed seed ops => .ran seed ops (main_run E fuel scan_fuel seed ops crsr)

/-- The engine shows an empty table to the final scan: `ib_cursor_first`
reports the end of the index, or it succeeds and the first
`ib_cursor_read_row` reports the end of the index or no record. -/
def EmptyTable {σ : Type} (E : Engine σ) (crsr : σ) : Prop :=
  (E.cursor_first crsr).1 = .DB_END_OF_INDEX ∨
  ((E.cursor_first crsr).1 = .DB_SUCCESS ∧
    ((E.cursor_read_row (E.cursor_first crsr).2).1 = .DB_END_OF_INDEX ∨
      (E.cursor_read_row (E.cursor_first crsr).2).1 = .DB_RECORD_NOT_FOUND))

/-! ## A reference engine: a set of keys -/

/-- Modelled from the spec: the storage engine behind `innodb.h`, which is not
part of the tool's source. The engine is a set of integer keys, kept as the
ascending list `rows`; `pos` is the row the working cursor stands on and
`scan` holds the rows the scan cursor has not passed, current row first. -/
structure SetEngine where
  rows : List Int
  pos : Option Int
  scan : List Int
  deriving DecidableEq, Repr

/-- Modelled from the spec: `insert_row` adds the key to the set; a key that is
already stored is refused, as a clustered primary index does. -/
def SetEngine.insert_row (s : SetEngine) (k : Int) : ib_err_t × SetEngine :=
  if k ∈ s.rows then (.DB_DUPLICATE_KEY, s)
  else (.DB_SUCCESS, { s with rows := s.rows.orderedInsert (· ≤ ·) k })

/-- Modelled from the spec: `position_cursor` with the "at least" comparison
stands on the first row not below the key; it lands exactly (success and
`res = 0`) iff the key is in the set, and reports the end of the index when no
row is at or after the key. -/
def SetEngine.moveto (s : SetEngine) (k : Int) : ib_err_t × Int × SetEngine :=
  match s.rows.find? (fun r => decide (k ≤ r)) with
  | some r => (.DB_SUCCESS, if r = k then 0 else -1, { s with pos := some r })
  | none => (.DB_END_OF_INDEX, -1, { s with pos := none })

/-- Modelled from the spec: `delete_current_row` removes the row the cursor
stands on. -/
def SetEngine.delete_row (s : SetEngine) : ib_err_t × SetEngine :=
  match s.pos with
  | some r =>
    if r ∈ s.rows then (.DB_SUCCESS, { s with rows := s.rows.erase r, pos := none })
    else (.DB_RECORD_NOT_FOUND, s)
  | none => (.DB_ERROR, s)

/-- Modelled from the spec: the scan starts at the smallest key, or reports the
end of the index on an empty table. -/
def SetEngine.cursor_first (s : SetEngine) : ib_err_t × SetEngine :=
  match s.rows with
  | [] => (.DB_END_OF_INDEX, { s with scan := [] })
  | r :: rest => (.DB_SUCCESS, { s with scan := r :: rest })

/-- Modelled from the spec: `read_current_row` yields the key under the scan
cursor. -/
def SetEngine.cursor_read_row (s : SetEngine) : ib_err_t × Int × SetEngine :=
  match s.scan with
  | r :: _ => (.DB_SUCCESS, r, s)
  | [] => (.DB_END_OF_INDEX, 0, s)

/-- Modelled from the spec: `advance_cursor` moves to the next key in ascending
order, or reports the end of the index after the last one. -/
def SetEngine.cursor_next (s : SetEngine) : ib_err_t × SetEngine :=
  match s.scan with
  | _ :: r :: rest => (.DB_SUCCESS, { s with scan := r :: rest })
  | _ => (.DB_END_OF_INDEX, { s with scan := [] })

/-- Modelled from the spec: the set engine as an `Engine`. -/
def set_engine : Engine SetEngine :=
  { insert_row := SetEngine.insert_row,
    moveto := SetEngine.moveto,
    delete_row := SetEngine.delete_row,
    cursor_first := SetEngine.cursor_first,
    cursor_read_row := SetEngine.cursor_read_row,
    cursor_next := SetEngine.cursor_next }

/-- Modelled from the spec: the freshly created, empty table. -/
def SetEngine.empty : SetEngine := { rows := [], pos := none, scan := [] }

/-! ## Specification vocabulary -/

/-- Rotation of a 64-bit word by `k` places as arithmetic: the low `64 - k`
bits move up by `k` places and the high `k` bits wrap around to the bottom. -/
def rotate_left (x k : Nat) : Nat :=
  (x % 2 ^ (64 - k)) * 2 ^ k + x / 2 ^ (64 - k)

/-- The generator step as the specification words it (PRNGCore, steps 1-5),
on the four words `s0..s3`, with `rotate_left` for the rotations. -/
def PRNGCore_next (s0 s1 s2 s3 : Nat) : Nat × xoshiro256 :=
  -- 1. result = rotate_left(s0 + s3, 23) + s0
  let result := (rotate_left ((s0 + s3) % U64) 23 + s0) % U64
  -- 2. t = s1 << 17
  let t := (s1 * 2 ^ 17) % U64
  -- 3. s2 ^= s0; s3 ^= s1; s1 ^= s2; s0 ^= s3
  let s2 := s2 ^^^ s0
  let s3 := s3 ^^^ s1
  let s1 := s1 ^^^ s2
  let s0 := s0 ^^^ s3
  -- 4. s2 ^= t; s3 = rotate_left(s3, 45)
  let s2 := s2 ^^^ t
  let s3 := rotate_left s3 45
  -- 5. return result
  (result, { s0 := s0, s1 := s1, s2 := s2, s3 := s3 })

/-- A computation meets a contract: a returned value satisfies `Q`, a fatal
exit satisfies `X`, a fault satisfies `U`; running out of fuel is allowed. -/
def Run.sat {α : Type} (r : Run α) (Q : α → Prop) (X : Fatal → Prop)
    (U : Fault → Prop) : Prop :=
  match r with
  | .ret a => Q a
  | .exit1 f => X f
  | .timeout => True
  | .ub k => U k

/-- Contract of a computation that can neither exit nor fault. -/
abbrev Run.pure_sat {α : Type} (r : Run α) (Q : α → Prop) : Prop :=
  r.sat Q (fun _ => False) (fun _ => False)

/-- Contract on the returned value only: exits and faults are allowed. -/
abbrev Run.ret_sat {α : Type} (r : Run α) (Q : α → Prop) : Prop :=
  r.sat Q (fun _ => True) (fun _ => True)

/-- The dense sequence `keys[0..key_count)`. -/
def Driver.dense {σ : Type} (d : Driver σ) : List Int := d.keys.take d.key_count

/-- The oracle invariant carried by the driver loop: the sizes of the two
arrays, and the dense sequence lists without repetition exactly the keys
of `[1, 1000]` whose `present` entry is non-zero. -/
def OracleInv {σ : Type} (d : Driver σ) : Prop :=
  d.present.length = 1001 ∧ d.key_count ≤ d.keys.length ∧ d.keys.length < U64 ∧
  d.dense.Nodup ∧ (∀ k ∈ d.dense, 1 ≤ k ∧ k ≤ 1000) ∧
  (∀ k : Int, 0 ≤ k → k ≤ 1000 → (d.present.getD k.toNat 0 ≠ 0 ↔ k ∈ d.dense))

/-- The membership invariant of the oracle: for every key `k` of `[0, 1000]`,
`present[k]` is non-zero iff `k` occurs exactly once in `keys[0..key_count)`,
and `keys[0..key_count)` holds no key twice. -/
def MembershipInv {σ : Type} (d : Driver σ) : Prop :=
  (∀ k : Int, 0 ≤ k → k ≤ 1000 →
    ((∃ p, read_present d.present k = .ret p ∧ p ≠ 0) ↔ d.dense.count k = 1)) ∧
  d.dense.Nodup

/-- An abandoned Insert: only the generator has moved. -/
def StepAbandon {σ : Type} (d d' : Driver σ) : Prop :=
  d'.keys = d.keys ∧ d'.key_count = d.key_count ∧ d'.present = d.present ∧
  d'.crsr = d.crsr ∧ d'.out = d.out

/-- A completed Insert of `key`. -/
def StepInsert {σ : Type} (E : Engine σ) (d d' : Driver σ) (key : Int) : Prop :=
  1 ≤ key ∧ key ≤ 1000 ∧ d.present.getD key.toNat 0 = 0 ∧ d.key_count < d.keys.length ∧
  (E.insert_row d.crsr (to_i32 key)).1 = .DB_SUCCESS ∧
  d'.crsr = (E.insert_row d.crsr (to_i32 key)).2 ∧
  d'.keys = d.keys.set d.key_count key ∧ d'.key_count = d.key_count + 1 ∧
  d'.present = d.present.set key.toNat 1 ∧ d'.out = d.out ++ [Line.I key]

/-- A completed Delete of `key`, found at index `idx`. -/
def StepDelete {σ : Type} (E : Engine σ) (d d' : Driver σ) (idx : Nat) (key : Int) : Prop :=
  idx < d.key_count ∧ d.keys[idx]? = some key ∧
  (E.moveto d.crsr (to_i32 key)).1 = .DB_SUCCESS ∧
  (E.moveto d.crsr (to_i32 key)).2.1 = 0 ∧
  (E.delete_row (E.moveto d.crsr (to_i32 key)).2.2).1 = .DB_SUCCESS ∧
  d'.crsr = (E.delete_row (E.moveto d.crsr (to_i32 key)).2.2).2 ∧
  (∃ last, d.keys[d.key_count - 1]? = some last ∧ d'.keys = d.keys.set idx last) ∧
  d'.key_count = d.key_count - 1 ∧
  d'.present = d.present.set key.toNat 0 ∧ d'.out = d.out ++ [Line.D key]

/-- A completed Search for `key` with outcome `found`. -/
def StepSearch {σ : Type} (E : Engine σ) (d d' : Driver σ) (key : Int) (found : Nat) :
    Prop :=
  1 ≤ key ∧ key ≤ 1000 ∧
  ((E.moveto d.crsr (to_i32 key)).1 = .DB_SUCCESS ∨
    (E.moveto d.crsr (to_i32 key)).1 = .DB_END_OF_INDEX) ∧
  found = (if (E.moveto d.crsr (to_i32 key)).1 = .DB_SUCCESS ∧
    (E.moveto d.crsr (to_i32 key)).2.1 = 0 then 1 else 0) ∧
  d'.crsr = (E.moveto d.crsr (to_i32 key)).2.2 ∧
  d'.keys = d.keys ∧ d'.key_count = d.key_count ∧ d'.present = d.present ∧
  d'.out = d.out ++ [Line.S key found]

/-- The four ways a driver step completes. -/
def Step {σ : Type} (E : Engine σ) (d d' : Driver σ) : Prop :=
  StepAbandon d d' ∨ (∃ key, StepInsert E d d' key) ∨
  (∃ idx key, StepDelete E d d' idx key) ∨ (∃ key found, StepSearch E d d' key found)

/-- The ways a driver step ends the program with a diagnostic. -/
def StepExit {σ : Type} (E : Engine σ) (d : Driver σ) (f : Fatal) : Prop :=
  (f = .insert_failed ∧ ∃ key : Int, 1 ≤ key ∧ key ≤ 1000 ∧
    d.present.getD key.toNat 0 = 0 ∧
    (E.insert_row d.crsr (to_i32 key)).1 ≠ .DB_SUCCESS) ∨
  (f = .delete_lookup_failed ∧ ∃ (idx : Nat) (key : Int), idx < d.key_count ∧
    d.keys[idx]? = some key ∧
    ((E.moveto d.crsr (to_i32 key)).1 ≠ .DB_SUCCESS ∨
      (E.moveto d.crsr (to_i32 key)).2.1 ≠ 0)) ∨
  (f = .delete_failed ∧ ∃ (idx : Nat) (key : Int), idx < d.key_count ∧
    d.keys[idx]? = some key ∧
    (E.moveto d.crsr (to_i32 key)).1 = .DB_SUCCESS ∧
    (E.moveto d.crsr (to_i32 key)).2.1 = 0 ∧
    (E.delete_row (E.moveto d.crsr (to_i32 key)).2.2).1 ≠ .DB_SUCCESS) ∨
  (f = .search_failed ∧ ∃ key : Int, 1 ≤ key ∧ key ≤ 1000 ∧
    (E.moveto d.crsr (to_i32 key)).1 ≠ .DB_SUCCESS ∧
    (E.moveto d.crsr (to_i32 key)).1 ≠ .DB_END_OF_INDEX)

/-- The only fault a driver step can raise from a state that satisfies the
oracle invariant: a write to `keys` when the buffer is full. -/
def StepFault {σ : Type} (d : Driver σ) (k : Fault) : Prop :=
  k = .keys_oob ∧ d.keys.length ≤ d.key_count

/-- The key a trace line reports, if it is an `I`, `D` or `S` record. -/
def Line.key? : Line → Option Int
  | .I key => some key
  | .D key => some key
  | .S key _ => some key
  | _ => none

/-- Every key of an `I`, `D` or `S` record of the output lies in `[1, 1000]`. -/
abbrev TraceInRange (out : List Line) : Prop :=
  ∀ line ∈ out, ∀ key, line.key? = some key → 1 ≤ key ∧ key ≤ 1000

/-- Agreement of the set engine with the oracle: the key buffer has the
elements that `calloc(ops, sizeof(int64_t))` gave, the stored rows are
ascending, and they are a permutation of `keys[0..key_count)`. -/
def EngineInv (ops : Nat) (d : Driver SetEngine) : Prop :=
  d.keys.length = (calloc ops 8).length ∧ d.crsr.rows.Sorted (· ≤ ·) ∧ d.crsr.rows.Perm d.dense

/-- A driver state in which every key is marked present, on the empty set
engine, with the generator seeded by `0xC0FFEE`: every candidate of an Insert
step is taken there. -/
def saturated_state : Driver SetEngine :=
  { rng := xoshiro_seed 0xC0FFEE,
    keys := [],
    key_count := 0,
    present := List.replicate 1001 1,
    crsr := SetEngine.empty,
    out := [] }

/-- The first candidate key an Insert step draws in `saturated_state`, with
the generator state after the draw. -/
def saturated_first : Int × xoshiro256 :=
  (int_range_at_most_i64 0 saturated_state.rng 1 1000).value (0, saturated_state.rng)

/-- All candidate keys an Insert step draws in `saturated_state`, with the
generator state after the last draw. -/
def saturated_candidates : List Int × xoshiro256 :=
  (insert_candidates 0 saturated_state.present 10 saturated_first.1
    saturated_first.2).value ([], saturated_state.rng)

/-- The driver state after `n` steps of the run with seed `0xC0FFEE` and
`ops = 8` on the set engine, with no redraw allowed; the entry state if the
run does not get that far. -/
def sample_state (n : Nat) : Driver SetEngine :=
  (driver_loop set_engine 0 n (driver_init 0xC0FFEE 8 SetEngine.empty)).value
    (driver_init 0xC0FFEE 8 SetEngine.empty)

/-! ## Specification vocabulary: seed expansion and the naive sampler -/

/-- The accumulator of the seed expander before output word `k` is produced:
the seed plus `k + 1` times the golden-ratio constant, modulo `2 ^ 64`. -/
def seed_accumulator (seed k : Nat) : Nat :=
  (seed + (k + 1) * 0x9E3779B97F4A7C15) % U64

/-- The finishing mix as the specification words it (SeedExpander): multiply by
`0xBF58476D1CE4E5B9`, xor-shift-right 27, multiply by `0x94D049BB133111EB`,
xor-shift-right 31, in this order and with no other step. -/
def SeedExpander_mix (a : Nat) : Nat :=
  let z := (a * 0xBF58476D1CE4E5B9) % U64
  let z := z ^^^ (z >>> 27)
  let z := (z * 0x94D049BB133111EB) % U64
  z ^^^ (z >>> 31)

/-- The finishing mix with a leading xor-shift-right 30: xor-shift-right 30,
multiply by `0xBF58476D1CE4E5B9`, xor-shift-right 27, multiply by
`0x94D049BB133111EB`, xor-shift-right 31. -/
def finishing_mix (a : Nat) : Nat :=
  let z := a ^^^ (a >>> 30)
  let z := (z * 0xBF58476D1CE4E5B9) % U64
  let z := z ^^^ (z >>> 27)
  let z := (z * 0x94D049BB133111EB) % U64
  z ^^^ (z >>> 31)

/-- The redraw loop of the naive 64-bit sampler: redraw while
`low64(x * bound) < t`, then return the high half. -/
def naive_loop_u64 (bound t : Nat) : Nat → xoshiro256 → Nat → Run (Nat × xoshiro256)
  | fuel, rng, x =>
    if (x * bound) % U64 < t then
      match fuel with
      | 0 => .timeout
      | fuel + 1 =>
        let (x, rng) := rand_u64 rng
        naive_loop_u64 bound t fuel rng x
    else .ret ((x * bound) / U64, rng)

/-- The naive 64-bit sampler: draw `x`, always compute `t = 2 ^ 64 mod bound`,
redraw while `low64(x * bound) < t`, return `high64(x * bound)`. -/
def naive_less_than_u64 (fuel : Nat) (rng : xoshiro256) (bound : Nat) :
    Run (Nat × xoshiro256) :=
  let (x, rng) := rand_u64 rng
  naive_loop_u64 bound (U64 % bound) fuel rng x

/-- The redraw loop of the naive 8-bit sampler: redraw while
`low8(x * bound) < t`, then return the high half. -/
def naive_loop_u8 (bound t : Nat) : Nat → xoshiro256 → Nat → Run (Nat × xoshiro256)
  | fuel, rng, x =>
    if (x * bound) % U8 < t then
      match fuel with
      | 0 => .timeout
      | fuel + 1 =>
        let (x, rng) := rand_u8 rng
        naive_loop_u8 bound t fuel rng x
    else .ret ((x * bound) / U8, rng)

/-- The naive 8-bit sampler: draw `x`, always compute `t = 2 ^ 8 mod bound`,
redraw while `low8(x * bound) < t`, return `high8(x * bound)`. -/
def naive_less_than_u8 (fuel : Nat) (rng : xoshiro256) (bound : Nat) :
    Run (Nat × xoshiro256) :=
  let (x, rng) := rand_u8 rng
  naive_loop_u8 bound (U8 % bound) fuel rng x

/-! ## Specification vocabulary: generator states -/

/-- The all-zero generator state. -/
def xoshiro256.zero : xoshiro256 := { s0 := 0, s1 := 0, s2 := 0, s3 := 0 }

/-- The four words of a generator state are 64-bit words. -/
def xoshiro256.wf (rng : xoshiro256) : Prop :=
  rng.s0 < U64 ∧ rng.s1 < U64 ∧ rng.s2 < U64 ∧ rng.s3 < U64

/-- A generator state of 64-bit words other than the all-zero state. -/
def LiveRng (rng : xoshiro256) : Prop := rng.wf ∧ rng ≠ xoshiro256.zero

/-! # Theorems -/

theorem rotl64_eq_rotate_left (x k : Nat) (hx : x < U64) (hk : k ≤ 64) :
    rotl64 x k = rotate_left x k := by
  unfold rotl64 rotate_left U64 at *
  rw [Nat.shiftLeft_eq, Nat.shiftRight_eq_div_pow]
  have h64 : (2:Nat) ^ 64 = 2 ^ (64 - k) * 2 ^ k := by
    rw [← pow_add]; congr 1; omega
  have hlt : x / 2 ^ (64 - k) < 2 ^ k := by
    rw [Nat.div_lt_iff_lt_mul (by positivity)]
    calc x < 2 ^ 64 := hx
      _ = 2 ^ k * 2 ^ (64 - k) := by rw [h64, Nat.mul_comm]
  rw [h64, Nat.mul_mod_mul_right, Nat.mul_comm _ (2 ^ k)]
  exact (Nat.mul_add_lt_is_or hlt _).symm

/-- Claim C10 (PRNG step). For every state of 64-bit words, `xoshiro_next`
returns `rotate_left(s0 + s3, 23) + s0` modulo `2 ^ 64` computed from the old
state and leaves `s0' = s0 ^ s3 ^ s1`, `s1' = s1 ^ s2 ^ s0`,
`s2' = s2 ^ s0 ^ (s1 << 17)`, `s3' = rotate_left(s3 ^ s1, 45)`; this is the
result of steps 1-5 of the specification run in order (`PRNGCore_next`). -/
theorem xoshiro_next_closed_form (s0 s1 s2 s3 : Nat)
    (h1 : s1 < U64) (h3 : s3 < U64) :
    xoshiro_next { s0 := s0, s1 := s1, s2 := s2, s3 := s3 } =
      ((rotate_left ((s0 + s3) % U64) 23 + s0) % U64,
       { s0 := s0 ^^^ s3 ^^^ s1,
         s1 := s1 ^^^ s2 ^^^ s0,
         s2 := s2 ^^^ s0 ^^^ ((s1 <<< 17) % U64),
         s3 := rotate_left (s3 ^^^ s1) 45 }) ∧
    xoshiro_next { s0 := s0, s1 := s1, s2 := s2, s3 := s3 } = PRNGCore_next s0 s1 s2 s3 := by
  have hsum : (s0 + s3) % U64 < U64 := Nat.mod_lt _ (by unfold U64; positivity)
  have hx : s3 ^^^ s1 < U64 := by
    unfold U64 at *; exact Nat.xor_lt_two_pow h3 h1
  have e23 := rotl64_eq_rotate_left _ 23 hsum (by omega)
  have e45 := rotl64_eq_rotate_left _ 45 hx (by omega)
  constructor
  · simp only [xoshiro_next, e23, e45, Nat.xor_assoc]
  · simp only [xoshiro_next, PRNGCore_next, e23, e45, Nat.shiftLeft_eq]

theorem xoshiro_next_closed_form_witness :
    (17069869281103512697 < U64 ∧ 6517201831895305540 < U64) ∧
    (xoshiro_next { s0 := 14592251008053203194, s1 := 17069869281103512697,
                    s2 := 9781417775987323851, s3 := 6517201831895305540 } =
      ((rotate_left ((14592251008053203194 + 6517201831895305540) % U64) 23
          + 14592251008053203194) % U64,
       { s0 := 14592251008053203194 ^^^ 6517201831895305540 ^^^ 17069869281103512697,
         s1 := 17069869281103512697 ^^^ 9781417775987323851 ^^^ 14592251008053203194,
         s2 := 9781417775987323851 ^^^ 14592251008053203194 ^^^
                ((17069869281103512697 <<< 17) % U64),
         s3 := rotate_left (6517201831895305540 ^^^ 17069869281103512697) 45 }) ∧
     xoshiro_next { s0 := 14592251008053203194, s1 := 17069869281103512697,
                    s2 := 9781417775987323851, s3 := 6517201831895305540 } =
      PRNGCore_next 14592251008053203194 17069869281103512697
        9781417775987323851 6517201831895305540) :=
  ⟨⟨by decide, by decide⟩,
   xoshiro_next_closed_form 14592251008053203194 17069869281103512697
     9781417775987323851 6517201831895305540 (by decide) (by decide)⟩


theorem ceil_div_le_iff (b Y x : Nat) (hb : 0 < b) :
    (Y + (b - 1)) / b ≤ x ↔ Y ≤ x * b := by
  rw [← Nat.lt_succ_iff, Nat.div_lt_iff_lt_mul hb, Nat.succ_mul]
  omega

theorem card_filter_mul_window (b A q M : Nat) (hb : 0 < b)
    (hM : ∀ x, x * b < A + q * b → x < M) :
    ((Finset.range M).filter (fun x => A ≤ x * b ∧ x * b < A + q * b)).card = q := by
  have hset : (Finset.range M).filter (fun x => A ≤ x * b ∧ x * b < A + q * b)
      = Finset.Ico ((A + (b - 1)) / b) ((A + (b - 1)) / b + q) := by
    ext x
    have h1 := ceil_div_le_iff b A x hb
    have h2 := ceil_div_le_iff b (A + q * b) x hb
    have h3 : (A + q * b + (b - 1)) / b = (A + (b - 1)) / b + q := by
      rw [show A + q * b + (b - 1) = A + (b - 1) + q * b by omega,
        Nat.add_mul_div_right _ _ hb]
    rw [h3] at h2
    simp only [Finset.mem_filter, Finset.mem_range, Finset.mem_Ico]
    constructor
    · rintro ⟨_, ha, hlt⟩
      exact ⟨h1.2 ha, by omega⟩
    · rintro ⟨ha, hlt⟩
      have hlt2 : x * b < A + q * b := by omega
      exact ⟨hM x hlt2, h1.1 ha, hlt2⟩
  rw [hset, Nat.card_Ico]
  omega

theorem multiply_high_reject_count (N b v : Nat) (hN : 0 < N) (hb : 0 < b) (hv : v < b) :
    ((Finset.range N).filter
      (fun x => N % b ≤ (x * b) % N ∧ (x * b) / N = v)).card = N / b := by
  have hNb : N / b * b + N % b = N := Nat.div_add_mod' N b
  have hvN : (v + 1) * N ≤ b * N := Nat.mul_le_mul_right N hv
  have hsucc : (v + 1) * N = v * N + N := Nat.succ_mul v N
  rw [← card_filter_mul_window b (v * N + N % b) (N / b) N hb]
  · congr 1
    apply Finset.filter_congr
    intro x _
    have hy := Nat.div_add_mod (x * b) N
    have hlt := Nat.mod_lt (x * b) hN
    constructor
    · rintro ⟨ht, hq⟩
      rw [hq, Nat.mul_comm N v] at hy
      omega
    · rintro ⟨hlo, hhi⟩
      have hq : x * b / N = v :=
        Nat.div_eq_of_lt_le (by omega) (by omega)
      rw [hq, Nat.mul_comm N v] at hy
      exact ⟨by omega, hq⟩
  · intro x hx
    have hx2 : x * b < N * b := by
      rw [Nat.mul_comm N b]; omega
    exact Nat.lt_of_mul_lt_mul_right hx2

theorem neg_mod_eq (N b : Nat) (hb1 : 1 ≤ b) (hb : b < N) :
    (if (N - b) % N ≥ b then
      (if (N - b) % N - b ≥ b then ((N - b) % N - b) % b else (N - b) % N - b)
     else (N - b) % N) = N % b := by
  have h0 : (N - b) % N = N - b := Nat.mod_eq_of_lt (by omega)
  have e1 : N % b = (N - b) % b := Nat.mod_eq_sub_mod (by omega)
  rw [h0]
  split
  · next h1 =>
    have e2 : (N - b) % b = (N - b - b) % b := Nat.mod_eq_sub_mod h1
    split
    · rw [e1, e2]
    · next h2 => rw [e1, e2, Nat.mod_eq_of_lt (by omega)]
  · next h1 => rw [e1, Nat.mod_eq_of_lt (by omega)]

theorem threshold_u64_eq (b : Nat) (hb1 : 1 ≤ b) (hb : b < U64) :
    threshold_u64 b = some (U64 % b) := by
  have h := neg_mod_eq U64 b hb1 hb
  have hne : b ≠ 0 := by omega
  unfold threshold_u64
  simp only [hne, if_false]
  rw [← h]
  split <;> [split; skip] <;> rfl

theorem threshold_u8_eq (b : Nat) (hb1 : 1 ≤ b) (hb : b < U8) :
    threshold_u8 b = some (U8 % b) := by
  have h := neg_mod_eq U8 b hb1 hb
  have hne : b ≠ 0 := by omega
  have h0 : (U8 - b) % U8 = U8 - b := Nat.mod_eq_of_lt (by omega)
  have h1 : (U8 - b - b) % U8 = U8 - b - b := Nat.mod_eq_of_lt (by omega)
  have h2 : ((U8 - b - b) % b) % U8 = (U8 - b - b) % b :=
    Nat.mod_eq_of_lt (lt_trans (Nat.mod_lt _ (by omega)) hb)
  unfold threshold_u8
  simp only [hne, if_false]
  rw [← h, h0, h1, h2]
  split <;> [split; skip] <;> rfl

theorem mul128_eq (x b : Nat) (hx : x < U64) (hb : b < U64) : mul128 x b = x * b := by
  unfold mul128
  apply Nat.mod_eq_of_lt
  calc x * b < U64 * U64 := Nat.mul_lt_mul'' hx hb
    _ = U128 := by decide

theorem hi64_mul (x b : Nat) (hx : x < U64) (hb : b < U64) :
    hi64 (x * b) = x * b / U64 := by
  unfold hi64
  rw [Nat.shiftRight_eq_div_pow]
  apply Nat.mod_eq_of_lt
  change x * b / U64 < U64
  rw [Nat.div_lt_iff_lt_mul (by decide)]
  exact Nat.mul_lt_mul'' hx hb

theorem mul16_eq (x b : Nat) (hx : x < U8) (hb : b < U8) : mul16 x b = x * b := by
  unfold mul16
  apply Nat.mod_eq_of_lt
  calc x * b < U8 * U8 := Nat.mul_lt_mul'' hx hb
    _ = U16 := by decide

theorem hi8_mul (x b : Nat) (hx : x < U8) (hb : b < U8) :
    hi8 (x * b) = x * b / U8 := by
  unfold hi8
  rw [Nat.shiftRight_eq_div_pow]
  apply Nat.mod_eq_of_lt
  change x * b / U8 < U8
  rw [Nat.div_lt_iff_lt_mul (by decide)]
  exact Nat.mul_lt_mul'' hx hb

theorem accepts_u64_iff (b x : Nat) (hb1 : 1 ≤ b) (hb : b < U64) (hx : x < U64) :
    accepts_u64 b x = true ↔ U64 % b ≤ (x * b) % U64 := by
  have ht : U64 % b < b := Nat.mod_lt _ (by omega)
  unfold accepts_u64
  simp only [threshold_u64_eq b hb1 hb, mul128_eq x b hx hb, lo64]
  split
  · simp
  · simp; omega

theorem accepts_u8_iff (b x : Nat) (hb1 : 1 ≤ b) (hb : b < U8) (hx : x < U8) :
    accepts_u8 b x = true ↔ U8 % b ≤ (x * b) % U8 := by
  have ht : U8 % b < b := Nat.mod_lt _ (by omega)
  unfold accepts_u8
  simp only [threshold_u8_eq b hb1 hb, mul16_eq x b hx hb, lo8]
  split
  · simp
  · simp; omega

theorem uint_less_than_u64_of_accepts (fuel : Nat) (rng : xoshiro256) (b : Nat)
    (h : accepts_u64 b (rand_u64 rng).1 = true) :
    uint_less_than_u64 fuel rng b =
      .ret (hi64 (mul128 (rand_u64 rng).1 b), (rand_u64 rng).2) := by
  unfold accepts_u64 at h
  unfold uint_less_than_u64
  simp only
  split
  · next hl =>
    simp only [hl, if_true] at h
    cases ht : threshold_u64 b with
    | none => simp [ht] at h
    | some t =>
      simp only [ht, Bool.not_eq_true', decide_eq_false_iff_not] at h
      cases fuel <;> simp [uint_less_than_u64_loop, h]
  · rfl

theorem uint_less_than_u64_of_not_accepts (rng : xoshiro256) (b : Nat)
    (hb1 : 1 ≤ b) (hb : b < U64) (h : accepts_u64 b (rand_u64 rng).1 = false) :
    uint_less_than_u64 0 rng b = .timeout := by
  unfold accepts_u64 at h
  unfold uint_less_than_u64
  simp only [threshold_u64_eq b hb1 hb] at h ⊢
  split
  · next hl =>
    simp only [hl, if_true, Bool.not_eq_false', decide_eq_true_eq] at h
    simp [uint_less_than_u64_loop, h]
  · next hl => simp [hl] at h

theorem uint_less_than_u8_of_accepts (fuel : Nat) (rng : xoshiro256) (b : Nat)
    (h : accepts_u8 b (rand_u8 rng).1 = true) :
    uint_less_than_u8 fuel rng b =
      .ret (hi8 (mul16 (rand_u8 rng).1 b), (rand_u8 rng).2) := by
  unfold accepts_u8 at h
  unfold uint_less_than_u8
  simp only
  split
  · next hl =>
    simp only [hl, if_true] at h
    cases ht : threshold_u8 b with
    | none => simp [ht] at h
    | some t =>
      simp only [ht, Bool.not_eq_true', decide_eq_false_iff_not] at h
      cases fuel <;> simp [uint_less_than_u8_loop, h]
  · rfl

theorem uint_less_than_u8_of_not_accepts (rng : xoshiro256) (b : Nat)
    (hb1 : 1 ≤ b) (hb : b < U8) (h : accepts_u8 b (rand_u8 rng).1 = false) :
    uint_less_than_u8 0 rng b = .timeout := by
  unfold accepts_u8 at h
  unfold uint_less_than_u8
  simp only [threshold_u8_eq b hb1 hb] at h ⊢
  split
  · next hl =>
    simp only [hl, if_true, Bool.not_eq_false', decide_eq_true_eq] at h
    simp [uint_less_than_u8_loop, h]
  · next hl => simp [hl] at h

theorem xoshiro_next_lt (rng : xoshiro256) : (xoshiro_next rng).1 < U64 :=
  Nat.mod_lt _ (by decide)

theorem rand_u64_lt (rng : xoshiro256) : (rand_u64 rng).1 < U64 :=
  xoshiro_next_lt rng

theorem rand_u8_lt (rng : xoshiro256) : (rand_u8 rng).1 < U8 :=
  Nat.mod_lt _ (by decide)

theorem hi64_mul128_lt (x b : Nat) (hx : x < U64) (hb1 : 1 ≤ b) :
    hi64 (mul128 x b) < b := by
  unfold hi64 mul128
  rw [Nat.shiftRight_eq_div_pow]
  refine lt_of_le_of_lt (Nat.mod_le _ _) ?_
  refine lt_of_le_of_lt (Nat.div_le_div_right (Nat.mod_le _ _)) ?_
  change x * b / U64 < b
  rw [Nat.div_lt_iff_lt_mul (by decide)]
  exact Nat.mul_lt_mul_of_pos_right hx hb1 |>.trans_le (by rw [Nat.mul_comm])

theorem hi8_mul16_lt (x b : Nat) (hx : x < U8) (hb1 : 1 ≤ b) :
    hi8 (mul16 x b) < b := by
  unfold hi8 mul16
  rw [Nat.shiftRight_eq_div_pow]
  refine lt_of_le_of_lt (Nat.mod_le _ _) ?_
  refine lt_of_le_of_lt (Nat.div_le_div_right (Nat.mod_le _ _)) ?_
  change x * b / U8 < b
  rw [Nat.div_lt_iff_lt_mul (by decide)]
  exact Nat.mul_lt_mul_of_pos_right hx hb1 |>.trans_le (by rw [Nat.mul_comm])

theorem uint_less_than_u64_loop_lt (b t : Nat) (hb1 : 1 ≤ b) :
    ∀ (fuel : Nat) (rng : xoshiro256) (m v : Nat) (rng' : xoshiro256),
      hi64 m < b → uint_less_than_u64_loop b t fuel rng m = .ret (v, rng') → v < b := by
  intro fuel
  induction fuel with
  | zero =>
    intro rng m v rng' hm h
    unfold uint_less_than_u64_loop at h
    split at h
    · simp at h
    · simp only [Run.ret.injEq, Prod.mk.injEq] at h
      omega
  | succ n ih =>
    intro rng m v rng' hm h
    unfold uint_less_than_u64_loop at h
    split at h
    · exact ih _ _ _ _ (hi64_mul128_lt _ b (rand_u64_lt rng) hb1) h
    · simp only [Run.ret.injEq, Prod.mk.injEq] at h
      omega

theorem uint_less_than_u8_loop_lt (b t : Nat) (hb1 : 1 ≤ b) :
    ∀ (fuel : Nat) (rng : xoshiro256) (m v : Nat) (rng' : xoshiro256),
      hi8 m < b → uint_less_than_u8_loop b t fuel rng m = .ret (v, rng') → v < b := by
  intro fuel
  induction fuel with
  | zero =>
    intro rng m v rng' hm h
    unfold uint_less_than_u8_loop at h
    split at h
    · simp at h
    · simp only [Run.ret.injEq, Prod.mk.injEq] at h
      omega
  | succ n ih =>
    intro rng m v rng' hm h
    unfold uint_less_than_u8_loop at h
    split at h
    · exact ih _ _ _ _ (hi8_mul16_lt _ b (rand_u8_lt rng) hb1) h
    · simp only [Run.ret.injEq, Prod.mk.injEq] at h
      omega

theorem uint_less_than_u64_lt (fuel : Nat) (rng : xoshiro256) (b v : Nat)
    (rng' : xoshiro256) (hb1 : 1 ≤ b)
    (h : uint_less_than_u64 fuel rng b = .ret (v, rng')) : v < b := by
  have hm := hi64_mul128_lt _ b (rand_u64_lt rng) hb1
  unfold uint_less_than_u64 at h
  simp only at h
  split at h
  · split at h
    · simp at h
    · exact uint_less_than_u64_loop_lt b _ hb1 _ _ _ _ _ hm h
  · simp only [Run.ret.injEq, Prod.mk.injEq] at h
    omega

theorem uint_less_than_u8_lt (fuel : Nat) (rng : xoshiro256) (b v : Nat)
    (rng' : xoshiro256) (hb1 : 1 ≤ b)
    (h : uint_less_than_u8 fuel rng b = .ret (v, rng')) : v < b := by
  have hm := hi8_mul16_lt _ b (rand_u8_lt rng) hb1
  unfold uint_less_than_u8 at h
  simp only at h
  split at h
  · split at h
    · simp at h
    · exact uint_less_than_u8_loop_lt b _ hb1 _ _ _ _ _ hm h
  · simp only [Run.ret.injEq, Prod.mk.injEq] at h
    omega

/-- Claim C2 (range of the bounded samplers). For every bound `b ≥ 1`, every
redraw budget and every generator state, a value `v` returned by
`uint_less_than_u64`, and likewise by `uint_less_than_u8`, satisfies
`0 ≤ v < b`. -/
theorem uint_less_than_range (b : Nat) (hb1 : 1 ≤ b) :
    (∀ (fuel : Nat) (rng : xoshiro256) (v : Nat) (rng' : xoshiro256),
      uint_less_than_u64 fuel rng b = .ret (v, rng') → 0 ≤ v ∧ v < b) ∧
    (∀ (fuel : Nat) (rng : xoshiro256) (v : Nat) (rng' : xoshiro256),
      uint_less_than_u8 fuel rng b = .ret (v, rng') → 0 ≤ v ∧ v < b) :=
  ⟨fun fuel rng v rng' h => ⟨Nat.zero_le v, uint_less_than_u64_lt fuel rng b v rng' hb1 h⟩,
   fun fuel rng v rng' h => ⟨Nat.zero_le v, uint_less_than_u8_lt fuel rng b v rng' hb1 h⟩⟩

theorem uint_less_than_range_witness :
    1 ≤ 3 ∧
    uint_less_than_u64 0 (xoshiro_seed 0xC0FFEE) 3 =
      .ret (1, { s0 := 8941771544178907591, s1 := 11662316383214348104,
                 s2 := 18044543064835400497, s3 := 4694922152626115364 }) ∧
    uint_less_than_u8 0 (xoshiro_seed 0xC0FFEE) 3 =
      .ret (2, { s0 := 8941771544178907591, s1 := 11662316383214348104,
                 s2 := 18044543064835400497, s3 := 4694922152626115364 }) ∧
    (0 ≤ 1 ∧ 1 < 3) ∧ (0 ≤ 2 ∧ 2 < 3) :=
  ⟨by decide, by decide, by decide,
   (uint_less_than_range 3 (by decide)).1 0 (xoshiro_seed 0xC0FFEE) 1
     ⟨8941771544178907591, 11662316383214348104,
        18044543064835400497, 4694922152626115364⟩ (by decide),
   (uint_less_than_range 3 (by decide)).2 0 (xoshiro_seed 0xC0FFEE) 2
     ⟨8941771544178907591, 11662316383214348104,
        18044543064835400497, 4694922152626115364⟩ (by decide)⟩

theorem uint_at_most_u64_le (fuel : Nat) (rng : xoshiro256) (at_most v : Nat)
    (rng' : xoshiro256) (ha : at_most < U64)
    (h : uint_at_most_u64 fuel rng at_most = .ret (v, rng')) : v ≤ at_most := by
  unfold uint_at_most_u64 at h
  split at h
  · next he =>
    simp only [Run.ret.injEq] at h
    have := rand_u64_lt rng
    rw [h] at this
    simp only at this
    omega
  · next hne =>
    rw [Nat.mod_eq_of_lt (by omega)] at h
    have := uint_less_than_u64_lt fuel rng _ v rng' (by omega) h
    omega

theorem uint_less_than_u64_one (fuel : Nat) (rng : xoshiro256) :
    uint_less_than_u64 fuel rng 1 = .ret (0, (rand_u64 rng).2) := by
  have hx := rand_u64_lt rng
  have hm : mul128 (rand_u64 rng).1 1 = (rand_u64 rng).1 := by
    rw [mul128_eq _ 1 hx (by decide), Nat.mul_one]
  have hh : hi64 (rand_u64 rng).1 = 0 := by
    have := hi64_mul128_lt _ 1 hx (le_refl 1)
    rw [hm] at this
    omega
  unfold uint_less_than_u64
  simp only [hm, hh]
  split
  · rw [threshold_u64_eq 1 (le_refl 1) (by decide)]
    simp only [Nat.mod_one]
    cases fuel <;> simp [uint_less_than_u64_loop, hh]
  · rfl

/-- Claim C3 (range of `int_range_at_most_i64`). For every generator state
and signed 64-bit `lo ≤ hi` (the full range `INT64_MIN .. INT64_MAX` included),
every returned value `v` satisfies `lo ≤ v ≤ hi`; and when `lo = hi` the
function returns `lo`, whatever the redraw budget, after one draw. -/
theorem int_range_at_most_i64_range (fuel : Nat) (rng : xoshiro256) (lo hi : Int)
    (hlo : -(2 ^ 63) ≤ lo) (hle : lo ≤ hi) (hhi : hi < 2 ^ 63) :
    (∀ (v : Int) (rng' : xoshiro256),
      int_range_at_most_i64 fuel rng lo hi = .ret (v, rng') → lo ≤ v ∧ v ≤ hi) ∧
    (lo = hi → int_range_at_most_i64 fuel rng lo hi = .ret (lo, (rand_u64 rng).2)) := by
  have hdiff : (to_u64 hi + U64 - to_u64 lo) % U64 = (hi - lo).toNat := by
    unfold to_u64 U64
    push_cast
    omega
  constructor
  · intro v rng' h
    unfold int_range_at_most_i64 at h
    simp only [hdiff] at h
    cases hu : uint_at_most_u64 fuel rng (hi - lo).toNat with
    | ret p =>
      obtain ⟨w, r⟩ := p
      have hw := uint_at_most_u64_le fuel rng _ w r (by unfold U64; omega) hu
      rw [hu] at h
      simp only [Run.bind, Run.ret.injEq, Prod.mk.injEq] at h
      rw [← h.1]
      unfold to_i64 to_u64 U64
      push_cast
      omega
    | exit1 e => rw [hu] at h; simp [Run.bind] at h
    | timeout => rw [hu] at h; simp [Run.bind] at h
    | ub => rw [hu] at h; simp [Run.bind] at h
  · intro he
    subst he
    unfold int_range_at_most_i64
    simp only [hdiff, Int.sub_self, Int.toNat_zero]
    have h1 : uint_at_most_u64 fuel rng 0 = .ret (0, (rand_u64 rng).2) := by
      unfold uint_at_most_u64
      rw [if_neg (by decide)]
      exact uint_less_than_u64_one fuel rng
    rw [h1]
    simp only [Run.bind, Run.ret.injEq, Prod.mk.injEq, and_true]
    unfold to_i64 to_u64 U64
    push_cast
    omega

theorem int_range_at_most_i64_range_witness :
    (-(2 ^ 63) ≤ (-(2 ^ 63) : Int) ∧ (-(2 ^ 63) : Int) ≤ 2 ^ 63 - 1 ∧
      (2 ^ 63 - 1 : Int) < 2 ^ 63) ∧
    int_range_at_most_i64 0 (xoshiro_seed 0xC0FFEE) (-(2 ^ 63)) (2 ^ 63 - 1) =
      .ret (897929269121600229, ⟨8941771544178907591, 11662316383214348104,
        18044543064835400497, 4694922152626115364⟩) ∧
    ((-(2 ^ 63) : Int) ≤ 897929269121600229 ∧ (897929269121600229 : Int) ≤ 2 ^ 63 - 1) :=
  ⟨⟨by decide, by decide, by decide⟩, by decide,
   (int_range_at_most_i64_range 0 (xoshiro_seed 0xC0FFEE) (-(2 ^ 63)) (2 ^ 63 - 1)
     (by decide) (by decide) (by decide)).1 897929269121600229
     ⟨8941771544178907591, 11662316383214348104,
        18044543064835400497, 4694922152626115364⟩ (by decide)⟩

/-! ### The sampler returns the image of the first kept raw draw -/

theorem accepts_u64_eq (b x : Nat) (hb1 : 1 ≤ b) (hb : b < U64) :
    accepts_u64 b x = true ↔ ¬ lo64 (mul128 x b) < U64 % b := by
  have ht : U64 % b < b := Nat.mod_lt _ (by omega)
  unfold accepts_u64
  simp only [threshold_u64_eq b hb1 hb]
  split
  · simp
  · simp; omega

theorem uint_less_than_u64_eq_loop (fuel : Nat) (rng : xoshiro256) (b : Nat)
    (hb1 : 1 ≤ b) (hb : b < U64) :
    uint_less_than_u64 fuel rng b =
      uint_less_than_u64_loop b (U64 % b) fuel (rand_u64 rng).2
        (mul128 (rand_u64 rng).1 b) := by
  have ht : U64 % b < b := Nat.mod_lt _ (by omega)
  unfold uint_less_than_u64
  simp only [threshold_u64_eq b hb1 hb]
  split
  · rfl
  · next hl =>
    rw [uint_less_than_u64_loop.eq_def]
    simp only
    rw [if_neg (by omega)]

theorem uint_less_than_u64_loop_first_kept (b : Nat) (hb1 : 1 ≤ b) (hb : b < U64) :
    ∀ (k fuel : Nat) (rng : xoshiro256), k ≤ fuel →
      (∀ j, j < k → accepts_u64 b (raw_u64 rng j) = false) →
      accepts_u64 b (raw_u64 rng k) = true →
      uint_less_than_u64_loop b (U64 % b) fuel (rand_u64 rng).2
          (mul128 (rand_u64 rng).1 b)
        = .ret (hi64 (mul128 (raw_u64 rng k) b), after_draws (k + 1) rng) := by
  intro k
  induction k with
  | zero =>
    intro fuel rng _ _ hacc
    rw [accepts_u64_eq b _ hb1 hb] at hacc
    have hacc0 : ¬ lo64 (mul128 (rand_u64 rng).1 b) < U64 % b := hacc
    rw [uint_less_than_u64_loop.eq_def]
    simp only
    rw [if_neg hacc0]
    rfl
  | succ k ih =>
    intro fuel rng hk hrej hacc
    obtain ⟨f, rfl⟩ : ∃ f, fuel = f + 1 := ⟨fuel - 1, by omega⟩
    have h0 : lo64 (mul128 (rand_u64 rng).1 b) < U64 % b := by
      have h := hrej 0 (Nat.succ_pos k)
      rw [← Bool.not_eq_true, accepts_u64_eq b _ hb1 hb, not_not] at h
      exact h
    rw [uint_less_than_u64_loop.eq_def]
    simp only
    rw [if_pos h0]
    exact ih f (rand_u64 rng).2 (by omega)
      (fun j hj => hrej (j + 1) (by omega)) hacc

theorem uint_less_than_u64_loop_all_rejected (b : Nat) (hb1 : 1 ≤ b) (hb : b < U64) :
    ∀ (fuel : Nat) (rng : xoshiro256),
      (∀ j, j ≤ fuel → accepts_u64 b (raw_u64 rng j) = false) →
      uint_less_than_u64_loop b (U64 % b) fuel (rand_u64 rng).2
          (mul128 (rand_u64 rng).1 b) = .timeout := by
  intro fuel
  induction fuel with
  | zero =>
    intro rng hrej
    have h0 : lo64 (mul128 (rand_u64 rng).1 b) < U64 % b := by
      have h := hrej 0 (Nat.le_refl 0)
      rw [← Bool.not_eq_true, accepts_u64_eq b _ hb1 hb, not_not] at h
      exact h
    rw [uint_less_than_u64_loop.eq_def]
    simp only
    rw [if_pos h0]
  | succ f ih =>
    intro rng hrej
    have h0 : lo64 (mul128 (rand_u64 rng).1 b) < U64 % b := by
      have h := hrej 0 (Nat.zero_le _)
      rw [← Bool.not_eq_true, accepts_u64_eq b _ hb1 hb, not_not] at h
      exact h
    rw [uint_less_than_u64_loop.eq_def]
    simp only
    rw [if_pos h0]
    exact ih (rand_u64 rng).2 (fun j hj => hrej (j + 1) (by omega))

theorem uint_less_than_u64_first_kept (fuel : Nat) (rng rng' : xoshiro256) (b w : Nat)
    (hb1 : 1 ≤ b) (hb : b < U64) (h : uint_less_than_u64 fuel rng b = .ret (w, rng')) :
    ∃ k, k ≤ fuel ∧ (∀ j, j < k → accepts_u64 b (raw_u64 rng j) = false) ∧
      accepts_u64 b (raw_u64 rng k) = true ∧
      w = hi64 (mul128 (raw_u64 rng k) b) ∧ rng' = after_draws (k + 1) rng := by
  rw [uint_less_than_u64_eq_loop fuel rng b hb1 hb] at h
  by_cases hex : ∃ j, j ≤ fuel ∧ accepts_u64 b (raw_u64 rng j) = true
  · have hk := Nat.find_spec hex
    have hmin : ∀ j, j < Nat.find hex → accepts_u64 b (raw_u64 rng j) = false := by
      intro j hj
      have hno := Nat.find_min hex hj
      cases hacc : accepts_u64 b (raw_u64 rng j) with
      | false => rfl
      | true => exact (hno ⟨by omega, hacc⟩).elim
    rw [uint_less_than_u64_loop_first_kept b hb1 hb (Nat.find hex) fuel rng hk.1 hmin hk.2] at h
    simp only [Run.ret.injEq, Prod.mk.injEq] at h
    exact ⟨Nat.find hex, hk.1, hmin, hk.2, h.1.symm, h.2.symm⟩
  · have hall : ∀ j, j ≤ fuel → accepts_u64 b (raw_u64 rng j) = false := by
      intro j hj
      cases hacc : accepts_u64 b (raw_u64 rng j) with
      | false => rfl
      | true => exact (hex ⟨j, hj, hacc⟩).elim
    rw [uint_less_than_u64_loop_all_rejected b hb1 hb fuel rng hall] at h
    exact Run.noConfusion h

/-- Claim C1 (exactness of `uint_less_than_u64`). For every bound `b` with
`1 ≤ b < 2 ^ 64` the threshold computed by the code is `2 ^ 64 mod b`, a raw
word `x` is kept iff `low64(x * b) ≥ 2 ^ 64 mod b`, and for every `v < b` the
number of raw words that are kept and mapped to `v` (`high64(x * b) = v`) is
`⌊2 ^ 64 / b⌋`, the same for every `v`. The sampler returns the image
`high64(x * b)` of the first kept raw word of the stream and nothing else:
if the first `k` raw words are not kept and the next one is, a budget of at
least `k` redraws gives that image after `k + 1` draws; if none of the first
`fuel + 1` raw words is kept the budget of `fuel` redraws runs out; and every
value returned arises in this way. -/
theorem uint_less_than_u64_exact (b v : Nat) (hb1 : 1 ≤ b) (hb : b < U64) (hv : v < b) :
    threshold_u64 b = some (U64 % b) ∧
    (∀ x, x < U64 → (accepts_u64 b x = true ↔ U64 % b ≤ lo64 (mul128 x b))) ∧
    ((Finset.range U64).filter
      (fun x => accepts_u64 b x = true ∧ hi64 (mul128 x b) = v)).card = U64 / b ∧
    (∀ (fuel k : Nat) (rng : xoshiro256), k ≤ fuel →
      (∀ j, j < k → accepts_u64 b (raw_u64 rng j) = false) →
      accepts_u64 b (raw_u64 rng k) = true →
      uint_less_than_u64 fuel rng b =
        .ret (hi64 (mul128 (raw_u64 rng k) b), after_draws (k + 1) rng)) ∧
    (∀ (fuel : Nat) (rng : xoshiro256),
      (∀ j, j ≤ fuel → accepts_u64 b (raw_u64 rng j) = false) →
      uint_less_than_u64 fuel rng b = .timeout) ∧
    (∀ (fuel : Nat) (rng rng' : xoshiro256) (w : Nat),
      uint_less_than_u64 fuel rng b = .ret (w, rng') →
      ∃ k, k ≤ fuel ∧ (∀ j, j < k → accepts_u64 b (raw_u64 rng j) = false) ∧
        accepts_u64 b (raw_u64 rng k) = true ∧
        w = hi64 (mul128 (raw_u64 rng k) b) ∧ rng' = after_draws (k + 1) rng) := by
  refine ⟨threshold_u64_eq b hb1 hb, ?_, ?_, ?_, ?_,
    fun fuel rng rng' w h => uint_less_than_u64_first_kept fuel rng rng' b w hb1 hb h⟩
  · intro x hx
    rw [accepts_u64_iff b x hb1 hb hx, mul128_eq x b hx hb]
    rfl
  · have hpos : 0 < U64 := by decide
    refine Eq.trans ?_ (multiply_high_reject_count U64 b v hpos hb1 hv)
    refine congrArg Finset.card (Finset.filter_congr ?_)
    intro x hx
    have hx' : x < U64 := Finset.mem_range.1 hx
    rw [accepts_u64_iff b x hb1 hb hx', mul128_eq x b hx' hb, hi64_mul x b hx' hb]
  · intro fuel k rng hk hrej hacc
    rw [uint_less_than_u64_eq_loop fuel rng b hb1 hb]
    exact uint_less_than_u64_loop_first_kept b hb1 hb k fuel rng hk hrej hacc
  · intro fuel rng hrej
    rw [uint_less_than_u64_eq_loop fuel rng b hb1 hb]
    exact uint_less_than_u64_loop_all_rejected b hb1 hb fuel rng hrej

theorem uint_less_than_u64_exact_witness :
    (1 ≤ 2 ^ 63 + 1 ∧ 2 ^ 63 + 1 < U64 ∧ 1 < 2 ^ 63 + 1) ∧
    (accepts_u64 (2 ^ 63 + 1) (raw_u64 (xoshiro_seed 9) 0) = false ∧
      accepts_u64 (2 ^ 63 + 1) (raw_u64 (xoshiro_seed 9) 1) = false ∧
      accepts_u64 (2 ^ 63 + 1) (raw_u64 (xoshiro_seed 9) 2) = true) ∧
    threshold_u64 (2 ^ 63 + 1) = some (U64 % (2 ^ 63 + 1)) ∧
    ((Finset.range U64).filter
      (fun x => accepts_u64 (2 ^ 63 + 1) x = true ∧
        hi64 (mul128 x (2 ^ 63 + 1)) = 1)).card = U64 / (2 ^ 63 + 1) ∧
    uint_less_than_u64 2 (xoshiro_seed 9) (2 ^ 63 + 1) =
      .ret (hi64 (mul128 (raw_u64 (xoshiro_seed 9) 2) (2 ^ 63 + 1)),
        after_draws 3 (xoshiro_seed 9)) ∧
    uint_less_than_u64 1 (xoshiro_seed 9) (2 ^ 63 + 1) = .timeout :=
  have h := uint_less_than_u64_exact (2 ^ 63 + 1) 1 (by decide) (by decide) (by decide)
  have h0 : accepts_u64 (2 ^ 63 + 1) (raw_u64 (xoshiro_seed 9) 0) = false := by decide!
  have h1 : accepts_u64 (2 ^ 63 + 1) (raw_u64 (xoshiro_seed 9) 1) = false := by decide!
  have h2 : accepts_u64 (2 ^ 63 + 1) (raw_u64 (xoshiro_seed 9) 2) = true := by decide!
  ⟨⟨by decide, by decide, by decide⟩, ⟨h0, h1, h2⟩, h.1, h.2.2.1,
   h.2.2.2.1 2 2 (xoshiro_seed 9) (Nat.le_refl 2)
     (fun j hj => match j, hj with
       | 0, _ => h0
       | 1, _ => h1
       | n + 2, hlt => absurd hlt (by omega)) h2,
   h.2.2.2.2.1 1 (xoshiro_seed 9)
     (fun j hj => match j, hj with
       | 0, _ => h0
       | 1, _ => h1
       | n + 2, hle => absurd hle (by omega))⟩

theorem accepts_u8_eq (b x : Nat) (hb1 : 1 ≤ b) (hb : b < U8) :
    accepts_u8 b x = true ↔ ¬ lo8 (mul16 x b) < U8 % b := by
  have ht : U8 % b < b := Nat.mod_lt _ (by omega)
  unfold accepts_u8
  simp only [threshold_u8_eq b hb1 hb]
  split
  · simp
  · simp; omega

theorem uint_less_than_u8_eq_loop (fuel : Nat) (rng : xoshiro256) (b : Nat)
    (hb1 : 1 ≤ b) (hb : b < U8) :
    uint_less_than_u8 fuel rng b =
      uint_less_than_u8_loop b (U8 % b) fuel (rand_u8 rng).2
        (mul16 (rand_u8 rng).1 b) := by
  have ht : U8 % b < b := Nat.mod_lt _ (by omega)
  unfold uint_less_than_u8
  simp only [threshold_u8_eq b hb1 hb]
  split
  · rfl
  · next hl =>
    rw [uint_less_than_u8_loop.eq_def]
    simp only
    rw [if_neg (by omega)]

theorem uint_less_than_u8_loop_first_kept (b : Nat) (hb1 : 1 ≤ b) (hb : b < U8) :
    ∀ (k fuel : Nat) (rng : xoshiro256), k ≤ fuel →
      (∀ j, j < k → accepts_u8 b (raw_u8 rng j) = false) →
      accepts_u8 b (raw_u8 rng k) = true →
      uint_less_than_u8_loop b (U8 % b) fuel (rand_u8 rng).2
          (mul16 (rand_u8 rng).1 b)
        = .ret (hi8 (mul16 (raw_u8 rng k) b), after_draws (k + 1) rng) := by
  intro k
  induction k with
  | zero =>
    intro fuel rng _ _ hacc
    rw [accepts_u8_eq b _ hb1 hb] at hacc
    have hacc0 : ¬ lo8 (mul16 (rand_u8 rng).1 b) < U8 % b := hacc
    rw [uint_less_than_u8_loop.eq_def]
    simp only
    rw [if_neg hacc0]
    rfl
  | succ k ih =>
    intro fuel rng hk hrej hacc
    obtain ⟨f, rfl⟩ : ∃ f, fuel = f + 1 := ⟨fuel - 1, by omega⟩
    have h0 : lo8 (mul16 (rand_u8 rng).1 b) < U8 % b := by
      have h := hrej 0 (Nat.succ_pos k)
      rw [← Bool.not_eq_true, accepts_u8_eq b _ hb1 hb, not_not] at h
      exact h
    rw [uint_less_than_u8_loop.eq_def]
    simp only
    rw [if_pos h0]
    exact ih f (rand_u8 rng).2 (by omega)
      (fun j hj => hrej (j + 1) (by omega)) hacc

theorem uint_less_than_u8_loop_all_rejected (b : Nat) (hb1 : 1 ≤ b) (hb : b < U8) :
    ∀ (fuel : Nat) (rng : xoshiro256),
      (∀ j, j ≤ fuel → accepts_u8 b (raw_u8 rng j) = false) →
      uint_less_than_u8_loop b (U8 % b) fuel (rand_u8 rng).2
          (mul16 (rand_u8 rng).1 b) = .timeout := by
  intro fuel
  induction fuel with
  | zero =>
    intro rng hrej
    have h0 : lo8 (mul16 (rand_u8 rng).1 b) < U8 % b := by
      have h := hrej 0 (Nat.le_refl 0)
      rw [← Bool.not_eq_true, accepts_u8_eq b _ hb1 hb, not_not] at h
      exact h
    rw [uint_less_than_u8_loop.eq_def]
    simp only
    rw [if_pos h0]
  | succ f ih =>
    intro rng hrej
    have h0 : lo8 (mul16 (rand_u8 rng).1 b) < U8 % b := by
      have h := hrej 0 (Nat.zero_le _)
      rw [← Bool.not_eq_true, accepts_u8_eq b _ hb1 hb, not_not] at h
      exact h
    rw [uint_less_than_u8_loop.eq_def]
    simp only
    rw [if_pos h0]
    exact ih (rand_u8 rng).2 (fun j hj => hrej (j + 1) (by omega))

theorem uint_less_than_u8_first_kept (fuel : Nat) (rng rng' : xoshiro256) (b w : Nat)
    (hb1 : 1 ≤ b) (hb : b < U8) (h : uint_less_than_u8 fuel rng b = .ret (w, rng')) :
    ∃ k, k ≤ fuel ∧ (∀ j, j < k → accepts_u8 b (raw_u8 rng j) = false) ∧
      accepts_u8 b (raw_u8 rng k) = true ∧
      w = hi8 (mul16 (raw_u8 rng k) b) ∧ rng' = after_draws (k + 1) rng := by
  rw [uint_less_than_u8_eq_loop fuel rng b hb1 hb] at h
  by_cases hex : ∃ j, j ≤ fuel ∧ accepts_u8 b (raw_u8 rng j) = true
  · have hk := Nat.find_spec hex
    have hmin : ∀ j, j < Nat.find hex → accepts_u8 b (raw_u8 rng j) = false := by
      intro j hj
      have hno := Nat.find_min hex hj
      cases hacc : accepts_u8 b (raw_u8 rng j) with
      | false => rfl
      | true => exact (hno ⟨by omega, hacc⟩).elim
    rw [uint_less_than_u8_loop_first_kept b hb1 hb (Nat.find hex) fuel rng hk.1 hmin hk.2] at h
    simp only [Run.ret.injEq, Prod.mk.injEq] at h
    exact ⟨Nat.find hex, hk.1, hmin, hk.2, h.1.symm, h.2.symm⟩
  · have hall : ∀ j, j ≤ fuel → accepts_u8 b (raw_u8 rng j) = false := by
      intro j hj
      cases hacc : accepts_u8 b (raw_u8 rng j) with
      | false => rfl
      | true => exact (hex ⟨j, hj, hacc⟩).elim
    rw [uint_less_than_u8_loop_all_rejected b hb1 hb fuel rng hall] at h
    exact Run.noConfusion h

/-- Claim C9 (exactness of `uint_less_than_u8`). For every 8-bit bound `b ≥ 1`
the threshold computed by the code is `256 mod b`, a raw byte `x` is kept iff
`low8(x * b) ≥ 256 mod b`, and for every `v < b` exactly `⌊256 / b⌋` raw bytes
are kept and mapped to `v`. For the action bound 3 each of the actions 0, 1, 2
comes from exactly 85 raw bytes and the raw byte 0 is the only one redrawn.
The sampler returns the image `high8(x * b)` of the first kept raw byte of the
stream and nothing else: if the first `k` raw bytes are not kept and the next
one is, a budget of at least `k` redraws gives that image after `k + 1`
draws; if none of the first `fuel + 1` raw bytes is kept the budget of `fuel`
redraws runs out; and every value returned arises in this way. -/
theorem uint_less_than_u8_exact (b v : Nat) (hb1 : 1 ≤ b) (hb : b < U8) (hv : v < b) :
    threshold_u8 b = some (U8 % b) ∧
    (∀ x, x < U8 → (accepts_u8 b x = true ↔ U8 % b ≤ lo8 (mul16 x b))) ∧
    ((Finset.range U8).filter
      (fun x => accepts_u8 b x = true ∧ hi8 (mul16 x b) = v)).card = U8 / b ∧
    (∀ a, a < 3 → ((Finset.range U8).filter
      (fun x => accepts_u8 3 x = true ∧ hi8 (mul16 x 3) = a)).card = 85) ∧
    (∀ x, x < U8 → (accepts_u8 3 x = false ↔ x = 0)) ∧
    (∀ (fuel k : Nat) (rng : xoshiro256), k ≤ fuel →
      (∀ j, j < k → accepts_u8 b (raw_u8 rng j) = false) →
      accepts_u8 b (raw_u8 rng k) = true →
      uint_less_than_u8 fuel rng b =
        .ret (hi8 (mul16 (raw_u8 rng k) b), after_draws (k + 1) rng)) ∧
    (∀ (fuel : Nat) (rng : xoshiro256),
      (∀ j, j ≤ fuel → accepts_u8 b (raw_u8 rng j) = false) →
      uint_less_than_u8 fuel rng b = .timeout) ∧
    (∀ (fuel : Nat) (rng rng' : xoshiro256) (w : Nat),
      uint_less_than_u8 fuel rng b = .ret (w, rng') →
      ∃ k, k ≤ fuel ∧ (∀ j, j < k → accepts_u8 b (raw_u8 rng j) = false) ∧
        accepts_u8 b (raw_u8 rng k) = true ∧
        w = hi8 (mul16 (raw_u8 rng k) b) ∧ rng' = after_draws (k + 1) rng) := by
  have hpos : 0 < U8 := by decide
  have count : ∀ c w, 1 ≤ c → c < U8 → w < c →
      ((Finset.range U8).filter
        (fun x => accepts_u8 c x = true ∧ hi8 (mul16 x c) = w)).card = U8 / c := by
    intro c w hc1 hc hw
    refine Eq.trans ?_ (multiply_high_reject_count U8 c w hpos hc1 hw)
    refine congrArg Finset.card (Finset.filter_congr ?_)
    intro x hx
    have hx' : x < U8 := Finset.mem_range.1 hx
    rw [accepts_u8_iff c x hc1 hc hx', mul16_eq x c hx' hc, hi8_mul x c hx' hc]
  refine ⟨threshold_u8_eq b hb1 hb, ?_, count b v hb1 hb hv, ?_, ?_, ?_, ?_,
    fun fuel rng rng' w h => uint_less_than_u8_first_kept fuel rng rng' b w hb1 hb h⟩
  · intro x hx
    rw [accepts_u8_iff b x hb1 hb hx, mul16_eq x b hx hb]
    rfl
  · intro a ha
    rw [count 3 a (by decide) (by decide) ha]
    decide
  · intro x hx
    have h := accepts_u8_iff 3 x (by decide) (by decide) hx
    rw [← Bool.not_eq_true, h]
    unfold U8 at *
    omega
  · intro fuel k rng hk hrej hacc
    rw [uint_less_than_u8_eq_loop fuel rng b hb1 hb]
    exact uint_less_than_u8_loop_first_kept b hb1 hb k fuel rng hk hrej hacc
  · intro fuel rng hrej
    rw [uint_less_than_u8_eq_loop fuel rng b hb1 hb]
    exact uint_less_than_u8_loop_all_rejected b hb1 hb fuel rng hrej

theorem uint_less_than_u8_exact_witness :
    (1 ≤ 3 ∧ 3 < U8 ∧ 2 < 3) ∧
    (accepts_u8 3 (raw_u8 (xoshiro_seed 16137) 0) = false ∧
      accepts_u8 3 (raw_u8 (xoshiro_seed 16137) 1) = false ∧
      accepts_u8 3 (raw_u8 (xoshiro_seed 16137) 2) = true) ∧
    threshold_u8 3 = some (U8 % 3) ∧
    ((Finset.range U8).filter
      (fun x => accepts_u8 3 x = true ∧ hi8 (mul16 x 3) = 2)).card = U8 / 3 ∧
    (∀ a, a < 3 → ((Finset.range U8).filter
      (fun x => accepts_u8 3 x = true ∧ hi8 (mul16 x 3) = a)).card = 85) ∧
    (∀ x, x < U8 → (accepts_u8 3 x = false ↔ x = 0)) ∧
    uint_less_than_u8 2 (xoshiro_seed 16137) 3 =
      .ret (hi8 (mul16 (raw_u8 (xoshiro_seed 16137) 2) 3),
        after_draws 3 (xoshiro_seed 16137)) ∧
    uint_less_than_u8 1 (xoshiro_seed 16137) 3 = .timeout :=
  have h := uint_less_than_u8_exact 3 2 (by decide) (by decide) (by decide)
  have h0 : accepts_u8 3 (raw_u8 (xoshiro_seed 16137) 0) = false := by decide!
  have h1 : accepts_u8 3 (raw_u8 (xoshiro_seed 16137) 1) = false := by decide!
  have h2 : accepts_u8 3 (raw_u8 (xoshiro_seed 16137) 2) = true := by decide!
  ⟨⟨by decide, by decide, by decide⟩, ⟨h0, h1, h2⟩, h.1, h.2.2.1, h.2.2.2.1, h.2.2.2.2.1,
   h.2.2.2.2.2.1 2 2 (xoshiro_seed 16137) (Nat.le_refl 2)
     (fun j hj => match j, hj with
       | 0, _ => h0
       | 1, _ => h1
       | n + 2, hlt => absurd hlt (by omega)) h2,
   h.2.2.2.2.2.2.1 1 (xoshiro_seed 16137)
     (fun j hj => match j, hj with
       | 0, _ => h0
       | 1, _ => h1
       | n + 2, hle => absurd hle (by omega))⟩

/-! ### Contracts -/

theorem Run.sat_bind {α β : Type} {r : Run α} {f : α → Run β} {Q' : α → Prop}
    {Q : β → Prop} {X : Fatal → Prop} {U : Fault → Prop}
    (h : r.sat Q' X U) (hf : ∀ a, Q' a → (f a).sat Q X U) : (r.bind f).sat Q X U := by
  cases r with
  | ret a => exact hf a h
  | exit1 e => exact h
  | timeout => exact h
  | ub k => exact h

theorem Run.sat_mono {α : Type} {r : Run α} {Q Q' : α → Prop} {X X' : Fatal → Prop}
    {U U' : Fault → Prop} (h : r.sat Q X U) (hQ : ∀ a, Q a → Q' a)
    (hX : ∀ e, X e → X' e) (hU : ∀ k, U k → U' k) : r.sat Q' X' U' := by
  cases r with
  | ret a => exact hQ a h
  | exit1 e => exact hX e h
  | timeout => trivial
  | ub k => exact hU k h

theorem Run.sat_ret {α : Type} {r : Run α} {Q : α → Prop} {X : Fatal → Prop}
    {U : Fault → Prop} (h : r.sat Q X U) {a : α} (hr : r = .ret a) : Q a := by
  subst hr; exact h

theorem Run.sat_exit1 {α : Type} {r : Run α} {Q : α → Prop} {X : Fatal → Prop}
    {U : Fault → Prop} (h : r.sat Q X U) {e : Fatal} (hr : r = .exit1 e) : X e := by
  subst hr; exact h

theorem Run.sat_ub {α : Type} {r : Run α} {Q : α → Prop} {X : Fatal → Prop}
    {U : Fault → Prop} (h : r.sat Q X U) {k : Fault} (hr : r = .ub k) : U k := by
  subst hr; exact h

theorem Run.sat_of_pure {α : Type} {r : Run α} {Q : α → Prop} {X : Fatal → Prop}
    {U : Fault → Prop} (h : r.pure_sat Q) : r.sat Q X U :=
  Run.sat_mono h (fun _ h => h) (fun _ h => h.elim) (fun _ h => h.elim)

/-! ### Samplers never exit or fault on a non-zero bound -/

theorem uint_less_than_u64_loop_sat (b t : Nat) (hb1 : 1 ≤ b) :
    ∀ (fuel : Nat) (rng : xoshiro256) (m : Nat), hi64 m < b →
      (uint_less_than_u64_loop b t fuel rng m).pure_sat (fun p => p.1 < b) := by
  intro fuel
  induction fuel with
  | zero =>
    intro rng m hm
    unfold uint_less_than_u64_loop
    split
    · trivial
    · exact hm
  | succ n ih =>
    intro rng m hm
    unfold uint_less_than_u64_loop
    split
    · exact ih _ _ (hi64_mul128_lt _ b (rand_u64_lt rng) hb1)
    · exact hm

theorem uint_less_than_u64_sat (fuel : Nat) (rng : xoshiro256) (b : Nat)
    (hb1 : 1 ≤ b) (hb : b < U64) :
    (uint_less_than_u64 fuel rng b).pure_sat (fun p => p.1 < b) := by
  have hm := hi64_mul128_lt _ b (rand_u64_lt rng) hb1
  unfold uint_less_than_u64
  simp only [threshold_u64_eq b hb1 hb]
  split
  · exact uint_less_than_u64_loop_sat b _ hb1 _ _ _ hm
  · exact hm

theorem uint_less_than_u8_loop_sat (b t : Nat) (hb1 : 1 ≤ b) :
    ∀ (fuel : Nat) (rng : xoshiro256) (m : Nat), hi8 m < b →
      (uint_less_than_u8_loop b t fuel rng m).pure_sat (fun p => p.1 < b) := by
  intro fuel
  induction fuel with
  | zero =>
    intro rng m hm
    unfold uint_less_than_u8_loop
    split
    · trivial
    · exact hm
  | succ n ih =>
    intro rng m hm
    unfold uint_less_than_u8_loop
    split
    · exact ih _ _ (hi8_mul16_lt _ b (rand_u8_lt rng) hb1)
    · exact hm

theorem uint_less_than_u8_sat (fuel : Nat) (rng : xoshiro256) (b : Nat)
    (hb1 : 1 ≤ b) (hb : b < U8) :
    (uint_less_than_u8 fuel rng b).pure_sat (fun p => p.1 < b) := by
  have hm := hi8_mul16_lt _ b (rand_u8_lt rng) hb1
  unfold uint_less_than_u8
  simp only [threshold_u8_eq b hb1 hb]
  split
  · exact uint_less_than_u8_loop_sat b _ hb1 _ _ _ hm
  · exact hm

theorem uint_at_most_u64_sat (fuel : Nat) (rng : xoshiro256) (at_most : Nat)
    (ha : at_most < U64) :
    (uint_at_most_u64 fuel rng at_most).pure_sat (fun p => p.1 ≤ at_most) := by
  unfold uint_at_most_u64
  split
  · next he =>
    have := rand_u64_lt rng
    show (rand_u64 rng).1 ≤ at_most
    omega
  · next hne =>
    rw [Nat.mod_eq_of_lt (by omega)]
    exact Run.sat_mono (uint_less_than_u64_sat fuel rng _ (by omega) (by omega))
      (fun p hp => Nat.lt_succ_iff.1 hp) (fun _ h => h) (fun _ h => h)

theorem int_range_at_most_i64_sat (fuel : Nat) (rng : xoshiro256) (lo hi : Int)
    (hlo : -(2 ^ 63) ≤ lo) (hle : lo ≤ hi) (hhi : hi < 2 ^ 63) :
    (int_range_at_most_i64 fuel rng lo hi).pure_sat (fun p => lo ≤ p.1 ∧ p.1 ≤ hi) := by
  have hdiff : (to_u64 hi + U64 - to_u64 lo) % U64 = (hi - lo).toNat := by
    unfold to_u64 U64
    push_cast
    omega
  unfold int_range_at_most_i64
  simp only [hdiff]
  refine Run.sat_bind (uint_at_most_u64_sat fuel rng _ (by unfold U64; omega)) ?_
  rintro ⟨w, r⟩ hw
  simp only at hw
  show lo ≤ to_i64 _ ∧ to_i64 _ ≤ hi
  unfold to_i64 to_u64 U64
  push_cast
  omega

theorem key_draw_sat (fuel : Nat) (rng : xoshiro256) :
    (int_range_at_most_i64 fuel rng 1 1000).pure_sat (fun p => 1 ≤ p.1 ∧ p.1 ≤ 1000) :=
  int_range_at_most_i64_sat fuel rng 1 1000 (by decide) (by decide) (by decide)

/-! ### Array accesses inside their bounds -/

theorem read_present_eq (present : List Nat) (k : Int) (hlen : present.length = 1001)
    (h0 : 0 ≤ k) (h1 : k ≤ 1000) :
    read_present present k = .ret (present.getD k.toNat 0) := by
  have hlt : k.toNat < present.length := by omega
  unfold read_present
  rw [if_pos h0, List.getElem?_eq_getElem hlt, List.getD_eq_getElem _ _ hlt]

theorem write_present_eq (present : List Nat) (k : Int) (v : Nat)
    (hlen : present.length = 1001) (h0 : 0 ≤ k) (h1 : k ≤ 1000) :
    write_present present k v = .ret (present.set k.toNat v) := by
  have hlt : k.toNat < present.length := by omega
  unfold write_present
  rw [if_pos ⟨h0, hlt⟩]

theorem read_keys_eq (f : Fault) (buf : List Int) (i : Nat) (v : Int)
    (h : buf[i]? = some v) : read_keys f buf i = .ret v := by
  unfold read_keys
  rw [h]

/-! ### The Insert branch -/

theorem insert_retry_sat (fuel : Nat) (present : List Nat) (hlen : present.length = 1001) :
    ∀ (left : Nat) (key : Int) (rng : xoshiro256), 1 ≤ key → key ≤ 1000 →
      (insert_retry fuel present left key rng).pure_sat
        (fun p => 1 ≤ p.1 ∧ p.1 ≤ 1000) := by
  intro left
  induction left with
  | zero =>
    intro key rng h1 h2
    unfold insert_retry
    rw [read_present_eq present key hlen (by omega) h2]
    simp only [Run.bind]
    split <;> exact ⟨h1, h2⟩
  | succ n ih =>
    intro key rng h1 h2
    unfold insert_retry
    rw [read_present_eq present key hlen (by omega) h2]
    simp only [Run.bind]
    split
    · exact Run.sat_bind (key_draw_sat fuel rng) (fun p hp => ih p.1 p.2 hp.1 hp.2)
    · exact ⟨h1, h2⟩

theorem write_keys_eq (f : Fault) (buf : List Int) (i : Nat) (v : Int)
    (h : i < buf.length) : write_keys f buf i v = .ret (buf.set i v) := by
  unfold write_keys
  rw [if_pos h]

theorem write_keys_ub (f : Fault) (buf : List Int) (i : Nat) (v : Int)
    (h : ¬ i < buf.length) : write_keys f buf i v = .ub f := by
  unfold write_keys
  rw [if_neg h]

theorem insert_step_sat {σ : Type} (E : Engine σ) (fuel : Nat) (d : Driver σ)
    (hinv : OracleInv d) :
    (insert_step E fuel d).sat (Step E d) (StepExit E d) (StepFault d) := by
  obtain ⟨hlen, hkc, hcap, -, -, -⟩ := hinv
  unfold insert_step
  refine Run.sat_bind (Run.sat_of_pure (key_draw_sat fuel d.rng)) ?_
  rintro ⟨key0, rng0⟩ ⟨h01, h02⟩
  refine Run.sat_bind (Run.sat_of_pure
    (insert_retry_sat fuel d.present hlen 10 key0 rng0 h01 h02)) ?_
  rintro ⟨key, rng⟩ ⟨h1, h2⟩
  simp only at h1 h2
  simp only [read_present_eq d.present key hlen (by omega) h2, Run.bind]
  split
  · exact Or.inl ⟨rfl, rfl, rfl, rfl, rfl⟩
  · next hp =>
    have hp0 : d.present.getD key.toNat 0 = 0 := by
      by_contra hne; exact hp hne
    split
    · next herr =>
      exact Or.inl ⟨rfl, key, h1, h2, hp0, herr⟩
    · next herr =>
      have herr' : (E.insert_row d.crsr (to_i32 key)).1 = .DB_SUCCESS := by
        by_contra hne; exact herr hne
      simp only [write_present_eq d.present key 1 hlen (by omega) h2, Run.bind]
      by_cases hlt : d.key_count < d.keys.length
      · have hmod : (d.key_count + 1) % U64 = d.key_count + 1 :=
          Nat.mod_eq_of_lt (by omega)
        rw [write_keys_eq _ _ _ _ hlt]
        exact Or.inr (Or.inl ⟨key, h1, h2, hp0, hlt, herr', rfl, rfl, hmod, rfl, rfl⟩)
      · rw [write_keys_ub _ _ _ _ hlt]
        exact ⟨rfl, by omega⟩

/-! ### The Delete and Search branches -/

theorem mem_dense_of_getElem? {σ : Type} (d : Driver σ) (idx : Nat) (key : Int)
    (hidx : idx < d.key_count) (h : d.keys[idx]? = some key) : key ∈ d.dense := by
  unfold Driver.dense
  rw [List.mem_iff_getElem?]
  exact ⟨idx, by rw [List.getElem?_take_of_lt hidx, h]⟩

theorem delete_at_sat {σ : Type} (E : Engine σ) (d : Driver σ) (idx : Nat)
    (hinv : OracleInv d) (hidx : idx < d.key_count) :
    (delete_at E d idx).sat (Step E d) (StepExit E d) (StepFault d) := by
  obtain ⟨hlen, hkc, hcap, -, hrange, -⟩ := hinv
  have hi : idx < d.keys.length := by omega
  have hl : d.key_count - 1 < d.keys.length := by omega
  have hk : d.keys[idx]? = some d.keys[idx] := List.getElem?_eq_getElem hi
  have hlast : d.keys[d.key_count - 1]? = some d.keys[d.key_count - 1] :=
    List.getElem?_eq_getElem hl
  obtain ⟨h1, h2⟩ := hrange _ (mem_dense_of_getElem? d idx _ hidx hk)
  have hdec : (d.key_count + U64 - 1) % U64 = d.key_count - 1 := by
    unfold U64 at *; omega
  unfold delete_at
  simp only [read_keys_eq _ _ _ _ hk, Run.bind]
  split
  · next herr =>
    refine Or.inr (Or.inl ⟨rfl, idx, _, hidx, hk, ?_⟩)
    by_cases hs : (E.moveto d.crsr (to_i32 d.keys[idx])).1 = .DB_SUCCESS
    · exact Or.inr (fun h0 => herr.elim (fun h => h hs) (fun h => h h0))
    · exact Or.inl hs
  · next herr =>
    have hs : (E.moveto d.crsr (to_i32 d.keys[idx])).1 = .DB_SUCCESS := by
      by_contra hne; exact herr (Or.inl hne)
    have hr : (E.moveto d.crsr (to_i32 d.keys[idx])).2.1 = 0 := by
      by_contra hne; exact herr (Or.inr hne)
    split
    · next hdel =>
      exact Or.inr (Or.inr (Or.inl ⟨rfl, idx, _, hidx, hk, hs, hr, hdel⟩))
    · next hdel =>
      have hd : (E.delete_row (E.moveto d.crsr (to_i32 d.keys[idx])).2.2).1
          = .DB_SUCCESS := by
        by_contra hne; exact hdel hne
      simp only [write_present_eq d.present _ 0 hlen (by omega) h2, hdec,
        read_keys_eq _ _ _ _ hlast, write_keys_eq _ _ _ _ hi, Run.bind]
      exact Or.inr (Or.inr (Or.inl ⟨idx, _, hidx, hk, hs, hr, hd, rfl,
        ⟨_, hlast, rfl⟩, rfl, rfl, rfl⟩))

theorem delete_step_sat {σ : Type} (E : Engine σ) (fuel : Nat) (d : Driver σ)
    (hinv : OracleInv d) (hpos : 0 < d.key_count) :
    (delete_step E fuel d).sat (Step E d) (StepExit E d) (StepFault d) := by
  have hcap : d.key_count < U64 := lt_of_le_of_lt hinv.2.1 hinv.2.2.1
  unfold delete_step
  refine Run.sat_bind (Run.sat_of_pure
    (uint_less_than_u64_sat fuel d.rng d.key_count hpos hcap)) ?_
  rintro ⟨idx, rng⟩ hidx
  exact delete_at_sat E { d with rng := rng } idx hinv hidx

theorem search_pick_sat {σ : Type} (fuel : Nat) (d : Driver σ) (hinv : OracleInv d) :
    (search_pick fuel d).pure_sat (fun p => 1 ≤ p.1 ∧ p.1 ≤ 1000) := by
  have hcap : d.key_count < U64 := lt_of_le_of_lt hinv.2.1 hinv.2.2.1
  unfold search_pick
  refine Run.sat_bind (key_draw_sat fuel d.rng) ?_
  rintro ⟨key0, rng0⟩ h0
  simp only
  split
  · next hpos =>
    split
    · refine Run.sat_bind (uint_less_than_u64_sat fuel _ d.key_count hpos hcap) ?_
      rintro ⟨idx, rng⟩ hidx
      simp only at hidx
      have hi : idx < d.keys.length := lt_of_lt_of_le hidx hinv.2.1
      have hk : d.keys[idx]? = some d.keys[idx] := List.getElem?_eq_getElem hi
      simp only [read_keys_eq _ _ _ _ hk, Run.bind]
      exact hinv.2.2.2.2.1 _ (mem_dense_of_getElem? d idx _ hidx hk)
    · exact h0
  · exact h0

theorem search_step_sat {σ : Type} (E : Engine σ) (fuel : Nat) (d : Driver σ)
    (hinv : OracleInv d) :
    (search_step E fuel d).sat (Step E d) (StepExit E d) (StepFault d) := by
  unfold search_step
  refine Run.sat_bind (Run.sat_of_pure (search_pick_sat fuel d hinv)) ?_
  rintro ⟨key, rng⟩ ⟨h1, h2⟩
  simp only at h1 h2
  simp only
  split
  · next herr =>
    exact Or.inr (Or.inr (Or.inr ⟨rfl, key, h1, h2, herr.1, herr.2⟩))
  · next herr =>
    refine Or.inr (Or.inr (Or.inr ⟨key, _, h1, h2, ?_, rfl, rfl, rfl, rfl, rfl, rfl⟩))
    by_cases hs : (E.moveto d.crsr (to_i32 key)).1 = .DB_SUCCESS
    · exact Or.inl hs
    · exact Or.inr (by by_contra hne; exact herr ⟨hs, hne⟩)

/-! ### One driver step -/

theorem select_action_sat {σ : Type} (fuel : Nat) (d : Driver σ) :
    (select_action fuel d).pure_sat (fun p => p.1 ≠ 0 → 0 < d.key_count) := by
  unfold select_action
  split
  · intro h; exact (h rfl).elim
  · next hne =>
    exact Run.sat_mono (uint_less_than_u8_sat fuel d.rng 3 (by decide) (by decide))
      (fun _ _ _ => Nat.pos_of_ne_zero hne) (fun _ h => h) (fun _ h => h)

theorem driver_step_sat {σ : Type} (E : Engine σ) (fuel : Nat) (d : Driver σ)
    (hinv : OracleInv d) :
    (driver_step E fuel d).sat (Step E d) (StepExit E d) (StepFault d) := by
  unfold driver_step
  refine Run.sat_bind (Run.sat_of_pure (select_action_sat fuel d)) ?_
  rintro ⟨action, rng⟩ hact
  simp only at hact
  simp only
  split
  · exact insert_step_sat E fuel { d with rng := rng } hinv
  · next h0 =>
    split
    · exact delete_step_sat E fuel { d with rng := rng } hinv (hact h0)
    · exact search_step_sat E fuel { d with rng := rng } hinv

/-! ### Swap-remove on lists -/

theorem swap_remove_perm :
    ∀ (p : List Int) (i : Nat) (hi : i < p.length) (hne : p ≠ []),
      ((p.set i (p.getLast hne)).dropLast).Perm (p.erase p[i]) := by
  intro p
  induction p with
  | nil => intro i hi; simp at hi
  | cons x q ih =>
    intro i hi hne
    by_cases hq : q = []
    · subst hq
      have : i = 0 := by simpa using hi
      subst this
      simp
    · rw [List.getLast_cons hq]
      cases i with
      | zero =>
        simp only [List.set_cons_zero, List.getElem_cons_zero, List.erase_cons_head]
        rw [List.dropLast_cons_of_ne_nil hq]
        have h1 := List.perm_append_singleton (q.getLast hq) q.dropLast
        rw [List.dropLast_append_getLast hq] at h1
        exact h1.symm
      | succ j =>
        have hj : j < q.length := by simpa using hi
        have hset : q.set j (q.getLast hq) ≠ [] := by
          intro h
          have := congrArg List.length h
          simp at this
          exact hq this
        simp only [List.set_cons_succ, List.getElem_cons_succ]
        rw [List.dropLast_cons_of_ne_nil hset, List.erase_cons]
        have hih := ih j hj hq
        split
        · next heq =>
          have hx : x = q[j] := by simpa using heq
          have hmem : q[j] ∈ q := List.getElem_mem _
          rw [hx]
          exact (hih.cons _).trans (List.perm_cons_erase hmem).symm
        · exact hih.cons _

theorem swap_remove_take_perm (l : List Int) (n idx : Nat) (key last : Int)
    (hn : n ≤ l.length) (hidx : idx < n)
    (hkey : l[idx]? = some key) (hlast : l[n - 1]? = some last) :
    ((l.set idx last).take (n - 1)).Perm ((l.take n).erase key) := by
  have hlen : (l.take n).length = n := by simp [hn]
  have hne : l.take n ≠ [] := by
    intro h
    rw [h] at hlen
    simp at hlen
    omega
  have hi : idx < (l.take n).length := by omega
  have hk : (l.take n)[idx] = key := by
    have h1 : (l.take n)[idx]? = some key := by
      rw [List.getElem?_take_of_lt hidx, hkey]
    rw [List.getElem?_eq_getElem hi] at h1
    exact Option.some.inj h1
  have hl : (l.take n).getLast hne = last := by
    rw [List.getLast_eq_getElem]
    have h1 : (l.take n)[(l.take n).length - 1]? = some last := by
      rw [hlen, List.getElem?_take_of_lt (by omega), hlast]
    rw [List.getElem?_eq_getElem (by omega)] at h1
    exact Option.some.inj h1
  have h := swap_remove_perm (l.take n) idx hi hne
  rw [hk, hl, List.dropLast_eq_take, List.length_set, hlen, ← List.set_take,
    List.take_take, min_eq_left (by omega)] at h
  exact h

theorem take_succ_set (l : List Int) (n : Nat) (a : Int) (h : n < l.length) :
    (l.set n a).take (n + 1) = l.take n ++ [a] := by
  rw [List.take_succ, List.set_take,
    List.set_eq_of_length_le (by rw [List.length_take]; exact min_le_left _ _),
    List.getElem?_set_self h]
  rfl

/-! ### The oracle invariant is preserved by every step -/

theorem getD_set_present (p : List Nat) (i j v : Nat) (hi : i < p.length) :
    (p.set i v).getD j 0 = if i = j then v else p.getD j 0 := by
  rw [List.getD_eq_getElem?_getD, List.getD_eq_getElem?_getD, List.getElem?_set]
  split
  · simp [hi]
  · rfl

theorem OracleInv_frame {σ : Type} {d d' : Driver σ} (hk : d'.keys = d.keys)
    (hc : d'.key_count = d.key_count) (hp : d'.present = d.present)
    (hinv : OracleInv d) : OracleInv d' := by
  unfold OracleInv Driver.dense at *
  rw [hk, hc, hp]
  exact hinv

theorem dense_insert {σ : Type} {E : Engine σ} {d d' : Driver σ} {key : Int}
    (h : StepInsert E d d' key) : d'.dense = d.dense ++ [key] := by
  obtain ⟨-, -, -, hlt, -, -, hk, hc, -, -⟩ := h
  unfold Driver.dense
  rw [hk, hc, take_succ_set _ _ _ hlt]

theorem dense_delete {σ : Type} {E : Engine σ} {d d' : Driver σ} {idx : Nat} {key : Int}
    (hkc : d.key_count ≤ d.keys.length) (h : StepDelete E d d' idx key) :
    d'.dense.Perm (d.dense.erase key) := by
  obtain ⟨hidx, hkey, -, -, -, -, ⟨last, hlast, hk⟩, hc, -, -⟩ := h
  unfold Driver.dense
  rw [hk, hc]
  exact swap_remove_take_perm d.keys d.key_count idx key last hkc hidx hkey hlast

theorem OracleInv_insert {σ : Type} {E : Engine σ} {d d' : Driver σ} {key : Int}
    (hinv : OracleInv d) (h : StepInsert E d d' key) : OracleInv d' := by
  have hdense := dense_insert h
  obtain ⟨hlen, hkc, hcap, hnd, hrange, hpres⟩ := hinv
  obtain ⟨h1, h2, hp0, hlt, -, -, hk, hc, hp, -⟩ := h
  have hnot : key ∉ d.dense := by
    intro hmem
    exact ((hpres key (by omega) h2).2 hmem) hp0
  have hkn : key.toNat < d.present.length := by omega
  refine ⟨?_, ?_, ?_, ?_, ?_, ?_⟩
  · rw [hp, List.length_set, hlen]
  · rw [hk, hc, List.length_set]; omega
  · rw [hk, List.length_set]; exact hcap
  · rw [hdense, List.nodup_append]
    refine ⟨hnd, List.nodup_singleton _, ?_⟩
    intro a ha hb
    rw [List.mem_singleton] at hb
    exact hnot (hb ▸ ha)
  · intro k hk'
    rw [hdense, List.mem_append, List.mem_singleton] at hk'
    rcases hk' with hk' | hk'
    · exact hrange k hk'
    · rw [hk']; exact ⟨h1, h2⟩
  · intro k hk0 hk1
    rw [hdense, List.mem_append, List.mem_singleton, hp, getD_set_present _ _ _ _ hkn]
    by_cases hkk : key.toNat = k.toNat
    · have : k = key := by omega
      simp [hkk, this]
    · have : k ≠ key := by intro h; exact hkk (h ▸ rfl)
      rw [if_neg hkk, hpres k hk0 hk1]
      simp [this]

theorem OracleInv_delete {σ : Type} {E : Engine σ} {d d' : Driver σ} {idx : Nat}
    {key : Int} (hinv : OracleInv d) (h : StepDelete E d d' idx key) : OracleInv d' := by
  obtain ⟨hlen, hkc, hcap, hnd, hrange, hpres⟩ := hinv
  have hperm := dense_delete hkc h
  obtain ⟨hidx, hkey, -, -, -, -, ⟨last, hlast, hk⟩, hc, hp, -⟩ := h
  have hmemk : key ∈ d.dense := mem_dense_of_getElem? d idx key hidx hkey
  obtain ⟨h1, h2⟩ := hrange key hmemk
  have hkn : key.toNat < d.present.length := by omega
  have hmem : ∀ k, k ∈ d'.dense ↔ k ≠ key ∧ k ∈ d.dense := by
    intro k
    rw [hperm.mem_iff, hnd.mem_erase_iff]
  refine ⟨?_, ?_, ?_, ?_, ?_, ?_⟩
  · rw [hp, List.length_set, hlen]
  · rw [hk, hc, List.length_set]; omega
  · rw [hk, List.length_set]; exact hcap
  · rw [hperm.nodup_iff]; exact hnd.erase key
  · intro k hk'
    exact hrange k ((hmem k).1 hk').2
  · intro k hk0 hk1
    rw [hmem k, hp, getD_set_present _ _ _ _ hkn]
    by_cases hkk : key.toNat = k.toNat
    · have : k = key := by omega
      simp [hkk, this]
    · have : k ≠ key := by intro h; exact hkk (h ▸ rfl)
      rw [if_neg hkk, hpres k hk0 hk1]
      simp [this]

theorem Step_inv {σ : Type} {E : Engine σ} {d d' : Driver σ}
    (hinv : OracleInv d) (h : Step E d d') : OracleInv d' := by
  rcases h with h | ⟨key, h⟩ | ⟨idx, key, h⟩ | ⟨key, found, h⟩
  · exact OracleInv_frame h.1 h.2.1 h.2.2.1 hinv
  · exact OracleInv_insert hinv h
  · exact OracleInv_delete hinv h
  · exact OracleInv_frame h.2.2.2.2.2.1 h.2.2.2.2.2.2.1 h.2.2.2.2.2.2.2.1 hinv

theorem calloc_length_le (nmemb size : Nat) : (calloc nmemb size).length ≤ nmemb := by
  unfold calloc
  split
  · rw [List.length_replicate]
  · exact Nat.zero_le _

theorem calloc_length (nmemb size : Nat) (h : nmemb * size < U64) :
    (calloc nmemb size).length = nmemb := by
  unfold calloc
  rw [if_pos h, List.length_replicate]

theorem calloc_null (nmemb size : Nat) (h : U64 ≤ nmemb * size) :
    calloc nmemb size = [] := by
  unfold calloc
  rw [if_neg (by omega)]

theorem calloc_zero (size : Nat) : calloc 0 size = [] := by
  unfold calloc
  split <;> rfl

theorem OracleInv_init {σ : Type} (seed ops : Nat) (crsr : σ) (hops : ops < U64) :
    OracleInv (driver_init seed ops crsr) := by
  unfold OracleInv Driver.dense driver_init
  simp only [List.length_replicate, List.take_zero, List.nodup_nil, List.not_mem_nil,
    iff_false, not_not, true_and, Nat.zero_le, false_implies, implies_true]
  refine ⟨lt_of_le_of_lt (calloc_length_le ops 8) hops, ?_⟩
  intro k hk0 hk1
  have hlt : k.toNat < (List.replicate 1001 0).length := by
    rw [List.length_replicate]; omega
  rw [List.getD_eq_getElem _ _ hlt, List.getElem_replicate]

/-! ### The driver loop -/

theorem Run.bind_eq_ret {α β : Type} {r : Run α} {f : α → Run β} {b : β}
    (h : r.bind f = .ret b) : ∃ a, r = .ret a ∧ f a = .ret b := by
  cases r with
  | ret a => exact ⟨a, rfl, h⟩
  | exit1 e => simp [Run.bind] at h
  | timeout => simp [Run.bind] at h
  | ub k => simp [Run.bind] at h

theorem Run.eq_ret_of_returns {α : Type} {r : Run α} (dflt : α)
    (h : r.returns = true) : r = .ret (r.value dflt) := by
  cases r with
  | ret a => rfl
  | exit1 e => simp [Run.returns] at h
  | timeout => simp [Run.returns] at h
  | ub k => simp [Run.returns] at h

theorem driver_loop_sat {σ : Type} (E : Engine σ) (fuel : Nat) (I : Driver σ → Prop)
    (X : Fatal → Prop) (U : Fault → Prop)
    (hstep : ∀ d, I d → (driver_step E fuel d).sat I X U) :
    ∀ (n : Nat) (d : Driver σ), I d → (driver_loop E fuel n d).sat I X U := by
  intro n
  induction n with
  | zero => intro d hd; exact hd
  | succ n ih =>
    intro d hd
    unfold driver_loop
    exact Run.sat_bind (hstep d hd) (fun d1 h1 => ih d1 h1)

theorem driver_loop_add {σ : Type} (E : Engine σ) (fuel : Nat) :
    ∀ (m n : Nat) (d : Driver σ),
      driver_loop E fuel (m + n) d =
        (driver_loop E fuel m d).bind (fun d1 => driver_loop E fuel n d1) := by
  intro m
  induction m with
  | zero => intro n d; simp [driver_loop, Run.bind]
  | succ m ih =>
    intro n d
    rw [Nat.succ_add]
    simp only [driver_loop]
    cases driver_step E fuel d with
    | ret a => simp only [Run.bind]; exact ih n a
    | exit1 e => rfl
    | timeout => rfl
    | ub k => rfl

theorem Step_trace {σ : Type} {E : Engine σ} {d d' : Driver σ} (hinv : OracleInv d)
    (ht : TraceInRange d.out) (h : Step E d d') : TraceInRange d'.out := by
  have hadd : ∀ (l : Line), (∀ key, l.key? = some key → 1 ≤ key ∧ key ≤ 1000) →
      d'.out = d.out ++ [l] → TraceInRange d'.out := by
    intro l hl hout line hline key hkey
    rw [hout, List.mem_append, List.mem_singleton] at hline
    rcases hline with hline | hline
    · exact ht line hline key hkey
    · subst hline; exact hl key hkey
  rcases h with h | ⟨key, h⟩ | ⟨idx, key, h⟩ | ⟨key, found, h⟩
  · intro line hline key hkey
    rw [h.2.2.2.2] at hline
    exact ht line hline key hkey
  · refine hadd (Line.I key) ?_ h.2.2.2.2.2.2.2.2.2
    intro k hk
    simp only [Line.key?, Option.some.injEq] at hk
    subst hk
    exact ⟨h.1, h.2.1⟩
  · refine hadd (Line.D key) ?_ h.2.2.2.2.2.2.2.2.2
    intro k hk
    simp only [Line.key?, Option.some.injEq] at hk
    subst hk
    exact hinv.2.2.2.2.1 _ (mem_dense_of_getElem? d idx _ h.1 h.2.1)
  · refine hadd (Line.S key found) ?_ h.2.2.2.2.2.2.2.2
    intro k hk
    simp only [Line.key?, Option.some.injEq] at hk
    subst hk
    exact ⟨h.1, h.2.1⟩

theorem driver_loop_reach {σ : Type} (E : Engine σ) (fuel seed ops n : Nat) (crsr : σ)
    (hops : ops < U64) :
    (driver_loop E fuel n (driver_init seed ops crsr)).sat
      (fun d => OracleInv d ∧ TraceInRange d.out) (fun _ => True)
      (fun k => k = .keys_oob) := by
  refine driver_loop_sat E fuel _ _ _ ?_ n _ ⟨OracleInv_init seed ops crsr hops, ?_⟩
  · rintro d ⟨hinv, ht⟩
    exact Run.sat_mono (driver_step_sat E fuel d hinv)
      (fun d' h => ⟨Step_inv hinv h, Step_trace hinv ht h⟩)
      (fun _ _ => trivial) (fun k h => h.1)
  · intro line hline key hkey
    simp only [driver_init, List.mem_singleton] at hline
    subst hline
    simp [Line.key?] at hkey

theorem reach_inv {σ : Type} (E : Engine σ) (fuel seed ops n : Nat) (crsr : σ)
    (d : Driver σ) (hops : ops < U64)
    (h : driver_loop E fuel n (driver_init seed ops crsr) = .ret d) :
    OracleInv d ∧ TraceInRange d.out :=
  Run.sat_ret (driver_loop_reach E fuel seed ops n crsr hops) h

theorem MembershipInv_of_inv {σ : Type} {d : Driver σ} (hinv : OracleInv d) :
    MembershipInv d := by
  obtain ⟨hlen, -, -, hnd, hrange, hpres⟩ := hinv
  refine ⟨?_, hnd⟩
  intro k hk0 hk1
  rw [read_present_eq d.present k hlen hk0 hk1]
  constructor
  · rintro ⟨p, hp, hne⟩
    simp only [Run.ret.injEq] at hp
    exact List.count_eq_one_of_mem hnd ((hpres k hk0 hk1).1 (hp ▸ hne))
  · intro hc
    have hmem : k ∈ d.dense := by
      rw [← List.count_pos_iff]; omega
    exact ⟨_, rfl, (hpres k hk0 hk1).2 hmem⟩

/-- Claim C4 (oracle invariant). Starting from the empty oracle, after any
number `n` of completed driver steps (Insert, abandoned Insert, Delete or
Search), with any engine, for every key `k` of `[0, 1000]`, `present[k]` is
non-zero iff `k` occurs exactly once in `keys[0..key_count)`; and
`keys[0..key_count)` holds no duplicate. -/
theorem oracle_invariant {σ : Type} (E : Engine σ) (fuel seed ops n : Nat) (crsr : σ)
    (d : Driver σ) (hops : ops < U64)
    (h : driver_loop E fuel n (driver_init seed ops crsr) = .ret d) :
    (∀ k : Int, 0 ≤ k → k ≤ 1000 →
      ((∃ p, read_present d.present k = .ret p ∧ p ≠ 0) ↔
        (d.keys.take d.key_count).count k = 1)) ∧
    (d.keys.take d.key_count).Nodup :=
  MembershipInv_of_inv (reach_inv E fuel seed ops n crsr d hops h).1

theorem sample_state_reach (n : Nat)
    (h : (driver_loop set_engine 0 n (driver_init 0xC0FFEE 8 SetEngine.empty)).returns
      = true) :
    driver_loop set_engine 0 n (driver_init 0xC0FFEE 8 SetEngine.empty)
      = .ret (sample_state n) :=
  Run.eq_ret_of_returns _ h

theorem oracle_invariant_witness :
    (8 < U64 ∧
      driver_loop set_engine 0 8 (driver_init 0xC0FFEE 8 SetEngine.empty)
        = .ret (sample_state 8)) ∧
    ((∀ k : Int, 0 ≤ k → k ≤ 1000 →
      ((∃ p, read_present (sample_state 8).present k = .ret p ∧ p ≠ 0) ↔
        ((sample_state 8).keys.take (sample_state 8).key_count).count k = 1)) ∧
    ((sample_state 8).keys.take (sample_state 8).key_count).Nodup) :=
  ⟨⟨by decide, sample_state_reach 8 (by decide!)⟩,
   oracle_invariant set_engine 0 0xC0FFEE 8 8 SetEngine.empty (sample_state 8)
     (by decide) (sample_state_reach 8 (by decide!))⟩

/-! ### Delete -/

theorem read_keys_ret {f : Fault} {buf : List Int} {i : Nat} {v : Int}
    (h : read_keys f buf i = .ret v) : buf[i]? = some v := by
  unfold read_keys at h
  split at h
  · next w hw => rw [hw]; simpa using h
  · simp at h

theorem write_keys_ret {f : Fault} {buf : List Int} {i : Nat} {v : Int} {buf' : List Int}
    (h : write_keys f buf i v = .ret buf') : i < buf.length ∧ buf' = buf.set i v := by
  unfold write_keys at h
  split at h
  · next hlt => exact ⟨hlt, by simpa using h.symm⟩
  · simp at h

theorem write_present_ret {present : List Nat} {k : Int} {v : Nat} {present' : List Nat}
    (h : write_present present k v = .ret present') :
    0 ≤ k ∧ k.toNat < present.length ∧ present' = present.set k.toNat v := by
  unfold write_present at h
  split at h
  · next hlt => exact ⟨hlt.1, hlt.2, by simpa using h.symm⟩
  · simp at h

theorem delete_at_ret {σ : Type} {E : Engine σ} {d d' : Driver σ} {idx : Nat}
    (h : delete_at E d idx = .ret d') :
    ∃ key last, d.keys[idx]? = some key ∧ 0 ≤ key ∧ key.toNat < d.present.length ∧
      d.keys[(d.key_count + U64 - 1) % U64]? = some last ∧
      d'.keys = d.keys.set idx last ∧ d'.key_count = (d.key_count + U64 - 1) % U64 ∧
      d'.present = d.present.set key.toNat 0 ∧ d'.out = d.out ++ [Line.D key] := by
  unfold delete_at at h
  obtain ⟨key, hk, h⟩ := Run.bind_eq_ret h
  simp only at h
  split at h
  · simp at h
  · split at h
    · simp at h
    · obtain ⟨present', hp, h⟩ := Run.bind_eq_ret h
      obtain ⟨last, hl, h⟩ := Run.bind_eq_ret h
      obtain ⟨keys', hw, h⟩ := Run.bind_eq_ret h
      obtain ⟨hp0, hp1, hp2⟩ := write_present_ret hp
      obtain ⟨-, hw2⟩ := write_keys_ret hw
      simp only [Run.ret.injEq] at h
      subst h
      exact ⟨key, last, read_keys_ret hk, hp0, hp1, read_keys_ret hl, hw2, rfl, hp2, rfl⟩

/-- Claim C6 (Delete is a swap-remove). In a state that satisfies the
membership invariant, with `key_count > 0` and a picked `idx < key_count`, a
Delete that completes decreases `key_count` by one, clears
`present[keys[idx]]`, and leaves `keys[0..key_count - 1)` a permutation of the
old sequence with one occurrence of the deleted key erased: the deleted key no
longer occurs and every other key that occurred once still occurs once
(also when `idx = key_count - 1`). -/
theorem delete_swap_remove {σ : Type} (E : Engine σ) (d d' : Driver σ) (idx : Nat)
    (hcap : d.key_count < U64)
    (hinv : MembershipInv d) (hpos : 0 < d.key_count) (hidx : idx < d.key_count)
    (h : delete_at E d idx = .ret d') :
    ∃ key, d.keys[idx]? = some key ∧
      d'.key_count + 1 = d.key_count ∧
      read_present d'.present key = .ret 0 ∧
      (d'.keys.take d'.key_count).Perm ((d.keys.take d.key_count).erase key) ∧
      (d'.keys.take d'.key_count).count key = 0 ∧
      (∀ k, k ≠ key → (d.keys.take d.key_count).count k = 1 →
        (d'.keys.take d'.key_count).count k = 1) ∧
      d'.out = d.out ++ [Line.D key] := by
  obtain ⟨key, last, hk, hk0, hk1, hl, hkeys, hcount, hpres, hout⟩ := delete_at_ret h
  have hdec : (d.key_count + U64 - 1) % U64 = d.key_count - 1 := by
    unfold U64 at *; omega
  rw [hdec] at hl hcount
  have hkc : d.key_count ≤ d.keys.length := by
    have : d.key_count - 1 < d.keys.length := by
      by_contra hge
      rw [List.getElem?_eq_none (Nat.le_of_not_lt hge)] at hl
      exact Option.noConfusion hl
    omega
  have hperm : (d'.keys.take d'.key_count).Perm ((d.keys.take d.key_count).erase key) := by
    rw [hkeys, hcount]
    exact swap_remove_take_perm d.keys d.key_count idx key last hkc hidx hk hl
  have hnd : (d.keys.take d.key_count).Nodup := hinv.2
  refine ⟨key, hk, by omega, ?_, hperm, ?_, ?_, hout⟩
  · unfold read_present
    rw [if_pos hk0, hpres, List.getElem?_set_self hk1]
  · rw [hperm.count_eq, List.count_eq_zero, hnd.mem_erase_iff]
    exact fun h => h.1 rfl
  · intro k hne hc
    rw [hperm.count_eq, List.count_erase_of_ne hne]
    exact hc

theorem delete_swap_remove_witness :
    ((sample_state 8).key_count < U64 ∧ MembershipInv (sample_state 8) ∧
      0 < (sample_state 8).key_count ∧ 1 < (sample_state 8).key_count ∧
      delete_at set_engine (sample_state 8) 1 =
        .ret ((delete_at set_engine (sample_state 8) 1).value (sample_state 8))) ∧
    ∃ key, (sample_state 8).keys[1]? = some key ∧
      ((delete_at set_engine (sample_state 8) 1).value (sample_state 8)).key_count + 1
        = (sample_state 8).key_count ∧
      read_present
        ((delete_at set_engine (sample_state 8) 1).value (sample_state 8)).present key
          = .ret 0 ∧
      (((delete_at set_engine (sample_state 8) 1).value (sample_state 8)).keys.take
        ((delete_at set_engine (sample_state 8) 1).value (sample_state 8)).key_count).Perm
        (((sample_state 8).keys.take (sample_state 8).key_count).erase key) ∧
      (((delete_at set_engine (sample_state 8) 1).value (sample_state 8)).keys.take
        ((delete_at set_engine (sample_state 8) 1).value (sample_state 8)).key_count).count
          key = 0 ∧
      (∀ k, k ≠ key → ((sample_state 8).keys.take (sample_state 8).key_count).count k = 1 →
        (((delete_at set_engine (sample_state 8) 1).value (sample_state 8)).keys.take
          ((delete_at set_engine (sample_state 8) 1).value
            (sample_state 8)).key_count).count k = 1) ∧
      ((delete_at set_engine (sample_state 8) 1).value (sample_state 8)).out
        = (sample_state 8).out ++ [Line.D key] :=
  have hinv : MembershipInv (sample_state 8) :=
    MembershipInv_of_inv (reach_inv set_engine 0 0xC0FFEE 8 8 SetEngine.empty
      (sample_state 8) (by decide) (sample_state_reach 8 (by decide!))).1
  have hcap : (sample_state 8).key_count < U64 := Nat.le_of_ble_eq_true (by decide!)
  have hpos : 0 < (sample_state 8).key_count := Nat.le_of_ble_eq_true (by decide!)
  have hidx : 1 < (sample_state 8).key_count := Nat.le_of_ble_eq_true (by decide!)
  have hdel : delete_at set_engine (sample_state 8) 1 =
      .ret ((delete_at set_engine (sample_state 8) 1).value (sample_state 8)) :=
    Run.eq_ret_of_returns _ (by decide!)
  ⟨⟨hcap, hinv, hpos, hidx, hdel⟩,
   delete_swap_remove set_engine (sample_state 8)
     ((delete_at set_engine (sample_state 8) 1).value (sample_state 8)) 1
     hcap hinv hpos hidx hdel⟩

/-! ### Insert -/

theorem Step_insert_of_out {σ : Type} {E : Engine σ} {d d' : Driver σ} {key : Int}
    (h : Step E d d') (hI : d'.out = d.out ++ [Line.I key]) : StepInsert E d d' key := by
  rcases h with h | ⟨key2, h⟩ | ⟨idx, key2, h⟩ | ⟨key2, found, h⟩
  · have := h.2.2.2.2
    rw [hI] at this
    simp at this
  · have := h.2.2.2.2.2.2.2.2.2
    rw [hI] at this
    simp only [List.append_cancel_left_eq, List.cons.injEq, Line.I.injEq, and_true] at this
    rw [this]
    exact h
  · have := h.2.2.2.2.2.2.2.2.2
    rw [hI] at this
    simp at this
  · have := h.2.2.2.2.2.2.2.2
    rw [hI] at this
    simp at this

/-- Claim C7 (Insert dedup). In every run, whenever a driver step calls the
engine's insert and emits the record `I key`, that key was absent from the
oracle just before the step (`present[key] = 0` and `key` not in
`keys[0..key_count)`); after the step the key is marked present, is stored at
index old `key_count`, and `key_count` has grown by exactly one. -/
theorem insert_dedup {σ : Type} (E : Engine σ) (fuel seed ops n : Nat) (crsr : σ)
    (d d' : Driver σ) (key : Int) (hops : ops < U64)
    (hd : driver_loop E fuel n (driver_init seed ops crsr) = .ret d)
    (hstep : driver_step E fuel d = .ret d')
    (hI : d'.out = d.out ++ [Line.I key]) :
    (read_present d.present key = .ret 0 ∧ key ∉ d.keys.take d.key_count) ∧
    ((E.insert_row d.crsr (to_i32 key)).1 = .DB_SUCCESS ∧
      d'.crsr = (E.insert_row d.crsr (to_i32 key)).2) ∧
    read_present d'.present key = .ret 1 ∧
    d'.keys[d.key_count]? = some key ∧
    d'.key_count = d.key_count + 1 := by
  have hinv := (reach_inv E fuel seed ops n crsr d hops hd).1
  have hs := Step_insert_of_out (Run.sat_ret (driver_step_sat E fuel d hinv) hstep) hI
  have hinv' := OracleInv_insert hinv hs
  obtain ⟨hlen, -, -, -, -, hpres⟩ := hinv
  obtain ⟨h1, h2, hp0, hlt, herr, hcrsr, hk, hc, hp, -⟩ := hs
  refine ⟨⟨?_, ?_⟩, ⟨herr, hcrsr⟩, ?_, ?_, hc⟩
  · rw [read_present_eq d.present key hlen (by omega) h2, hp0]
  · intro hmem
    exact (hpres key (by omega) h2).2 hmem hp0
  · rw [read_present_eq d'.present key hinv'.1 (by omega) h2, hp,
      getD_set_present _ _ _ _ (by omega), if_pos rfl]
  · rw [hk, List.getElem?_set_self hlt]

theorem insert_dedup_witness :
    (8 < U64 ∧
      driver_loop set_engine 0 2 (driver_init 0xC0FFEE 8 SetEngine.empty)
        = .ret (sample_state 2) ∧
      driver_step set_engine 0 (sample_state 2) = .ret (sample_state 3) ∧
      (sample_state 3).out = (sample_state 2).out ++ [Line.I 403]) ∧
    ((read_present (sample_state 2).present 403 = .ret 0 ∧
        (403 : Int) ∉ (sample_state 2).keys.take (sample_state 2).key_count) ∧
      ((set_engine.insert_row (sample_state 2).crsr (to_i32 403)).1 = .DB_SUCCESS ∧
        (sample_state 3).crsr
          = (set_engine.insert_row (sample_state 2).crsr (to_i32 403)).2) ∧
      read_present (sample_state 3).present 403 = .ret 1 ∧
      (sample_state 3).keys[(sample_state 2).key_count]? = some 403 ∧
      (sample_state 3).key_count = (sample_state 2).key_count + 1) :=
  have h2 := sample_state_reach 2 (by decide!)
  have hstep : driver_step set_engine 0 (sample_state 2) = .ret (sample_state 3) := by
    decide!
  have hout : (sample_state 3).out = (sample_state 2).out ++ [Line.I 403] := by decide!
  ⟨⟨by decide, h2, hstep, hout⟩,
   insert_dedup set_engine 0 0xC0FFEE 8 2 SetEngine.empty (sample_state 2)
     (sample_state 3) 403 (by decide) h2 hstep hout⟩

/-! ### Domain bound -/

/-- Claim C8 (domain bound). For every seed and every op count, after any
number of driver steps every key of an `I`, `D` or `S` record written so far
and every key stored in `keys[0..key_count)` lies in `[1, 1000]`; and no
access `present[key]` of the driver falls outside the 1001 elements. -/
theorem domain_bound {σ : Type} (E : Engine σ) (fuel seed ops n : Nat) (crsr : σ)
    (hops : ops < U64) :
    (∀ d, driver_loop E fuel n (driver_init seed ops crsr) = .ret d →
      (∀ line ∈ d.out, ∀ key, line.key? = some key → 1 ≤ key ∧ key ≤ 1000) ∧
      (∀ key ∈ d.keys.take d.key_count, 1 ≤ key ∧ key ≤ 1000)) ∧
    driver_loop E fuel n (driver_init seed ops crsr) ≠ .ub .present_oob := by
  constructor
  · intro d hd
    have h := reach_inv E fuel seed ops n crsr d hops hd
    exact ⟨h.2, h.1.2.2.2.2.1⟩
  · intro hub
    have h := Run.sat_ub (driver_loop_reach E fuel seed ops n crsr hops) hub
    simp at h

theorem domain_bound_witness :
    (8 < U64 ∧
      driver_loop set_engine 0 8 (driver_init 0xC0FFEE 8 SetEngine.empty)
        = .ret (sample_state 8)) ∧
    ((∀ line ∈ (sample_state 8).out, ∀ key, line.key? = some key →
        1 ≤ key ∧ key ≤ 1000) ∧
      (∀ key ∈ (sample_state 8).keys.take (sample_state 8).key_count,
        1 ≤ key ∧ key ≤ 1000)) ∧
    driver_loop set_engine 0 8 (driver_init 0xC0FFEE 8 SetEngine.empty)
      ≠ .ub .present_oob :=
  have h8 := sample_state_reach 8 (by decide!)
  ⟨⟨by decide, h8⟩,
   (domain_bound set_engine 0 0xC0FFEE 8 8 SetEngine.empty (by decide)).1
     (sample_state 8) h8,
   (domain_bound set_engine 0 0xC0FFEE 8 8 SetEngine.empty (by decide)).2⟩

/-! ### The set engine -/

theorem to_i32_eq (k : Int) (h1 : 1 ≤ k) (h2 : k ≤ 1000) : to_i32 k = k := by
  unfold to_i32; omega

theorem set_moveto_of_mem (s : SetEngine) (k : Int) (hs : s.rows.Sorted (· ≤ ·))
    (hk : k ∈ s.rows) :
    s.moveto k = (.DB_SUCCESS, 0, { s with pos := some k }) := by
  unfold SetEngine.moveto
  cases hf : s.rows.find? (fun r => decide (k ≤ r)) with
  | none =>
    rw [List.find?_eq_none] at hf
    exact absurd (hf k hk) (by simp)
  | some b =>
    obtain ⟨hb, as, bs, hxs, has⟩ := List.find?_eq_some.1 hf
    have hkb : k ≤ b := by simpa using hb
    have hbk : b = k := by
      rw [hxs, List.mem_append, List.mem_cons] at hk
      rcases hk with hk | hk | hk
      · have := has k hk
        simp at this
      · exact hk.symm
      · rw [hxs] at hs
        have h2 := (List.pairwise_append.1 hs).2.1
        exact le_antisymm ((List.pairwise_cons.1 h2).1 k hk) hkb
    simp [hbk]

theorem set_moveto_exact_iff (s : SetEngine) (k : Int) (hs : s.rows.Sorted (· ≤ ·)) :
    ((s.moveto k).1 = .DB_SUCCESS ∧ (s.moveto k).2.1 = 0) ↔ k ∈ s.rows := by
  constructor
  · rintro ⟨h1, h2⟩
    unfold SetEngine.moveto at h1 h2
    cases hf : s.rows.find? (fun r => decide (k ≤ r)) with
    | none => rw [hf] at h1; simp at h1
    | some r =>
      rw [hf] at h2
      have hr : r = k := by
        by_contra hne
        simp [hne] at h2
      exact hr ▸ List.mem_of_find?_eq_some hf
  · intro hk
    rw [set_moveto_of_mem s k hs hk]
    exact ⟨rfl, rfl⟩

theorem set_moveto_rows (s : SetEngine) (k : Int) : (s.moveto k).2.2.rows = s.rows := by
  unfold SetEngine.moveto
  split <;> rfl

theorem set_moveto_err (s : SetEngine) (k : Int) :
    (s.moveto k).1 = .DB_SUCCESS ∨ (s.moveto k).1 = .DB_END_OF_INDEX := by
  unfold SetEngine.moveto
  split
  · exact Or.inl rfl
  · exact Or.inr rfl

theorem EngineInv_step {ops : Nat} {d d' : Driver SetEngine} (hinv : OracleInv d)
    (he : EngineInv ops d) (h : Step set_engine d d') : EngineInv ops d' := by
  obtain ⟨hlen, hsorted, hperm⟩ := he
  rcases h with h | ⟨key, h⟩ | ⟨idx, key, h⟩ | ⟨key, found, h⟩
  · obtain ⟨hk, hc, -, hcr, -⟩ := h
    unfold EngineInv Driver.dense at *
    rw [hk, hc, hcr]
    exact ⟨hlen, hsorted, hperm⟩
  · have hdense := dense_insert h
    obtain ⟨h1, h2, hp0, hlt, herr, hcrsr, hk, hc, hp, -⟩ := h
    have hnot : key ∉ d.crsr.rows := by
      intro hmem
      exact (hinv.2.2.2.2.2 key (by omega) h2).2 (hperm.mem_iff.1 hmem) hp0
    have hrows : d'.crsr.rows = d.crsr.rows.orderedInsert (· ≤ ·) key := by
      rw [hcrsr, to_i32_eq key h1 h2]
      simp [set_engine, SetEngine.insert_row, hnot]
    refine ⟨by rw [hk, List.length_set]; exact hlen, ?_, ?_⟩
    · rw [hrows]; exact hsorted.orderedInsert key _
    · rw [hrows, hdense]
      exact (List.perm_orderedInsert _ key _).trans
        ((hperm.cons key).trans (List.perm_append_singleton key _).symm)
  · have hdense := dense_delete hinv.2.1 h
    obtain ⟨hidx, hkey, -, -, -, hcrsr, ⟨last, -, hk⟩, -, -, -⟩ := h
    have hmem : key ∈ d.crsr.rows :=
      hperm.mem_iff.2 (mem_dense_of_getElem? d idx key hidx hkey)
    obtain ⟨h1, h2⟩ := hinv.2.2.2.2.1 key (hperm.mem_iff.1 hmem)
    have hrows : d'.crsr.rows = d.crsr.rows.erase key := by
      rw [hcrsr, to_i32_eq key h1 h2]
      simp [set_engine, set_moveto_of_mem d.crsr key hsorted hmem,
        SetEngine.delete_row, hmem]
    refine ⟨by rw [hk, List.length_set]; exact hlen, ?_, ?_⟩
    · rw [hrows]; exact hsorted.sublist (List.erase_sublist _ _)
    · rw [hrows]; exact (hperm.erase key).trans hdense.symm
  · obtain ⟨-, -, -, -, hcrsr, hk, hc, -, -⟩ := h
    have hrows : d'.crsr.rows = d.crsr.rows := by
      rw [hcrsr]; exact set_moveto_rows _ _
    unfold EngineInv Driver.dense at *
    rw [hk, hc, hrows]
    exact ⟨hlen, hsorted, hperm⟩

theorem set_engine_no_exit {ops : Nat} {d : Driver SetEngine} (hinv : OracleInv d)
    (he : EngineInv ops d) (f : Fatal) : ¬ StepExit set_engine d f := by
  obtain ⟨-, hsorted, hperm⟩ := he
  have hdel : ∀ (idx : Nat) (key : Int), idx < d.key_count → d.keys[idx]? = some key →
      set_engine.moveto d.crsr (to_i32 key) =
        (.DB_SUCCESS, 0, { d.crsr with pos := some key }) ∧ key ∈ d.crsr.rows := by
    intro idx key hidx hkey
    have hmem : key ∈ d.crsr.rows :=
      hperm.mem_iff.2 (mem_dense_of_getElem? d idx key hidx hkey)
    obtain ⟨h1, h2⟩ := hinv.2.2.2.2.1 key (hperm.mem_iff.1 hmem)
    rw [to_i32_eq key h1 h2]
    exact ⟨set_moveto_of_mem d.crsr key hsorted hmem, hmem⟩
  rintro (⟨-, key, h1, h2, hp0, herr⟩ | ⟨-, idx, key, hidx, hkey, herr⟩ |
    ⟨-, idx, key, hidx, hkey, -, -, herr⟩ | ⟨-, key, -, -, h1, h2⟩)
  · have hnot : key ∉ d.crsr.rows := by
      intro hmem
      exact (hinv.2.2.2.2.2 key (by omega) h2).2 (hperm.mem_iff.1 hmem) hp0
    rw [to_i32_eq key h1 h2] at herr
    simp [set_engine, SetEngine.insert_row, hnot] at herr
  · rw [(hdel idx key hidx hkey).1] at herr
    simp at herr
  · obtain ⟨hm, hmem⟩ := hdel idx key hidx hkey
    rw [hm] at herr
    simp [set_engine, SetEngine.delete_row, hmem] at herr
  · rcases set_moveto_err d.crsr (to_i32 key) with h | h
    · exact h1 h
    · exact h2 h

/-! ### The final scan on the set engine -/

theorem scan_loop_set :
    ∀ (rest : List Int) (r : Int) (fuel : Nat) (s : SetEngine) (fk : List Int) (fc : Nat),
      s.scan = r :: rest → rest.length ≤ fuel → fc + rest.length + 1 ≤ fk.length →
      fk.length < U64 →
      ∃ fk' c, scan_loop set_engine fuel s fk fc = .ret (fk', fc + rest.length + 1, c) ∧
        fk'.take (fc + rest.length + 1) = fk.take fc ++ r :: rest := by
  intro rest
  induction rest with
  | nil =>
    intro r fuel s fk fc hs _ hlen hcap
    have hlt : fc < fk.length := by simpa using hlen
    have hmod : (fc + 1) % U64 = fc + 1 := Nat.mod_eq_of_lt (by omega)
    refine ⟨fk.set fc r, { s with scan := [] }, ?_, ?_⟩
    · unfold scan_loop
      simp [set_engine, SetEngine.cursor_read_row, SetEngine.cursor_next, hs,
        write_keys_eq _ _ _ _ hlt, Run.bind, hmod]
    · simpa using take_succ_set fk fc r hlt
  | cons r2 rest ih =>
    intro r fuel s fk fc hs hfuel hlen hcap
    have hlen' : fc + rest.length + 2 ≤ fk.length := by simpa [Nat.add_assoc] using hlen
    have hlt : fc < fk.length := by omega
    have hmod : (fc + 1) % U64 = fc + 1 := Nat.mod_eq_of_lt (by omega)
    obtain ⟨fuel', rfl⟩ : ∃ fuel', fuel = fuel' + 1 :=
      ⟨fuel - 1, by simp at hfuel; omega⟩
    obtain ⟨fk', c, hrun, htake⟩ := ih r2 fuel' { s with scan := r2 :: rest }
      (fk.set fc r) (fc + 1) rfl (by simpa using hfuel)
      (by rw [List.length_set]; omega) (by rw [List.length_set]; exact hcap)
    refine ⟨fk', c, ?_, ?_⟩
    · unfold scan_loop
      simp only [set_engine, SetEngine.cursor_read_row, SetEngine.cursor_next, hs,
        write_keys_eq _ _ _ _ hlt, Run.bind, hmod]
      simp only [set_engine] at hrun
      simp only [List.length_cons]
      rw [show fc + (rest.length + 1) + 1 = fc + 1 + rest.length + 1 by omega]
      simpa using hrun
    · simp only [List.length_cons]
      rw [show fc + (rest.length + 1) + 1 = fc + 1 + rest.length + 1 by omega, htake,
        take_succ_set fk fc r hlt]
      simp

theorem final_scan_set (sfuel ops : Nat) (s : SetEngine) (hops : ops < U64)
    (hlen : s.rows.length ≤ (calloc ops 8).length) (hfuel : s.rows.length ≤ sfuel) :
    ∃ fk c, final_scan set_engine sfuel ops s = .ret (fk, s.rows.length, c) ∧
      fk.take s.rows.length = s.rows := by
  unfold final_scan
  cases hrows : s.rows with
  | nil =>
    refine ⟨calloc ops 8, { s with scan := [] }, ?_, ?_⟩
    · simp [set_engine, SetEngine.cursor_first, hrows]
    · simp
  | cons r rest =>
    rw [hrows] at hlen hfuel
    simp only [List.length_cons] at hlen hfuel
    obtain ⟨fk', c, hrun, htake⟩ := scan_loop_set rest r sfuel { s with scan := r :: rest }
      (calloc ops 8) 0 rfl (by omega)
      (by omega) (lt_of_le_of_lt (calloc_length_le ops 8) hops)
    refine ⟨fk', c, ?_, ?_⟩
    · simp only [set_engine, SetEngine.cursor_first, hrows, if_true]
      simp only [set_engine, Nat.zero_add, hrows] at hrun
      simpa using hrun
    · simpa using htake

theorem engine_loop_reach (fuel seed ops n : Nat) (hops : ops < U64) :
    (driver_loop set_engine fuel n (driver_init seed ops SetEngine.empty)).sat
      (fun d => OracleInv d ∧ EngineInv ops d) (fun _ => False)
      (fun k => k = .keys_oob) := by
  refine driver_loop_sat set_engine fuel _ _ _ ?_ n _
    ⟨OracleInv_init seed ops SetEngine.empty hops, ?_⟩
  · rintro d ⟨hinv, he⟩
    exact Run.sat_mono (driver_step_sat set_engine fuel d hinv)
      (fun d' h => ⟨Step_inv hinv h, EngineInv_step hinv he h⟩)
      (fun f h => set_engine_no_exit hinv he f h) (fun k h => h.1)
  · unfold EngineInv Driver.dense driver_init SetEngine.empty
    simp

/-- Claim C5 (oracle/engine agreement). With the engine modelled as a set of
integer keys, for every seed and op count, after any number of driver steps no
fatal branch has been taken, and the final scan of the engine returns, in
ascending order, exactly the keys of `keys[0..key_count)`, with
`final_count = key_count`. -/
theorem oracle_engine_agreement (fuel seed ops n : Nat) (hops : ops < U64) :
    (∀ f, driver_loop set_engine fuel n (driver_init seed ops SetEngine.empty)
      ≠ .exit1 f) ∧
    (∀ d, driver_loop set_engine fuel n (driver_init seed ops SetEngine.empty) = .ret d →
      ∀ scan_fuel, d.key_count ≤ scan_fuel →
        ∃ final_keys c,
          final_scan set_engine scan_fuel ops d.crsr
            = .ret (final_keys, d.key_count, c) ∧
          (final_keys.take d.key_count).Sorted (· < ·) ∧
          (∀ k, k ∈ final_keys.take d.key_count ↔ k ∈ d.keys.take d.key_count)) := by
  have hreach := engine_loop_reach fuel seed ops n hops
  constructor
  · intro f hf
    exact Run.sat_exit1 hreach hf
  · intro d hd scan_fuel hfuel
    obtain ⟨hinv, hlen, hsorted, hperm⟩ := Run.sat_ret hreach hd
    have hcount : d.crsr.rows.length = d.key_count := by
      rw [hperm.length_eq]
      unfold Driver.dense
      rw [List.length_take]
      exact min_eq_left hinv.2.1
    obtain ⟨fk, c, hrun, htake⟩ := final_scan_set scan_fuel ops d.crsr hops
      (by rw [hcount, ← hlen]; exact hinv.2.1) (by rw [hcount]; exact hfuel)
    rw [hcount] at hrun htake
    refine ⟨fk, c, hrun, ?_, ?_⟩
    · rw [htake]
      exact hsorted.lt_of_le (hperm.nodup_iff.2 hinv.2.2.2.1)
    · intro k
      rw [htake]
      exact hperm.mem_iff

theorem oracle_engine_agreement_witness :
    (8 < U64 ∧
      driver_loop set_engine 0 8 (driver_init 0xC0FFEE 8 SetEngine.empty)
        = .ret (sample_state 8) ∧
      (sample_state 8).key_count ≤ 4 ∧
      main_run set_engine 0 4 0xC0FFEE 8 SetEngine.empty =
        .ret [Line.header 0xC0FFEE 8, Line.I 549, Line.D 549, Line.I 403, Line.D 403,
              Line.I 13, Line.I 775, Line.I 180, Line.I 506,
              Line.final 4 [13, 180, 506, 775]]) ∧
    (∀ f, driver_loop set_engine 0 8 (driver_init 0xC0FFEE 8 SetEngine.empty)
      ≠ .exit1 f) ∧
    ∃ final_keys c,
      final_scan set_engine 4 8 (sample_state 8).crsr
        = .ret (final_keys, (sample_state 8).key_count, c) ∧
      (final_keys.take (sample_state 8).key_count).Sorted (· < ·) ∧
      (∀ k, k ∈ final_keys.take (sample_state 8).key_count ↔
        k ∈ (sample_state 8).keys.take (sample_state 8).key_count) :=
  have h8 := sample_state_reach 8 (by decide!)
  have hle : (sample_state 8).key_count ≤ 4 := Nat.le_of_ble_eq_true (by decide!)
  ⟨⟨by decide, h8, hle, by decide!⟩,
   (oracle_engine_agreement 0 0xC0FFEE 8 8 (by decide)).1,
   (oracle_engine_agreement 0 0xC0FFEE 8 8 (by decide)).2 (sample_state 8) h8 4 hle⟩

/-! ### Seed expansion -/

theorem splitmix64_next_eq (a : Nat) :
    splitmix64_next a =
      (finishing_mix ((a + 0x9E3779B97F4A7C15) % U64), (a + 0x9E3779B97F4A7C15) % U64) := by
  rfl

theorem xoshiro_seed_words (seed : Nat) :
    xoshiro_seed seed =
      { s0 := finishing_mix (seed_accumulator seed 0),
        s1 := finishing_mix (seed_accumulator seed 1),
        s2 := finishing_mix (seed_accumulator seed 2),
        s3 := finishing_mix (seed_accumulator seed 3) } := by
  have h0 : (seed + 0x9E3779B97F4A7C15) % U64 = seed_accumulator seed 0 := by
    unfold seed_accumulator U64; omega
  have h1 : (seed_accumulator seed 0 + 0x9E3779B97F4A7C15) % U64
      = seed_accumulator seed 1 := by
    unfold seed_accumulator U64; omega
  have h2 : (seed_accumulator seed 1 + 0x9E3779B97F4A7C15) % U64
      = seed_accumulator seed 2 := by
    unfold seed_accumulator U64; omega
  have h3 : (seed_accumulator seed 2 + 0x9E3779B97F4A7C15) % U64
      = seed_accumulator seed 3 := by
    unfold seed_accumulator U64; omega
  unfold xoshiro_seed
  simp only [splitmix64_next_eq]
  rw [h0, h1, h2, h3]

/-- Claim C11, as amended (seed expansion). For every seed and `k` in
`{0, 1, 2, 3}`, word `s[k]` of the state produced by `xoshiro_seed` is obtained
from the accumulator `seed + (k + 1) * 0x9E3779B97F4A7C15` (mod `2 ^ 64`) by
xor-shift-right 30, multiply by `0xBF58476D1CE4E5B9`, xor-shift-right 27,
multiply by `0x94D049BB133111EB`, xor-shift-right 31 (all mod `2 ^ 64`). -/
theorem xoshiro_seed_expansion (seed : Nat) :
    (xoshiro_seed seed).s0 = finishing_mix (seed_accumulator seed 0) ∧
    (xoshiro_seed seed).s1 = finishing_mix (seed_accumulator seed 1) ∧
    (xoshiro_seed seed).s2 = finishing_mix (seed_accumulator seed 2) ∧
    (xoshiro_seed seed).s3 = finishing_mix (seed_accumulator seed 3) := by
  rw [xoshiro_seed_words]
  exact ⟨rfl, rfl, rfl, rfl⟩

/-- Claim C11 fails as stated: for seed `0`, word `s[0]` is not what multiply,
xor-shift-right 27, multiply, xor-shift-right 31 alone give from the
accumulator. -/
theorem xoshiro_seed_not_SeedExpander_mix :
    (xoshiro_seed 0).s0 ≠ SeedExpander_mix (seed_accumulator 0 0) := by
  decide

/-! ### Rejection threshold -/

/-- Claim C14 (rejection threshold). For every 64-bit bound `b ≥ 1` the value
`t` computed inside `uint_less_than_u64` (negate, subtract once if `t ≥ b`,
then one modulo if still `t ≥ b`) is `(2 ^ 64 - b) mod b = 2 ^ 64 mod b`, and
for every 8-bit bound `c ≥ 1` the value computed inside `uint_less_than_u8` is
`(2 ^ 8 - c) mod c = 256 mod c`; in both cases `t` is below the bound. -/
theorem rejection_threshold (b c : Nat) (hb1 : 1 ≤ b) (hb : b < U64)
    (hc1 : 1 ≤ c) (hc : c < U8) :
    (threshold_u64 b = some ((U64 - b) % b) ∧ (U64 - b) % b = U64 % b ∧ U64 % b < b) ∧
    (threshold_u8 c = some ((U8 - c) % c) ∧ (U8 - c) % c = U8 % c ∧ U8 % c < c) := by
  have e64 : U64 % b = (U64 - b) % b := Nat.mod_eq_sub_mod (by omega)
  have e8 : U8 % c = (U8 - c) % c := Nat.mod_eq_sub_mod (by omega)
  refine ⟨⟨?_, e64.symm, Nat.mod_lt _ (by omega)⟩, ⟨?_, e8.symm, Nat.mod_lt _ (by omega)⟩⟩
  · rw [← e64]; exact threshold_u64_eq b hb1 hb
  · rw [← e8]; exact threshold_u8_eq c hc1 hc

theorem rejection_threshold_witness :
    (1 ≤ 1000 ∧ 1000 < U64 ∧ 1 ≤ 3 ∧ 3 < U8) ∧
    (threshold_u64 1000 = some ((U64 - 1000) % 1000) ∧
      (U64 - 1000) % 1000 = U64 % 1000 ∧ U64 % 1000 < 1000) ∧
    (threshold_u8 3 = some ((U8 - 3) % 3) ∧ (U8 - 3) % 3 = U8 % 3 ∧ U8 % 3 < 3) :=
  ⟨⟨by decide, by decide, by decide, by decide⟩,
   rejection_threshold 1000 3 (by decide) (by decide) (by decide) (by decide)⟩

/-! ### The fast-path guard -/

theorem uint_less_than_u64_loop_eq_naive (b t : Nat) (hb : b < U64) :
    ∀ (fuel : Nat) (rng : xoshiro256) (x : Nat), x < U64 →
      uint_less_than_u64_loop b t fuel rng (mul128 x b) = naive_loop_u64 b t fuel rng x := by
  intro fuel
  induction fuel with
  | zero =>
    intro rng x hx
    unfold uint_less_than_u64_loop naive_loop_u64
    rw [mul128_eq x b hx hb, hi64_mul x b hx hb]
    rfl
  | succ n ih =>
    intro rng x hx
    unfold uint_less_than_u64_loop naive_loop_u64
    rw [mul128_eq x b hx hb, hi64_mul x b hx hb]
    simp only [lo64]
    split
    · exact ih _ _ (rand_u64_lt rng)
    · rfl

theorem uint_less_than_u8_loop_eq_naive (b t : Nat) (hb : b < U8) :
    ∀ (fuel : Nat) (rng : xoshiro256) (x : Nat), x < U8 →
      uint_less_than_u8_loop b t fuel rng (mul16 x b) = naive_loop_u8 b t fuel rng x := by
  intro fuel
  induction fuel with
  | zero =>
    intro rng x hx
    unfold uint_less_than_u8_loop naive_loop_u8
    rw [mul16_eq x b hx hb, hi8_mul x b hx hb]
    rfl
  | succ n ih =>
    intro rng x hx
    unfold uint_less_than_u8_loop naive_loop_u8
    rw [mul16_eq x b hx hb, hi8_mul x b hx hb]
    simp only [lo8]
    split
    · exact ih _ _ (rand_u8_lt rng)
    · rfl

theorem uint_less_than_u64_eq_naive (fuel : Nat) (rng : xoshiro256) (b : Nat)
    (hb1 : 1 ≤ b) (hb : b < U64) :
    uint_less_than_u64 fuel rng b = naive_less_than_u64 fuel rng b := by
  have hx := rand_u64_lt rng
  have ht : U64 % b < b := Nat.mod_lt _ (by omega)
  unfold uint_less_than_u64 naive_less_than_u64
  simp only [threshold_u64_eq b hb1 hb]
  split
  · exact uint_less_than_u64_loop_eq_naive b _ hb fuel _ _ hx
  · next hl =>
    rw [mul128_eq _ b hx hb] at hl ⊢
    rw [hi64_mul _ b hx hb]
    simp only [lo64] at hl
    unfold naive_loop_u64
    rw [if_neg (by omega)]

theorem uint_less_than_u8_eq_naive (fuel : Nat) (rng : xoshiro256) (b : Nat)
    (hb1 : 1 ≤ b) (hb : b < U8) :
    uint_less_than_u8 fuel rng b = naive_less_than_u8 fuel rng b := by
  have hx := rand_u8_lt rng
  have ht : U8 % b < b := Nat.mod_lt _ (by omega)
  unfold uint_less_than_u8 naive_less_than_u8
  simp only [threshold_u8_eq b hb1 hb]
  split
  · exact uint_less_than_u8_loop_eq_naive b _ hb fuel _ _ hx
  · next hl =>
    rw [mul16_eq _ b hx hb] at hl ⊢
    rw [hi8_mul _ b hx hb]
    simp only [lo8] at hl
    unfold naive_loop_u8
    rw [if_neg (by omega)]

/-- Claim C19 (the fast-path guard is a pure optimisation). For every 64-bit
bound `b ≥ 1`, every generator state and every redraw budget,
`uint_less_than_u64`, which computes the threshold and enters the redraw loop
only when `low64(x * b) < b`, gives the same outcome as the naive sampler that
always computes `t = 2 ^ 64 mod b` and redraws while `low64(x * b) < t`: the
same value and the same generator state afterwards, and it runs out of the
same redraw budgets, so it consumes the same number of draws. The same holds
for `uint_less_than_u8` and every 8-bit bound `c ≥ 1`. -/
theorem fast_path_guard_refines (b c : Nat) (hb1 : 1 ≤ b) (hb : b < U64)
    (hc1 : 1 ≤ c) (hc : c < U8) :
    (∀ (fuel : Nat) (rng : xoshiro256),
      uint_less_than_u64 fuel rng b = naive_less_than_u64 fuel rng b) ∧
    (∀ (fuel : Nat) (rng : xoshiro256),
      uint_less_than_u8 fuel rng c = naive_less_than_u8 fuel rng c) :=
  ⟨fun fuel rng => uint_less_than_u64_eq_naive fuel rng b hb1 hb,
   fun fuel rng => uint_less_than_u8_eq_naive fuel rng c hc1 hc⟩

theorem fast_path_guard_refines_witness :
    (1 ≤ 1000 ∧ 1000 < U64 ∧ 1 ≤ 3 ∧ 3 < U8) ∧
    (uint_less_than_u8 0 (xoshiro_seed 185) 3 = .timeout ∧
      naive_less_than_u8 0 (xoshiro_seed 185) 3 = .timeout) ∧
    ((uint_less_than_u8 1 (xoshiro_seed 185) 3).returns = true ∧
      uint_less_than_u8 1 (xoshiro_seed 185) 3 = naive_less_than_u8 1 (xoshiro_seed 185) 3) ∧
    ((uint_less_than_u64 0 (xoshiro_seed 185) 1000).returns = true ∧
      uint_less_than_u64 0 (xoshiro_seed 185) 1000
        = naive_less_than_u64 0 (xoshiro_seed 185) 1000) :=
  have h := fast_path_guard_refines 1000 3 (by decide) (by decide) (by decide) (by decide)
  have h0 : uint_less_than_u8 0 (xoshiro_seed 185) 3 = .timeout := by decide!
  ⟨⟨by decide, by decide, by decide, by decide⟩,
   ⟨h0, (h.2 0 (xoshiro_seed 185)).symm.trans h0⟩,
   ⟨by decide!, h.2 1 (xoshiro_seed 185)⟩,
   ⟨by decide!, h.1 0 (xoshiro_seed 185)⟩⟩

/-! ### Zero bound -/

theorem uint_less_than_u64_loop_ne_ub (b t : Nat) :
    ∀ (fuel : Nat) (rng : xoshiro256) (m : Nat) (k : Fault),
      uint_less_than_u64_loop b t fuel rng m ≠ .ub k := by
  intro fuel
  induction fuel with
  | zero =>
    intro rng m k
    unfold uint_less_than_u64_loop
    split <;> simp
  | succ n ih =>
    intro rng m k
    unfold uint_less_than_u64_loop
    split
    · exact ih _ _ k
    · simp

theorem uint_less_than_u8_loop_ne_ub (b t : Nat) :
    ∀ (fuel : Nat) (rng : xoshiro256) (m : Nat) (k : Fault),
      uint_less_than_u8_loop b t fuel rng m ≠ .ub k := by
  intro fuel
  induction fuel with
  | zero =>
    intro rng m k
    unfold uint_less_than_u8_loop
    split <;> simp
  | succ n ih =>
    intro rng m k
    unfold uint_less_than_u8_loop
    split
    · exact ih _ _ k
    · simp

theorem threshold_u64_none (b : Nat) (h : threshold_u64 b = none) : b = 0 := by
  unfold threshold_u64 at h
  by_contra hne
  simp only [hne, if_false] at h
  split at h <;> [split at h; skip] <;> simp at h

theorem threshold_u8_none (b : Nat) (h : threshold_u8 b = none) : b = 0 := by
  unfold threshold_u8 at h
  by_contra hne
  simp only [hne, if_false] at h
  split at h <;> [split at h; skip] <;> simp at h

theorem uint_less_than_u64_ne_ub (fuel : Nat) (rng : xoshiro256) (b : Nat) (k : Fault) :
    uint_less_than_u64 fuel rng b ≠ .ub k := by
  unfold uint_less_than_u64
  simp only
  split
  · next hl =>
    cases ht : threshold_u64 b with
    | none =>
      have := threshold_u64_none b ht
      omega
    | some t => exact uint_less_than_u64_loop_ne_ub b t fuel _ _ k
  · simp

theorem uint_less_than_u8_ne_ub (fuel : Nat) (rng : xoshiro256) (b : Nat) (k : Fault) :
    uint_less_than_u8 fuel rng b ≠ .ub k := by
  unfold uint_less_than_u8
  simp only
  split
  · next hl =>
    cases ht : threshold_u8 b with
    | none =>
      have := threshold_u8_none b ht
      omega
    | some t => exact uint_less_than_u8_loop_ne_ub b t fuel _ _ k
  · simp

/-- Claim C20 (zero bound is safe). For every generator state and redraw
budget, `uint_less_than_u64(0)` and `uint_less_than_u8(0)` consume exactly one
draw and return 0; the guard `l < less_than` is false there, so the threshold
computation, whose modulo would divide by zero, is not entered. For every
bound the modulo `t % less_than` has a zero divisor only when the bound is 0,
and neither sampler ever divides by zero. -/
theorem zero_bound_safe :
    (∀ (fuel : Nat) (rng : xoshiro256),
      uint_less_than_u64 fuel rng 0 = .ret (0, (rand_u64 rng).2) ∧
      uint_less_than_u8 fuel rng 0 = .ret (0, (rand_u8 rng).2)) ∧
    (∀ x : Nat, ¬ lo64 (mul128 x 0) < 0 ∧ ¬ lo8 (mul16 x 0) < 0) ∧
    (threshold_u64 0 = none ∧ threshold_u8 0 = none) ∧
    (∀ b : Nat, (threshold_u64 b = none → b = 0) ∧ (threshold_u8 b = none → b = 0)) ∧
    (∀ (fuel : Nat) (rng : xoshiro256) (b : Nat),
      uint_less_than_u64 fuel rng b ≠ .ub .div_by_zero ∧
      uint_less_than_u8 fuel rng b ≠ .ub .div_by_zero) := by
  refine ⟨?_, fun x => ⟨Nat.not_lt_zero _, Nat.not_lt_zero _⟩, ⟨by decide, by decide⟩,
    fun b => ⟨threshold_u64_none b, threshold_u8_none b⟩,
    fun fuel rng b => ⟨uint_less_than_u64_ne_ub fuel rng b _,
      uint_less_than_u8_ne_ub fuel rng b _⟩⟩
  intro fuel rng
  have h64 : mul128 (rand_u64 rng).1 0 = 0 := by
    unfold mul128; rw [Nat.mul_zero, Nat.zero_mod]
  have h8 : mul16 (rand_u8 rng).1 0 = 0 := by
    unfold mul16; rw [Nat.mul_zero, Nat.zero_mod]
  constructor
  · unfold uint_less_than_u64
    simp only [h64]
    rw [if_neg (Nat.not_lt_zero _)]
    rfl
  · unfold uint_less_than_u8
    simp only [h8]
    rw [if_neg (Nat.not_lt_zero _)]
    rfl

/-! ### The all-zero generator state -/

theorem xorshift_right_lt (z k : Nat) (hz : z < U64) : z ^^^ (z >>> k) < U64 := by
  unfold U64 at *
  refine Nat.xor_lt_two_pow hz ?_
  rw [Nat.shiftRight_eq_div_pow]
  exact lt_of_le_of_lt (Nat.div_le_self _ _) hz

theorem xorshift_right_eq_zero (z k : Nat) (hk : 0 < k) (h : z ^^^ (z >>> k) = 0) :
    z = 0 := by
  rw [Nat.xor_eq_zero, Nat.shiftRight_eq_div_pow] at h
  by_contra hne
  have h2 : 2 ≤ 2 ^ k := by
    calc 2 = 2 ^ 1 := rfl
      _ ≤ 2 ^ k := Nat.pow_le_pow_right (by decide) hk
  have : z / 2 ^ k < z := Nat.div_lt_self (Nat.pos_of_ne_zero hne) h2
  omega

theorem finishing_mix_lt (a : Nat) : finishing_mix a < U64 := by
  unfold finishing_mix
  exact xorshift_right_lt _ 31 (Nat.mod_lt _ (by decide))

theorem odd_mul_mod_eq_zero (y c : Nat) (hc : Nat.Coprime (2 ^ 64) c) (hy : y < U64)
    (h : (y * c) % U64 = 0) : y = 0 := by
  have hd : 2 ^ 64 ∣ y * c := Nat.dvd_of_mod_eq_zero h
  have hd2 : 2 ^ 64 ∣ y := hc.dvd_of_dvd_mul_right hd
  exact Nat.eq_zero_of_dvd_of_lt hd2 hy

theorem finishing_mix_eq_zero (a : Nat) (ha : a < U64) (h : finishing_mix a = 0) :
    a = 0 := by
  unfold finishing_mix at h
  simp only at h
  generalize hw : a ^^^ (a >>> 30) = w at h
  generalize hy1 : (w * 0xBF58476D1CE4E5B9) % U64 = y1 at h
  generalize hy : y1 ^^^ (y1 >>> 27) = y at h
  generalize hv : (y * 0x94D049BB133111EB) % U64 = v at h
  have wlt : w < U64 := hw ▸ xorshift_right_lt a 30 ha
  have y1lt : y1 < U64 := hy1 ▸ Nat.mod_lt _ (by decide)
  have ylt : y < U64 := hy ▸ xorshift_right_lt y1 27 y1lt
  have v0 : v = 0 := xorshift_right_eq_zero v 31 (by decide) h
  have y0 : y = 0 :=
    odd_mul_mod_eq_zero y _ (Nat.Coprime.pow_left 64 (by norm_num)) ylt (hv.trans v0)
  have y10 : y1 = 0 := xorshift_right_eq_zero y1 27 (by decide) (hy.trans y0)
  have w0 : w = 0 :=
    odd_mul_mod_eq_zero w _ (Nat.Coprime.pow_left 64 (by norm_num)) wlt (hy1.trans y10)
  exact xorshift_right_eq_zero a 30 (by decide) (hw.trans w0)

theorem xoshiro_seed_wf (seed : Nat) : (xoshiro_seed seed).wf := by
  rw [xoshiro_seed_words]
  exact ⟨finishing_mix_lt _, finishing_mix_lt _, finishing_mix_lt _, finishing_mix_lt _⟩

theorem xoshiro_seed_ne_zero (seed : Nat) : xoshiro_seed seed ≠ xoshiro256.zero := by
  rw [xoshiro_seed_words]
  intro h
  have h0 : finishing_mix (seed_accumulator seed 0) = 0 := congrArg xoshiro256.s0 h
  have h1 : finishing_mix (seed_accumulator seed 1) = 0 := congrArg xoshiro256.s1 h
  have a0 := finishing_mix_eq_zero _ (Nat.mod_lt _ (by decide)) h0
  have a1 := finishing_mix_eq_zero _ (Nat.mod_lt _ (by decide)) h1
  unfold seed_accumulator U64 at a0 a1
  omega

theorem rotl64_lt (x k : Nat) (hx : x < U64) : rotl64 x k < U64 := by
  unfold rotl64 U64 at *
  refine Nat.or_lt_two_pow (Nat.mod_lt _ (by decide)) ?_
  rw [Nat.shiftRight_eq_div_pow]
  exact lt_of_le_of_lt (Nat.div_le_self _ _) hx

theorem xoshiro_next_wf (rng : xoshiro256) (h : rng.wf) : (xoshiro_next rng).2.wf := by
  obtain ⟨h0, h1, h2, h3⟩ := h
  have x31 : rng.s3 ^^^ rng.s1 < U64 := by unfold U64 at *; exact Nat.xor_lt_two_pow h3 h1
  have x20 : rng.s2 ^^^ rng.s0 < U64 := by unfold U64 at *; exact Nat.xor_lt_two_pow h2 h0
  have ht : (rng.s1 <<< 17) % U64 < U64 := Nat.mod_lt _ (by decide)
  refine ⟨?_, ?_, ?_, ?_⟩
  · show rng.s0 ^^^ (rng.s3 ^^^ rng.s1) < U64
    unfold U64 at *; exact Nat.xor_lt_two_pow h0 x31
  · show rng.s1 ^^^ (rng.s2 ^^^ rng.s0) < U64
    unfold U64 at *; exact Nat.xor_lt_two_pow h1 x20
  · show rng.s2 ^^^ rng.s0 ^^^ (rng.s1 <<< 17) % U64 < U64
    unfold U64 at *; exact Nat.xor_lt_two_pow x20 ht
  · exact rotl64_lt _ 45 x31

theorem xoshiro_next_eq_zero (rng : xoshiro256) (h : rng.wf)
    (hz : (xoshiro_next rng).2 = xoshiro256.zero) : rng = xoshiro256.zero := by
  obtain ⟨h0, h1, h2, h3⟩ := h
  have x31 : rng.s3 ^^^ rng.s1 < U64 := by unfold U64 at *; exact Nat.xor_lt_two_pow h3 h1
  have z0 : rng.s0 ^^^ (rng.s3 ^^^ rng.s1) = 0 := congrArg xoshiro256.s0 hz
  have z1 : rng.s1 ^^^ (rng.s2 ^^^ rng.s0) = 0 := congrArg xoshiro256.s1 hz
  have z2 : rng.s2 ^^^ rng.s0 ^^^ (rng.s1 <<< 17) % U64 = 0 := congrArg xoshiro256.s2 hz
  have z3 : rotl64 (rng.s3 ^^^ rng.s1) 45 = 0 := congrArg xoshiro256.s3 hz
  rw [rotl64_eq_rotate_left _ 45 x31 (by decide)] at z3
  have e31 : rng.s3 ^^^ rng.s1 = 0 := by
    unfold rotate_left at z3
    omega
  rw [e31, Nat.xor_zero] at z0
  rw [z0, Nat.xor_zero, Nat.xor_eq_zero] at z1
  rw [z0, Nat.xor_zero, Nat.xor_eq_zero, Nat.shiftLeft_eq] at z2
  rw [Nat.xor_eq_zero] at e31
  have e1 : rng.s1 = 0 := by
    rw [← z1] at z2
    unfold U64 at *
    omega
  have e2 : rng.s2 = 0 := by omega
  have e3 : rng.s3 = 0 := by omega
  cases rng
  simp only [xoshiro256.zero, xoshiro256.mk.injEq]
  exact ⟨z0, e1, e2, e3⟩

theorem xoshiro_next_live (rng : xoshiro256) (h : LiveRng rng) :
    LiveRng (xoshiro_next rng).2 :=
  ⟨xoshiro_next_wf rng h.1, fun hz => h.2 (xoshiro_next_eq_zero rng h.1 hz)⟩

theorem xoshiro_seed_live (seed : Nat) : LiveRng (xoshiro_seed seed) :=
  ⟨xoshiro_seed_wf seed, xoshiro_seed_ne_zero seed⟩

/-! ### The generator state stays live through the driver -/

theorem rand_u64_live (rng : xoshiro256) (h : LiveRng rng) : LiveRng (rand_u64 rng).2 :=
  xoshiro_next_live rng h

theorem rand_u8_live (rng : xoshiro256) (h : LiveRng rng) : LiveRng (rand_u8 rng).2 :=
  xoshiro_next_live rng h

theorem rand_bool_live (rng : xoshiro256) (h : LiveRng rng) : LiveRng (rand_bool rng).2 :=
  xoshiro_next_live rng h

theorem uint_less_than_u64_loop_live (b t : Nat) :
    ∀ (fuel : Nat) (rng : xoshiro256) (m : Nat), LiveRng rng →
      (uint_less_than_u64_loop b t fuel rng m).ret_sat (fun p => LiveRng p.2) := by
  intro fuel
  induction fuel with
  | zero =>
    intro rng m h
    unfold uint_less_than_u64_loop
    split
    · trivial
    · exact h
  | succ n ih =>
    intro rng m h
    unfold uint_less_than_u64_loop
    split
    · exact ih _ _ (rand_u64_live rng h)
    · exact h

theorem uint_less_than_u8_loop_live (b t : Nat) :
    ∀ (fuel : Nat) (rng : xoshiro256) (m : Nat), LiveRng rng →
      (uint_less_than_u8_loop b t fuel rng m).ret_sat (fun p => LiveRng p.2) := by
  intro fuel
  induction fuel with
  | zero =>
    intro rng m h
    unfold uint_less_than_u8_loop
    split
    · trivial
    · exact h
  | succ n ih =>
    intro rng m h
    unfold uint_less_than_u8_loop
    split
    · exact ih _ _ (rand_u8_live rng h)
    · exact h

theorem uint_less_than_u64_live (fuel : Nat) (rng : xoshiro256) (b : Nat)
    (h : LiveRng rng) :
    (uint_less_than_u64 fuel rng b).ret_sat (fun p => LiveRng p.2) := by
  unfold uint_less_than_u64
  simp only
  split
  · split
    · trivial
    · exact uint_less_than_u64_loop_live b _ fuel _ _ (rand_u64_live rng h)
  · exact rand_u64_live rng h

theorem uint_less_than_u8_live (fuel : Nat) (rng : xoshiro256) (b : Nat)
    (h : LiveRng rng) :
    (uint_less_than_u8 fuel rng b).ret_sat (fun p => LiveRng p.2) := by
  unfold uint_less_than_u8
  simp only
  split
  · split
    · trivial
    · exact uint_less_than_u8_loop_live b _ fuel _ _ (rand_u8_live rng h)
  · exact rand_u8_live rng h

theorem int_range_at_most_i64_live (fuel : Nat) (rng : xoshiro256) (lo hi : Int)
    (h : LiveRng rng) :
    (int_range_at_most_i64 fuel rng lo hi).ret_sat (fun p => LiveRng p.2) := by
  have hu : ∀ a, (uint_at_most_u64 fuel rng a).ret_sat (fun p => LiveRng p.2) := by
    intro a
    unfold uint_at_most_u64
    split
    · exact rand_u64_live rng h
    · exact uint_less_than_u64_live fuel rng _ h
  unfold int_range_at_most_i64
  refine Run.sat_bind (hu _) ?_
  rintro ⟨v, r⟩ hp
  exact hp

theorem insert_retry_live (fuel : Nat) (present : List Nat) :
    ∀ (left : Nat) (key : Int) (rng : xoshiro256), LiveRng rng →
      (insert_retry fuel present left key rng).ret_sat (fun p => LiveRng p.2) := by
  intro left
  induction left with
  | zero =>
    intro key rng h
    unfold insert_retry
    refine @Run.sat_bind _ _ _ _ (fun _ => True) _ _ _ ?_ ?_
    · cases read_present present key <;> trivial
    · intro p _
      split <;> exact h
  | succ n ih =>
    intro key rng h
    unfold insert_retry
    refine @Run.sat_bind _ _ _ _ (fun _ => True) _ _ _ ?_ ?_
    · cases read_present present key <;> trivial
    · intro p _
      split
      · exact Run.sat_bind (int_range_at_most_i64_live fuel rng 1 1000 h)
          (fun q hq => ih q.1 q.2 hq)
      · exact h

theorem Run.ret_sat_true {α : Type} (r : Run α) : r.ret_sat (fun _ => True) := by
  cases r <;> trivial

theorem insert_step_live {σ : Type} (E : Engine σ) (fuel : Nat) (d : Driver σ)
    (h : LiveRng d.rng) :
    (insert_step E fuel d).ret_sat (fun d' => LiveRng d'.rng) := by
  unfold insert_step
  refine Run.sat_bind (int_range_at_most_i64_live fuel d.rng 1 1000 h) ?_
  rintro ⟨key0, rng0⟩ h0
  refine Run.sat_bind (insert_retry_live fuel d.present 10 key0 rng0 h0) ?_
  rintro ⟨key, rng⟩ h1
  refine Run.sat_bind (Run.ret_sat_true _) ?_
  intro p _
  simp only
  split
  · exact h1
  · split
    · trivial
    · refine Run.sat_bind (Run.ret_sat_true _) (fun present _ => ?_)
      exact Run.sat_bind (Run.ret_sat_true _) (fun keys _ => h1)

theorem delete_at_live {σ : Type} (E : Engine σ) (d : Driver σ) (idx : Nat)
    (h : LiveRng d.rng) :
    (delete_at E d idx).ret_sat (fun d' => LiveRng d'.rng) := by
  unfold delete_at
  refine Run.sat_bind (Run.ret_sat_true _) (fun key _ => ?_)
  simp only
  split
  · trivial
  · split
    · trivial
    · refine Run.sat_bind (Run.ret_sat_true _) (fun present _ => ?_)
      refine Run.sat_bind (Run.ret_sat_true _) (fun last _ => ?_)
      exact Run.sat_bind (Run.ret_sat_true _) (fun keys _ => h)

theorem delete_step_live {σ : Type} (E : Engine σ) (fuel : Nat) (d : Driver σ)
    (h : LiveRng d.rng) :
    (delete_step E fuel d).ret_sat (fun d' => LiveRng d'.rng) := by
  unfold delete_step
  refine Run.sat_bind (uint_less_than_u64_live fuel d.rng d.key_count h) ?_
  rintro ⟨idx, rng⟩ h1
  exact delete_at_live E { d with rng := rng } idx h1

theorem search_pick_live {σ : Type} (fuel : Nat) (d : Driver σ) (h : LiveRng d.rng) :
    (search_pick fuel d).ret_sat (fun p => LiveRng p.2) := by
  unfold search_pick
  refine Run.sat_bind (int_range_at_most_i64_live fuel d.rng 1 1000 h) ?_
  rintro ⟨key0, rng0⟩ h0
  simp only
  split
  · split
    · refine Run.sat_bind (uint_less_than_u64_live fuel _ d.key_count
        (rand_bool_live rng0 h0)) ?_
      rintro ⟨idx, rng⟩ h1
      exact Run.sat_bind (Run.ret_sat_true _) (fun k _ => h1)
    · exact rand_bool_live rng0 h0
  · exact h0

theorem search_step_live {σ : Type} (E : Engine σ) (fuel : Nat) (d : Driver σ)
    (h : LiveRng d.rng) :
    (search_step E fuel d).ret_sat (fun d' => LiveRng d'.rng) := by
  unfold search_step
  refine Run.sat_bind (search_pick_live fuel d h) ?_
  rintro ⟨key, rng⟩ h1
  simp only
  split
  · trivial
  · exact h1

theorem driver_step_live {σ : Type} (E : Engine σ) (fuel : Nat) (d : Driver σ)
    (h : LiveRng d.rng) :
    (driver_step E fuel d).ret_sat (fun d' => LiveRng d'.rng) := by
  unfold driver_step
  refine @Run.sat_bind _ _ _ _ (fun p => LiveRng p.2) _ _ _ ?_ ?_
  · unfold select_action
    split
    · exact h
    · exact uint_less_than_u8_live fuel d.rng 3 h
  · rintro ⟨action, rng⟩ h1
    simp only
    split
    · exact insert_step_live E fuel { d with rng := rng } h1
    · split
      · exact delete_step_live E fuel { d with rng := rng } h1
      · exact search_step_live E fuel { d with rng := rng } h1

theorem driver_loop_live {σ : Type} (E : Engine σ) (fuel seed ops n : Nat) (crsr : σ) :
    (driver_loop E fuel n (driver_init seed ops crsr)).ret_sat
      (fun d => LiveRng d.rng) :=
  driver_loop_sat E fuel (fun d => LiveRng d.rng) _ _
    (fun d hd => driver_step_live E fuel d hd) n _ (xoshiro_seed_live seed)

/-- Claim C17 (the all-zero generator state is never reached). For every seed
the state produced by `xoshiro_seed` is not `(0, 0, 0, 0)`; `xoshiro_next` maps
every state of 64-bit words other than `(0, 0, 0, 0)` to a state other than
`(0, 0, 0, 0)`; hence after any number of driver steps the generator state is
not all-zero. From the all-zero state every draw is 0 and the state stays
all-zero. -/
theorem zero_state_unreachable :
    (∀ seed : Nat, xoshiro_seed seed ≠ xoshiro256.zero) ∧
    (∀ rng : xoshiro256, rng.wf → rng ≠ xoshiro256.zero →
      (xoshiro_next rng).2.wf ∧ (xoshiro_next rng).2 ≠ xoshiro256.zero) ∧
    (∀ {σ : Type} (E : Engine σ) (fuel seed ops n : Nat) (crsr : σ) (d : Driver σ),
      driver_loop E fuel n (driver_init seed ops crsr) = .ret d →
        d.rng.wf ∧ d.rng ≠ xoshiro256.zero) ∧
    xoshiro_next xoshiro256.zero = (0, xoshiro256.zero) :=
  ⟨xoshiro_seed_ne_zero,
   fun rng hwf hne => xoshiro_next_live rng ⟨hwf, hne⟩,
   fun E fuel seed ops n crsr _ hd =>
     Run.sat_ret (driver_loop_live E fuel seed ops n crsr) hd,
   by decide⟩

theorem zero_state_unreachable_witness :
    ((xoshiro_seed 0xC0FFEE).wf ∧ xoshiro_seed 0xC0FFEE ≠ xoshiro256.zero ∧
      driver_loop set_engine 0 8 (driver_init 0xC0FFEE 8 SetEngine.empty)
        = .ret (sample_state 8)) ∧
    ((xoshiro_next (xoshiro_seed 0xC0FFEE)).2.wf ∧
      (xoshiro_next (xoshiro_seed 0xC0FFEE)).2 ≠ xoshiro256.zero) ∧
    ((sample_state 8).rng.wf ∧ (sample_state 8).rng ≠ xoshiro256.zero) :=
  have hwf : (xoshiro_seed 0xC0FFEE).wf := ⟨by decide, by decide, by decide, by decide⟩
  have h8 := sample_state_reach 8 (by decide!)
  ⟨⟨hwf, zero_state_unreachable.1 0xC0FFEE, h8⟩,
   zero_state_unreachable.2.1 (xoshiro_seed 0xC0FFEE) hwf (zero_state_unreachable.1 0xC0FFEE),
   zero_state_unreachable.2.2.1 set_engine 0 0xC0FFEE 8 8 SetEngine.empty (sample_state 8) h8⟩

/-! ### The run with `ops = 0` -/

theorem final_scan_empty {σ : Type} (E : Engine σ) (scan_fuel : Nat) (crsr : σ)
    (h : EmptyTable E crsr) :
    ∃ c, final_scan E scan_fuel 0 crsr = .ret ([], 0, c) := by
  unfold final_scan
  rw [calloc_zero]
  rcases h with h | ⟨h1, h2⟩
  · refine ⟨(E.cursor_first crsr).2, ?_⟩
    simp [h]
  · refine ⟨(E.cursor_read_row (E.cursor_first crsr).2).2.2, ?_⟩
    simp only [h1, if_true]
    cases scan_fuel <;> (unfold scan_loop; simp [h2])

/-- Claim C12, as amended (boundary scenario `ops = 0`). For every seed, a run
with `ops = 0` against an engine that shows an empty table executes no driver
step, leaves the oracle empty and the generator state as seeded, emits no `I`,
`D` or `S` line, and its standard output consists of the header line
`seed=<seed> ops=0` followed by the line `final 0`. -/
theorem ops_zero_run {σ : Type} (E : Engine σ) (fuel scan_fuel seed : Nat) (crsr : σ)
    (hempty : EmptyTable E crsr) :
    driver_loop E fuel 0 (driver_init seed 0 crsr) = .ret (driver_init seed 0 crsr) ∧
    ((driver_init seed 0 crsr).rng = xoshiro_seed seed ∧
      (driver_init seed 0 crsr).key_count = 0 ∧
      (driver_init seed 0 crsr).keys = [] ∧
      (driver_init seed 0 crsr).present = List.replicate 1001 0) ∧
    main_run E fuel scan_fuel seed 0 crsr = .ret [Line.header seed 0, Line.final 0 []] ∧
    (∀ line ∈ [Line.header seed 0, Line.final 0 []], line.key? = none) := by
  refine ⟨rfl, ⟨rfl, rfl, rfl, rfl⟩, ?_, ?_⟩
  · obtain ⟨c, hc⟩ := final_scan_empty E scan_fuel crsr hempty
    unfold main_run
    simp only [driver_loop, Run.bind]
    show (final_scan E scan_fuel 0 crsr).bind _ = _
    rw [hc]
    rfl
  · intro line hline
    simp only [List.mem_cons, List.mem_singleton, List.not_mem_nil, or_false] at hline
    rcases hline with h | h <;> (subst h; rfl)

theorem ops_zero_run_witness :
    EmptyTable set_engine SetEngine.empty ∧
    (driver_loop set_engine 0 0 (driver_init 0xC0FFEE 0 SetEngine.empty)
        = .ret (driver_init 0xC0FFEE 0 SetEngine.empty) ∧
      ((driver_init 0xC0FFEE 0 SetEngine.empty).rng = xoshiro_seed 0xC0FFEE ∧
        (driver_init 0xC0FFEE 0 SetEngine.empty).key_count = 0 ∧
        (driver_init 0xC0FFEE 0 SetEngine.empty).keys = [] ∧
        (driver_init 0xC0FFEE 0 SetEngine.empty).present = List.replicate 1001 0) ∧
      main_run set_engine 0 0 0xC0FFEE 0 SetEngine.empty
        = .ret [Line.header 0xC0FFEE 0, Line.final 0 []] ∧
      (∀ line ∈ [Line.header 0xC0FFEE 0, Line.final 0 []], line.key? = none)) :=
  ⟨Or.inl rfl, ops_zero_run set_engine 0 0 0xC0FFEE SetEngine.empty (Or.inl rfl)⟩

/-- Claim C12 fails as stated: with seed `0xC0FFEE`, `ops = 0` and the empty
set engine, standard output is the header line followed by `final 0`, not the
line `final 0` alone. -/
theorem ops_zero_output_not_final_only :
    main_run set_engine 0 0 0xC0FFEE 0 SetEngine.empty
      = .ret [Line.header 0xC0FFEE 0, Line.final 0 []] ∧
    main_run set_engine 0 0 0xC0FFEE 0 SetEngine.empty ≠ .ret [Line.final 0 []] := by
  decide!

/-! ### The help flag -/

/-- Claim C13, as amended (help flag). When the argument being processed is
`--help`, the argument loop writes the usage text and `main` returns 0 without
any engine call. Every argument that is none of `--help`, `--seed`, `--ops`,
`--seed=...`, `--ops=...` gets `Unknown argument`, the usage text and status 1;
`-h` is such an argument. A `return` from the argument loop is the result of
`main` whatever the engine. -/
theorem help_flag (strtoull : String → Nat) (prog : String) (rest : List String)
    (seed ops : Nat) :
    parse_args strtoull prog ("--help" :: rest) seed ops = .stop 0 (usage prog) ∧
    (∀ arg : String, arg ≠ "--help" → arg ≠ "--seed" → arg ≠ "--ops" →
      starts_with "--seed=" arg = false → starts_with "--ops=" arg = false →
      parse_args strtoull prog (arg :: rest) seed ops
        = .stop 1 (ErrLine.unknown_argument arg :: usage prog)) ∧
    parse_args strtoull prog ("-h" :: rest) seed ops
      = .stop 1 (ErrLine.unknown_argument "-h" :: usage prog) ∧
    (∀ {σ : Type} (E : Engine σ) (fuel scan_fuel : Nat) (argv : List String) (crsr : σ)
      (status : Nat) (err : List ErrLine),
      parse_args strtoull (argv.headD "") argv.tail 0xC0FFEE 60 = .stop status err →
      main E strtoull fuel scan_fuel argv crsr = .early_exit status err) := by
  have hunk : ∀ arg : String, arg ≠ "--help" → arg ≠ "--seed" → arg ≠ "--ops" →
      starts_with "--seed=" arg = false → starts_with "--ops=" arg = false →
      parse_args strtoull prog (arg :: rest) seed ops
        = .stop 1 (ErrLine.unknown_argument arg :: usage prog) := by
    intro arg h1 h2 h3 h4 h5
    unfold parse_args
    simp [h1, h2, h3, h4, h5]
  refine ⟨?_, hunk, ?_, ?_⟩
  · unfold parse_args
    simp
  · exact hunk "-h" (by decide) (by decide) (by decide) (by decide) (by decide)
  · intro σ E fuel scan_fuel argv crsr status err h
    unfold main
    rw [h]

theorem help_flag_witness :
    main set_engine (fun _ => 0) 0 0 ["btr_trace", "--seed", "7", "--help"] SetEngine.empty
      = .early_exit 0 (usage "btr_trace") ∧
    parse_args (fun _ => 0) "btr_trace" ["--verbose", "--help"] 0xC0FFEE 60
      = .stop 1 (ErrLine.unknown_argument "--verbose" :: usage "btr_trace") :=
  ⟨(help_flag (fun _ => 0) "btr_trace" [] 0xC0FFEE 60).2.2.2 set_engine 0 0
      ["btr_trace", "--seed", "7", "--help"] SetEngine.empty 0 (usage "btr_trace")
      (by decide),
   (help_flag (fun _ => 0) "btr_trace" ["--help"] 0xC0FFEE 60).2.1 "--verbose"
      (by decide) (by decide) (by decide) (by decide) (by decide)⟩

/-- Claim C13 fails as stated: `main` called with the single argument `-h`
writes `Unknown argument: -h` and the usage text and returns 1, not 0. -/
theorem short_help_flag_exits_one :
    main set_engine (fun _ => 0) 0 0 ["btr_trace", "-h"] SetEngine.empty
      = .early_exit 1 [ErrLine.unknown_argument "-h", ErrLine.usage_text "btr_trace"] ∧
    main set_engine (fun _ => 0) 0 0 ["btr_trace", "-h"] SetEngine.empty
      ≠ .early_exit 0 (usage "btr_trace") := by
  decide

/-! ### Bounded retry of an Insert step -/

theorem insert_retry_unfold (fuel : Nat) (present : List Nat) (left : Nat) (key : Int)
    (rng : xoshiro256) (p : Nat) (hp : read_present present key = .ret p) :
    insert_retry fuel present left key rng =
      if p ≠ 0 then
        match left with
        | 0 => .ret (key, rng)
        | left + 1 =>
          (int_range_at_most_i64 fuel rng 1 1000).bind fun q =>
            insert_retry fuel present left q.1 q.2
      else .ret (key, rng) := by
  rw [insert_retry.eq_def]
  simp only
  rw [hp]
  cases left <;> rfl

theorem insert_candidates_unfold (fuel : Nat) (present : List Nat) (left : Nat) (key : Int)
    (rng : xoshiro256) (p : Nat) (hp : read_present present key = .ret p) :
    insert_candidates fuel present left key rng =
      if p ≠ 0 then
        match left with
        | 0 => .ret ([key], rng)
        | left + 1 =>
          (int_range_at_most_i64 fuel rng 1 1000).bind fun q =>
            (insert_candidates fuel present left q.1 q.2).bind fun r =>
              .ret (key :: r.1, r.2)
      else .ret ([key], rng) := by
  rw [insert_candidates.eq_def]
  simp only
  rw [hp]
  cases left <;> rfl

theorem insert_candidates_read (fuel : Nat) (present : List Nat) (left : Nat) (key : Int)
    (rng : xoshiro256) (ks : List Int) (rng' : xoshiro256)
    (h : insert_candidates fuel present left key rng = .ret (ks, rng')) :
    ∃ p, read_present present key = .ret p := by
  unfold insert_candidates at h
  obtain ⟨p, hp, -⟩ := Run.bind_eq_ret h
  exact ⟨p, hp⟩

theorem insert_candidates_single (present : List Nat) (key : Int) (left : Nat)
    (hlast : (∃ q, read_present present key = .ret q ∧ q ≠ 0) → 1 = left + 1) :
    ([key] : List Int).head? = some key ∧ ([key] : List Int).length ≤ left + 1 ∧
    (∀ k ∈ ([key] : List Int).dropLast, ∃ p, read_present present k = .ret p ∧ p ≠ 0) ∧
    ((∃ p, read_present present (([key] : List Int).getLastD 0) = .ret p ∧ p ≠ 0) →
      ([key] : List Int).length = left + 1) := by
  refine ⟨rfl, by simp, by simp, ?_⟩
  intro h
  exact hlast h

theorem insert_candidates_spec (fuel : Nat) (present : List Nat) :
    ∀ (left : Nat) (key : Int) (rng : xoshiro256) (ks : List Int) (rng' : xoshiro256),
      insert_candidates fuel present left key rng = .ret (ks, rng') →
      (ks.head? = some key ∧ ks.length ≤ left + 1 ∧
        (∀ k ∈ ks.dropLast, ∃ p, read_present present k = .ret p ∧ p ≠ 0) ∧
        ((∃ p, read_present present (ks.getLastD 0) = .ret p ∧ p ≠ 0) →
          ks.length = left + 1)) ∧
      insert_retry fuel present left key rng = .ret (ks.getLastD 0, rng') := by
  intro left
  induction left with
  | zero =>
    intro key rng ks rng' h
    obtain ⟨p, hp⟩ := insert_candidates_read fuel present 0 key rng ks rng' h
    rw [insert_candidates_unfold fuel present 0 key rng p hp] at h
    rw [insert_retry_unfold fuel present 0 key rng p hp]
    have hks : ks = [key] ∧ rng' = rng := by
      split at h <;> simpa [eq_comm] using h
    obtain ⟨hk, hr⟩ := hks
    rw [hk, hr]
    refine ⟨insert_candidates_single present key 0 (fun _ => rfl), ?_⟩
    split <;> rfl
  | succ n ih =>
    intro key rng ks rng' h
    obtain ⟨p, hp⟩ := insert_candidates_read fuel present (n + 1) key rng ks rng' h
    rw [insert_candidates_unfold fuel present (n + 1) key rng p hp] at h
    rw [insert_retry_unfold fuel present (n + 1) key rng p hp]
    by_cases hp0 : p = 0
    · rw [if_neg (not_not.2 hp0)] at h ⊢
      simp only [Run.ret.injEq, Prod.mk.injEq] at h
      obtain ⟨hk, hr⟩ := h
      rw [← hk, ← hr]
      refine ⟨insert_candidates_single present key (n + 1) ?_, rfl⟩
      rintro ⟨q, hq, hq0⟩
      rw [hp] at hq
      simp only [Run.ret.injEq] at hq
      exact absurd (hq ▸ hp0) hq0
    · rw [if_pos hp0] at h ⊢
      simp only at h ⊢
      obtain ⟨⟨next, r1⟩, hdraw, h⟩ := Run.bind_eq_ret h
      obtain ⟨⟨ks1, r2⟩, hrec, h⟩ := Run.bind_eq_ret h
      simp only [Run.ret.injEq, Prod.mk.injEq] at h
      obtain ⟨hk, hr⟩ := h
      obtain ⟨⟨hhead, hlen, hpres, hlast⟩, hretry⟩ := ih next r1 ks1 r2 hrec
      have hne : ks1 ≠ [] := by
        intro hnil; rw [hnil] at hhead; simp at hhead
      have hlastD : (key :: ks1).getLastD 0 = ks1.getLastD 0 := by
        cases ks1 with
        | nil => exact absurd rfl hne
        | cons a l => simp [List.getLastD]
      rw [← hk, ← hr, hlastD, hdraw]
      refine ⟨⟨rfl, ?_, ?_, ?_⟩, ?_⟩
      · simp only [List.length_cons]; omega
      · intro k hk'
        rw [List.dropLast_cons_of_ne_nil hne, List.mem_cons] at hk'
        rcases hk' with hk' | hk'
        · exact ⟨p, hk' ▸ hp, hp0⟩
        · exact hpres k hk'
      · intro hl
        have := hlast hl
        simp only [List.length_cons]; omega
      · exact hretry

theorem insert_step_abandon {σ : Type} (E : Engine σ) (fuel : Nat) (d : Driver σ)
    (key0 key : Int) (rng0 rng : xoshiro256) (p : Nat)
    (h0 : int_range_at_most_i64 fuel d.rng 1 1000 = .ret (key0, rng0))
    (h1 : insert_retry fuel d.present 10 key0 rng0 = .ret (key, rng))
    (hp : read_present d.present key = .ret p) (hne : p ≠ 0) :
    insert_step E fuel d = .ret { d with rng := rng } := by
  unfold insert_step
  rw [h0]
  simp only [Run.bind]
  rw [h1]
  simp only [Run.bind]
  rw [hp]
  simp only [Run.bind, hne, if_true, not_false_eq_true, ne_eq]

/-- Claim C15 (bounded retry, then abandon). In an Insert step the driver
draws one candidate key and redraws at most 10 more times while the candidate
is present: the candidates number at most 11, every candidate but the last is
present, and the last is present only after 11 draws. If the last candidate is
still present the step is abandoned: whatever the engine, the step returns the
state with only the generator moved, so that no engine call, no trace line and
no change of `keys`, `key_count` or `present` has taken place; and the step
still uses up one iteration of the loop. -/
theorem insert_bounded_retry {σ : Type} (E : Engine σ) (fuel : Nat) (d : Driver σ) :
    (∀ (key0 : Int) (rng0 : xoshiro256) (ks : List Int) (rng : xoshiro256),
      insert_candidates fuel d.present 10 key0 rng0 = .ret (ks, rng) →
        ks.head? = some key0 ∧ ks.length ≤ 11 ∧
        (∀ k ∈ ks.dropLast, ∃ p, read_present d.present k = .ret p ∧ p ≠ 0) ∧
        ((∃ p, read_present d.present (ks.getLastD 0) = .ret p ∧ p ≠ 0) →
          ks.length = 11) ∧
        insert_retry fuel d.present 10 key0 rng0 = .ret (ks.getLastD 0, rng)) ∧
    (∀ (key0 key : Int) (rng0 rng : xoshiro256) (p : Nat),
      int_range_at_most_i64 fuel d.rng 1 1000 = .ret (key0, rng0) →
      insert_retry fuel d.present 10 key0 rng0 = .ret (key, rng) →
      read_present d.present key = .ret p → p ≠ 0 →
        insert_step E fuel d = .ret { d with rng := rng }) ∧
    (∀ (n : Nat) (d' : Driver σ), driver_step E fuel d = .ret d' →
      driver_loop E fuel (n + 1) d = driver_loop E fuel n d') := by
  refine ⟨fun key0 rng0 ks rng h =>
      have hs := insert_candidates_spec fuel d.present 10 key0 rng0 ks rng h
      ⟨hs.1.1, hs.1.2.1, hs.1.2.2.1, hs.1.2.2.2, hs.2⟩,
    fun key0 key rng0 rng p h0 h1 hp hne =>
      insert_step_abandon E fuel d key0 key rng0 rng p h0 h1 hp hne, ?_⟩
  intro n d' h
  show (driver_step E fuel d).bind _ = _
  rw [h]
  rfl

theorem insert_bounded_retry_witness :
    (int_range_at_most_i64 0 saturated_state.rng 1 1000 = .ret saturated_first ∧
      insert_candidates 0 saturated_state.present 10 saturated_first.1 saturated_first.2
        = .ret saturated_candidates ∧
      saturated_candidates.1 = [549, 819, 674, 403, 713, 353, 13, 918, 775, 81, 180] ∧
      read_present saturated_state.present (saturated_candidates.1.getLastD 0) = .ret 1) ∧
    (saturated_candidates.1.head? = some saturated_first.1 ∧
      saturated_candidates.1.length = 11 ∧
      insert_retry 0 saturated_state.present 10 saturated_first.1 saturated_first.2
        = .ret (saturated_candidates.1.getLastD 0, saturated_candidates.2) ∧
      insert_step set_engine 0 saturated_state
        = .ret { saturated_state with rng := saturated_candidates.2 }) := by
  have h0 : int_range_at_most_i64 0 saturated_state.rng 1 1000 = .ret saturated_first :=
    Run.eq_ret_of_returns (0, saturated_state.rng) (by decide!)
  have h1 : insert_candidates 0 saturated_state.present 10 saturated_first.1
      saturated_first.2 = .ret saturated_candidates :=
    Run.eq_ret_of_returns ([], saturated_state.rng) (by decide!)
  have h2 : read_present saturated_state.present (saturated_candidates.1.getLastD 0)
      = .ret 1 := by
    decide!
  have h0' : int_range_at_most_i64 0 saturated_state.rng 1 1000
      = .ret (saturated_first.1, saturated_first.2) := by
    rw [Prod.mk.eta]; exact h0
  have h1' : insert_candidates 0 saturated_state.present 10 saturated_first.1
      saturated_first.2 = .ret (saturated_candidates.1, saturated_candidates.2) := by
    rw [Prod.mk.eta]; exact h1
  have hs := insert_bounded_retry set_engine 0 saturated_state
  have hc := hs.1 saturated_first.1 saturated_first.2 saturated_candidates.1
    saturated_candidates.2 h1'
  exact ⟨⟨h0, h1, by decide!, h2⟩, hc.1, hc.2.2.2.1 ⟨1, h2, by decide⟩, hc.2.2.2.2,
    hs.2.1 saturated_first.1 (saturated_candidates.1.getLastD 0) saturated_first.2
      saturated_candidates.2 1 h0' hc.2.2.2.2 h2 (by decide)⟩

/-! ### Picks need a non-empty oracle -/

theorem pick_in_range {σ : Type} (fuel : Nat) (d : Driver σ) (hinv : OracleInv d)
    (rng rng' : xoshiro256) (idx : Nat) (hpos : 0 < d.key_count)
    (h : uint_less_than_u64 fuel rng d.key_count = .ret (idx, rng')) :
    idx < d.key_count ∧
    ∃ key, read_keys .keys_oob d.keys idx = .ret key ∧
      ∃ p, read_present d.present key = .ret p ∧ p ≠ 0 := by
  have hidx : idx < d.key_count := uint_less_than_u64_lt fuel rng _ idx rng' hpos h
  obtain ⟨hlen, hkc, -, -, hrange, hpres⟩ := hinv
  have hi : idx < d.keys.length := by omega
  have hk : d.keys[idx]? = some d.keys[idx] := List.getElem?_eq_getElem hi
  have hmem := mem_dense_of_getElem? d idx _ hidx hk
  obtain ⟨h1, h2⟩ := hrange _ hmem
  refine ⟨hidx, d.keys[idx], read_keys_eq _ _ _ _ hk, _,
    read_present_eq d.present _ hlen (by omega) h2, ?_⟩
  exact (hpres _ (by omega) h2).2 hmem

/-- Claim C16 (non-empty precondition of picks). After any number of driver
steps: when `key_count = 0` the action is Insert and no action draw is
consumed, the generator state being untouched; an action other than Insert is
selected only when `key_count > 0`; and every index `idx` returned by
`uint_less_than_u64(key_count)` with `key_count > 0`, as drawn in a Delete or
Search step, satisfies `idx < key_count`, with `keys[idx]` readable and marked
present. -/
theorem picks_need_keys {σ : Type} (E : Engine σ) (fuel seed ops n : Nat) (crsr : σ)
    (d : Driver σ) (hops : ops < U64)
    (hd : driver_loop E fuel n (driver_init seed ops crsr) = .ret d) :
    (d.key_count = 0 →
      select_action fuel d = .ret (0, d.rng) ∧
      driver_step E fuel d = insert_step E fuel d) ∧
    (∀ (action : Nat) (rng : xoshiro256),
      select_action fuel d = .ret (action, rng) → action ≠ 0 → 0 < d.key_count) ∧
    (∀ (rng rng' : xoshiro256) (idx : Nat), 0 < d.key_count →
      uint_less_than_u64 fuel rng d.key_count = .ret (idx, rng') →
        idx < d.key_count ∧
        ∃ key, read_keys .keys_oob d.keys idx = .ret key ∧
          ∃ p, read_present d.present key = .ret p ∧ p ≠ 0) := by
  have hinv := (reach_inv E fuel seed ops n crsr d hops hd).1
  refine ⟨?_, ?_, fun rng rng' idx hpos h => pick_in_range fuel d hinv rng rng' idx hpos h⟩
  · intro h0
    have hsel : select_action fuel d = .ret (0, d.rng) := by
      unfold select_action
      rw [if_pos h0]
    refine ⟨hsel, ?_⟩
    unfold driver_step
    rw [hsel]
    rfl
  · intro action rng hsel hne
    exact Run.sat_ret (select_action_sat fuel d) hsel hne

theorem picks_need_keys_witness :
    (8 < U64 ∧
      driver_loop set_engine 0 2 (driver_init 0xC0FFEE 8 SetEngine.empty)
        = .ret (sample_state 2) ∧
      driver_loop set_engine 0 8 (driver_init 0xC0FFEE 8 SetEngine.empty)
        = .ret (sample_state 8) ∧
      (sample_state 2).key_count = 0 ∧ 0 < (sample_state 8).key_count ∧
      (uint_less_than_u64 0 (sample_state 8).rng (sample_state 8).key_count).returns
        = true) ∧
    (select_action 0 (sample_state 2) = .ret (0, (sample_state 2).rng) ∧
      driver_step set_engine 0 (sample_state 2) = insert_step set_engine 0 (sample_state 2)) ∧
    (∀ p : Nat × xoshiro256,
      uint_less_than_u64 0 (sample_state 8).rng (sample_state 8).key_count = .ret p →
      p.1 < (sample_state 8).key_count ∧
      ∃ key, read_keys .keys_oob (sample_state 8).keys p.1 = .ret key ∧
        ∃ q, read_present (sample_state 8).present key = .ret q ∧ q ≠ 0) :=
  have h2 := sample_state_reach 2 (by decide!)
  have h8 := sample_state_reach 8 (by decide!)
  have hz : (sample_state 2).key_count = 0 := by decide!
  have hpos : 0 < (sample_state 8).key_count := Nat.le_of_ble_eq_true (by decide!)
  ⟨⟨by decide, h2, h8, hz, hpos, by decide!⟩,
   (picks_need_keys set_engine 0 0xC0FFEE 8 2 SetEngine.empty (sample_state 2)
     (by decide) h2).1 hz,
   fun p hp =>
     (picks_need_keys set_engine 0 0xC0FFEE 8 8 SetEngine.empty (sample_state 8)
       (by decide) h8).2.2 (sample_state 8).rng p.2 p.1 hpos hp⟩

/-! ### The key buffer -/

theorem key_count_le_1000 {σ : Type} (d : Driver σ) (hinv : OracleInv d) :
    d.key_count ≤ 1000 := by
  obtain ⟨-, hkc, -, hnd, hrange, -⟩ := hinv
  have hlen : d.dense.length = d.key_count := by
    unfold Driver.dense
    rw [List.length_take]
    exact min_eq_left hkc
  have hsub : d.dense.toFinset ⊆ Finset.Icc (1 : Int) 1000 := by
    intro k hk
    rw [List.mem_toFinset] at hk
    rw [Finset.mem_Icc]
    exact hrange k hk
  have hcard := Finset.card_le_card hsub
  rw [List.toFinset_card_of_nodup hnd, hlen, Int.card_Icc] at hcard
  simpa using hcard

theorem Step_count {σ : Type} {E : Engine σ} {d d' : Driver σ} (h : Step E d d') :
    d'.key_count ≤ d.key_count + 1 ∧ d'.keys.length = d.keys.length := by
  rcases h with h | ⟨key, h⟩ | ⟨idx, key, h⟩ | ⟨key, found, h⟩
  · obtain ⟨hk, hc, -⟩ := h
    rw [hk, hc]; exact ⟨by omega, rfl⟩
  · obtain ⟨-, -, -, -, -, -, hk, hc, -⟩ := h
    rw [hk, hc, List.length_set]; exact ⟨le_refl _, rfl⟩
  · obtain ⟨-, -, -, -, -, -, ⟨last, -, hk⟩, hc, -⟩ := h
    rw [hk, hc, List.length_set]; exact ⟨by omega, rfl⟩
  · obtain ⟨-, -, -, -, -, hk, hc, -⟩ := h
    rw [hk, hc]; exact ⟨by omega, rfl⟩

theorem driver_loop_bound {σ : Type} (E : Engine σ) (fuel ops : Nat) :
    ∀ (n m : Nat) (d : Driver σ), OracleInv d → d.keys.length = ops →
      d.key_count ≤ m → m + n ≤ ops →
      (driver_loop E fuel n d).sat
        (fun d' => OracleInv d' ∧ d'.keys.length = ops ∧ d'.key_count ≤ m + n)
        (fun _ => True) (fun _ => False) := by
  intro n
  induction n with
  | zero =>
    intro m d hinv hlen hkc _
    exact ⟨hinv, hlen, hkc⟩
  | succ n ih =>
    intro m d hinv hlen hkc hmn
    unfold driver_loop
    refine @Run.sat_bind _ _ _ _ (fun d1 => OracleInv d1 ∧ d1.keys.length = ops ∧
      d1.key_count ≤ m + 1) _ _ _ ?_ ?_
    · refine Run.sat_mono (driver_step_sat E fuel d hinv) ?_ (fun _ _ => trivial) ?_
      · intro d1 hstep
        obtain ⟨hc, hl⟩ := Step_count hstep
        exact ⟨Step_inv hinv hstep, hl.trans hlen, by omega⟩
      · rintro k ⟨-, hfull⟩
        omega
    · rintro d1 ⟨hinv1, hlen1, hkc1⟩
      have := ih (m + 1) d1 hinv1 hlen1 hkc1 (by omega)
      rw [show m + (n + 1) = m + 1 + n by omega]
      exact this

theorem key_buffer_in_bounds {σ : Type} (E : Engine σ) (fuel seed ops n : Nat) (crsr : σ)
    (halloc : ops * 8 < U64) (hn : n ≤ ops) :
    (∀ d, driver_loop E fuel n (driver_init seed ops crsr) = .ret d →
      d.key_count ≤ n ∧ d.key_count ≤ 1000 ∧ d.keys.length = ops ∧
      (n < ops → d.key_count < d.keys.length)) ∧
    (∀ k, driver_loop E fuel n (driver_init seed ops crsr) ≠ .ub k) := by
  have hops : ops < U64 := by omega
  have hb := driver_loop_bound E fuel ops n 0 (driver_init seed ops crsr)
    (OracleInv_init seed ops crsr hops)
    (calloc_length ops 8 halloc) (Nat.le_refl 0) (by omega)
  constructor
  · intro d hd
    obtain ⟨hinv, hlen, hkc⟩ := Run.sat_ret hb hd
    rw [Nat.zero_add] at hkc
    exact ⟨hkc, key_count_le_1000 d hinv, hlen, fun hlt => by omega⟩
  · intro k hk
    exact Run.sat_ub hb hk

theorem read_present_zeros (key : Int) (p : Nat)
    (h : read_present (List.replicate 1001 0) key = .ret p) : p = 0 := by
  unfold read_present at h
  split at h
  · split at h
    · next q hq =>
      rw [List.getElem?_eq_some_iff] at hq
      obtain ⟨hlt, hq⟩ := hq
      rw [List.getElem_replicate] at hq
      injection h with h
      omega
    · exact Run.noConfusion h
  · exact Run.noConfusion h

theorem insert_step_null {σ : Type} (E : Engine σ) (fuel : Nat) (d : Driver σ)
    (hkeys : d.keys = []) (hzero : ∀ key p, read_present d.present key = .ret p → p = 0) :
    (insert_step E fuel d).sat (fun _ => False) (fun _ => True) (fun _ => True) := by
  unfold insert_step
  refine Run.sat_bind (Run.ret_sat_true _) ?_
  rintro ⟨key0, rng0⟩ -
  refine Run.sat_bind (Run.ret_sat_true _) ?_
  rintro ⟨key, rng⟩ -
  refine @Run.sat_bind _ _ _ _ (fun p => p = 0) _ _ _ ?_ ?_
  · cases h : read_present d.present key with
    | ret p => exact hzero key p h
    | exit1 f => trivial
    | timeout => trivial
    | ub k => trivial
  · intro p hp
    simp only
    rw [if_neg (by simp [hp])]
    split
    · trivial
    · refine Run.sat_bind (Run.ret_sat_true _) ?_
      intro present _
      rw [hkeys]
      trivial


theorem driver_step_of_empty {σ : Type} (E : Engine σ) (fuel : Nat) (d : Driver σ)
    (h0 : d.key_count = 0) : driver_step E fuel d = insert_step E fuel d := by
  have hsel : select_action fuel d = .ret (0, d.rng) := by
    unfold select_action
    rw [if_pos h0]
  unfold driver_step
  rw [hsel]
  rfl

theorem driver_init_null {σ : Type} (seed ops : Nat) (crsr : σ) (hnull : U64 ≤ ops * 8) :
    (driver_init seed ops crsr).keys = [] := by
  show calloc ops 8 = []
  exact calloc_null ops 8 hnull

theorem driver_init_zeros {σ : Type} (seed ops : Nat) (crsr : σ) (key : Int) (p : Nat)
    (h : read_present (driver_init seed ops crsr).present key = .ret p) : p = 0 := by
  have h' : read_present (List.replicate 1001 0) key = .ret p := h
  exact read_present_zeros key p h'

theorem driver_step_null {σ : Type} (E : Engine σ) (fuel seed ops : Nat) (crsr : σ)
    (hnull : U64 ≤ ops * 8) (d : Driver σ) :
    driver_step E fuel (driver_init seed ops crsr) ≠ .ret d := by
  have hsat := insert_step_null E fuel (driver_init seed ops crsr)
    (driver_init_null seed ops crsr hnull) (driver_init_zeros seed ops crsr)
  intro h
  rw [driver_step_of_empty E fuel _ rfl] at h
  exact Run.sat_ret hsat h

/-- Claim C18 (key buffer bound), at the failing input `ops = 2 ^ 61`. The
byte count `2 ^ 61 * 8` does not fit `size_t`, so `calloc` returns NULL and
`keys` has no element. With the default seed `0xC0FFEE` the first driver step
is an Insert whose store `keys[key_count++] = key` goes through NULL: the
driver loop and the whole run fault there, whatever the number of steps asked
for. No first step completes for any seed and any engine. -/
theorem key_buffer_null_store :
    calloc (2 ^ 61) 8 = [] ∧
    (driver_init 0xC0FFEE (2 ^ 61) SetEngine.empty).key_count = 0 ∧
    (driver_init 0xC0FFEE (2 ^ 61) SetEngine.empty).keys = [] ∧
    driver_step set_engine 0 (driver_init 0xC0FFEE (2 ^ 61) SetEngine.empty)
      = .ub .keys_oob ∧
    (∀ n, driver_loop set_engine 0 (n + 1) (driver_init 0xC0FFEE (2 ^ 61) SetEngine.empty)
      = .ub .keys_oob) ∧
    (∀ scan_fuel, main_run set_engine 0 scan_fuel 0xC0FFEE (2 ^ 61) SetEngine.empty
      = .ub .keys_oob) ∧
    (∀ (σ : Type) (E : Engine σ) (fuel seed : Nat) (crsr : σ) (d : Driver σ),
      driver_step E fuel (driver_init seed (2 ^ 61) crsr) ≠ .ret d) := by
  have hstep : driver_step set_engine 0 (driver_init 0xC0FFEE (2 ^ 61) SetEngine.empty)
      = .ub .keys_oob := by decide!
  have hloop : ∀ n, driver_loop set_engine 0 (n + 1)
      (driver_init 0xC0FFEE (2 ^ 61) SetEngine.empty) = .ub .keys_oob := by
    intro n
    unfold driver_loop
    rw [hstep]
    rfl
  refine ⟨by decide, rfl, by decide!, hstep, hloop, ?_, ?_⟩
  · intro scan_fuel
    unfold main_run
    have h := hloop (2 ^ 61 - 1)
    rw [show 2 ^ 61 - 1 + 1 = 2 ^ 61 by decide] at h
    rw [h]
    rfl
  · intro σ E fuel seed crsr d
    exact driver_step_null E fuel seed (2 ^ 61) crsr (by decide) d

end BtrTrace
